import Mathlib

/-!
Shallow embedding of the clustering, bracketing, data-matrix and
blank-subtraction algorithms of `src/tidyms/dartms.py`, together with
theorems checking the specification claims against them.

Modelling conventions: masses, intensities and PPM values are rationals;
numpy arrays are lists indexed with `List.getD`; the float NaN sentinel for
missing data-matrix cells is `Option.none`; numpy boolean-mask selection is
`maskFilter`.  `np.argmax` / `np.argmin` return the first index attaining
the extremum, which the recursive `argmaxQ` / `argminQ` below compute.
-/

namespace TidyMS

/-- Index of the first occurrence of the maximum of a rational list
(0 for the empty list), as `np.argmax` computes it. -/
def argmaxQ : List ℚ → ℕ
  | [] => 0
  | [_] => 0
  | x :: y :: ys =>
    if x < (y :: ys).getD (argmaxQ (y :: ys)) 0 then argmaxQ (y :: ys) + 1 else 0

/-- Index of the first occurrence of the minimum of a rational list
(0 for the empty list), as `np.argmin` computes it. -/
def argminQ : List ℚ → ℕ
  | [] => 0
  | [_] => 0
  | x :: y :: ys =>
    if (y :: ys).getD (argminQ (y :: ys)) 0 < x then argminQ (y :: ys) + 1 else 0

/-- Maximum of a rational list (`np.max`; 0 for the empty list, on which
numpy raises instead — the theorems only use nonempty lists). -/
def listMaxQ : List ℚ → ℚ
  | [] => 0
  | [x] => x
  | x :: y :: ys => max x (listMaxQ (y :: ys))

/-- Minimum of a rational list (`np.min`; 0 for the empty list). -/
def listMinQ : List ℚ → ℚ
  | [] => 0
  | [x] => x
  | x :: y :: ys => min x (listMinQ (y :: ys))

/-- Arithmetic mean of a rational list (`np.mean` / unweighted `np.average`). -/
def qmean (l : List ℚ) : ℚ := l.sum / (l.length : ℚ)

/-- PPM spread `(max - min) / mean * 1e6` of a list of masses. -/
def ppmSpread (l : List ℚ) : ℚ := (listMaxQ l - listMinQ l) / qmean l * 1000000

/-- Selection of the entries of `vals` at the `true` positions of a boolean
mask, mirroring numpy boolean-mask indexing `vals[mask]`. -/
def maskFilter (mask : List Bool) (vals : List ℚ) : List ℚ :=
  (mask.zip vals).filterMap (fun p => if p.1 then some p.2 else none)

/-- Insertion of an integer into a strictly sorted duplicate-free list,
keeping it strictly sorted and duplicate-free. -/
def insertUnique (x : ℤ) : List ℤ → List ℤ
  | [] => [x]
  | y :: ys => if x < y then x :: y :: ys else if x = y then y :: ys else y :: insertUnique x ys

/-- Sorted list of the distinct values of an integer list, as `np.unique`
returns it. -/
def uniqSorted (l : List ℤ) : List ℤ := l.foldr insertUnique []

/-- Rank of a value inside a list: the index of its first occurrence
(`l.length` when absent). -/
def rankOf (x : ℤ) : List ℤ → ℕ
  | [] => 0
  | y :: ys => if x = y then 0 else rankOf x ys + 1

/-! ### reindex_cluster (src/tidyms/dartms.py) -/

/-- Numpy masked assignment `newClust[cluster == val] = use` from
`reindex_cluster`. -/
def setWhere (cluster : List ℤ) (val : ℤ) (use : ℤ) (newClust : List ℤ) : List ℤ :=
  List.zipWith (fun c cur => if c = val then use else cur) cluster newClust

/-- Shallow embedding of `reindex_cluster`: walk the sorted distinct cluster
ids (`np.unique`) and assign each id a consecutive new id starting at 0
(the running counter `use` of the source equals the enumeration index). -/
def reindex_cluster (cluster : List ℤ) : List ℤ :=
  (uniqSorted cluster).enum.foldl
    (fun newClust p => setWhere cluster p.2 (p.1 : ℤ) newClust)
    (List.replicate cluster.length 0)

/-! ### Stable argsort (np.argsort) -/

/-- Stable insertion of an index into a list of indices sorted by key:
for equal keys the new (larger) index goes after the existing ones. -/
def insertIdxBy (key : ℕ → ℚ) (i : ℕ) : List ℕ → List ℕ
  | [] => [i]
  | j :: js => if key i < key j then i :: j :: js else j :: insertIdxBy key i js

/-- Indices `0..n-1` sorted stably by their key, as `np.argsort` returns
them (ties keep ascending original index). -/
def argsortBy (key : ℕ → ℚ) (n : ℕ) : List ℕ :=
  (List.range n).foldl (fun acc i => insertIdxBy key i acc) []

/-! ### crude_cluster_mz_list (src/tidyms/dartms.py) -/

/-- Cumulative sums of over-threshold flags
(`np.cumsum(diffsPPM > min_difference_ppm)` of the source), starting from a
running count `acc`. -/
def cumFlags (thr : ℚ) (acc : ℕ) : List ℚ → List ℕ
  | [] => []
  | g :: gs =>
    (if thr < g then acc + 1 else acc) :: cumFlags thr (if thr < g then acc + 1 else acc) gs

/-- Shallow embedding of `crude_cluster_mz_list`: sort the masses, compute
PPM gaps between consecutive sorted masses, open a new cluster id at every
gap above `min_difference_ppm`, and report the ids in the original signal
order by indexing with the inverse sort permutation
(`clust[np.argsort(mzOrd)]`).  The `intensity` argument is accepted but,
as in the source, unused by the clustering logic. -/
def crude_cluster_mz_list (mz intensity : List ℚ) (min_difference_ppm : ℚ) : List ℕ :=
  let mzOrd := argsortBy (fun i => mz.getD i 0) mz.length
  let mzS := mzOrd.map (fun i => mz.getD i 0)
  let diffsPPM := List.zipWith (fun a b => (b - a) / a * 1000000) mzS (mzS.drop 1)
  let clust := 0 :: cumFlags min_difference_ppm 0 diffsPPM
  (argsortBy (fun i => (mzOrd.getD i 0 : ℚ)) mzOrd.length).map (fun t => clust.getD t 0)

/-! ### collapse_mz_info (src/tidyms/dartms.py) -/

/-- Body of the accumulation loop of `collapse_mz_info`:
`j = cluster[i]; if j >= 0: mz_[j] += mz[i]*intensity[i]; intensity_[j] += intensity[i]`. -/
def collapseStep (mz intensity : List ℚ) (cluster : List ℤ)
    (acc : List ℚ × List ℚ) (i : ℕ) : List ℚ × List ℚ :=
  if 0 ≤ cluster.getD i 0 then
    (acc.1.set (cluster.getD i 0).toNat
      (acc.1.getD (cluster.getD i 0).toNat 0 + mz.getD i 0 * intensity.getD i 0),
     acc.2.set (cluster.getD i 0).toNat
      (acc.2.getD (cluster.getD i 0).toNat 0 + intensity.getD i 0))
  else acc

/-- Surviving cluster ids of `collapse_mz_info`:
`clusts, ns = np.unique(cluster, return_counts=True)` with the leading −1
entry dropped when present. -/
def collapseClusts (cluster : List ℤ) : List ℤ :=
  if (-1 : ℤ) ∈ uniqSorted cluster then (uniqSorted cluster).drop 1 else uniqSorted cluster

/-- Per-surviving-cluster signal counts `ns` of `collapse_mz_info`. -/
def collapseNs (cluster : List ℤ) : List ℕ :=
  if (-1 : ℤ) ∈ uniqSorted cluster then
    ((uniqSorted cluster).map (fun v => cluster.count v)).drop 1
  else (uniqSorted cluster).map (fun v => cluster.count v)

/-- Accumulated per-cluster weighted-mass and intensity sums of
`collapse_mz_info` (the loop `for i in range(mz.shape[0])`). -/
def collapseAcc (mz intensity : List ℚ) (cluster : List ℤ) : List ℚ × List ℚ :=
  (List.range mz.length).foldl (collapseStep mz intensity cluster)
    (List.replicate (collapseClusts cluster).length 0,
     List.replicate (collapseClusts cluster).length 0)

/-- Collapsed masses `mz_ = mz_ / intensity_` of `collapse_mz_info`. -/
def collapseMzW (mz intensity : List ℚ) (cluster : List ℤ) : List ℚ :=
  List.zipWith (· / ·) (collapseAcc mz intensity cluster).1 (collapseAcc mz intensity cluster).2

/-- The mass sort order `ord = np.argsort(mz_)` of `collapse_mz_info`. -/
def collapseOrd (mz intensity : List ℚ) (cluster : List ℤ) : List ℕ :=
  argsortBy (fun i => (collapseMzW mz intensity cluster).getD i 0)
    (collapseClusts cluster).length

/-- Shallow embedding of `collapse_mz_info`: per surviving (non −1) cluster,
accumulate intensity-weighted mass and total intensity, divide, aggregate the
intensity by the selected rule and sort the output pairs by mass.  The
`"max"` branch of the source rebinds `intensity_` to a scalar and then fails
at the final fancy indexing, and an unknown method raises `RuntimeError`;
both are modelled as `none`. -/
def collapse_mz_info (mz intensity : List ℚ) (cluster : List ℤ) (method : String) :
    Option (List ℚ × List ℚ) :=
  if method = "sum" then
    some ((collapseOrd mz intensity cluster).map
        (fun t => (collapseMzW mz intensity cluster).getD t 0),
      (collapseOrd mz intensity cluster).map
        (fun t => (collapseAcc mz intensity cluster).2.getD t 0))
  else if method = "average" then
    some ((collapseOrd mz intensity cluster).map
        (fun t => (collapseMzW mz intensity cluster).getD t 0),
      (collapseOrd mz intensity cluster).map
        (fun t => (List.zipWith (· / ·) (collapseAcc mz intensity cluster).2
          ((collapseNs cluster).map (fun c : ℕ => (c : ℚ)))).getD t 0))
  else none

/-- Indices of the signals carrying cluster id `c` (statement-side
description used by the collapse and refinement claims). -/
def clusterSignals (cluster : List ℤ) (n : ℕ) (c : ℕ) : List ℕ :=
  (List.range n).filter (fun i => cluster.getD i 0 = (c : ℤ))

/-- Total intensity of cluster `c` (spec formula `Σ intensity`). -/
def clusterIntensitySum (intensity : List ℚ) (cluster : List ℤ) (n : ℕ) (c : ℕ) : ℚ :=
  ((clusterSignals cluster n c).map (fun i => intensity.getD i 0)).sum

/-- Intensity-weighted mean mass of cluster `c`
(spec formula `Σ(mz*intensity)/Σ(intensity)`). -/
def clusterWeightedMZ (mz intensity : List ℚ) (cluster : List ℤ) (c : ℕ) : ℚ :=
  ((clusterSignals cluster mz.length c).map
    (fun i => mz.getD i 0 * intensity.getD i 0)).sum /
    clusterIntensitySum intensity cluster mz.length c

/-! ### build_data_matrix (src/tidyms/dartms.py) -/

/-- Boolean window mask
`np.logical_and(spectrum.mz >= mzmin, spectrum.mz <= mzmax)` of
`build_data_matrix`: a sample's consensus spectrum is a pair of equal-length
mass and intensity lists, a bracket the `(min, mean, max)` m/z triple of the
bracketing results (their `featureMLInfo` component plays no role in the
cell computation). -/
def bracketMask (spectrum : List ℚ × List ℚ) (brac : ℚ × ℚ × ℚ) : List Bool :=
  spectrum.1.map (fun m => decide (brac.1 ≤ m ∧ m ≤ brac.2.2))

/-- Shallow embedding of `build_data_matrix`: one row per sample (the row
index realises the `sampleNamesToRowI` mapping of the source), one column
per bracket; a cell holds the sum of the sample's consensus intensities at
masses inside the closed bracket window, and `none` — the float NaN of the
source — when no mass falls inside. -/
def build_data_matrix (spectra : List (List ℚ × List ℚ)) (brackets : List (ℚ × ℚ × ℚ)) :
    List (List (Option ℚ)) :=
  spectra.map (fun spectrum =>
    brackets.map (fun brac =>
      if 0 < (bracketMask spectrum brac).count true then
        some (maskFilter (bracketMask spectrum brac) spectrum.2).sum
      else none))

/-! ### blank_subtraction (src/tidyms/dartms.py) -/

/-- Row indices of the samples of group `g`
(`[i for i, group in enumerate(groups) if group == g]`). -/
def groupInds (groups : List ℕ) (g : ℕ) : List ℕ :=
  (List.range groups.length).filter (fun i => groups.getD i 0 = g)

/-- Column `featurei` of the data matrix restricted to the rows `inds`
(`dat[inds, featurei]`); `none` is the NaN sentinel. -/
def colVals (dat : List (List (Option ℚ))) (inds : List ℕ) (featurei : ℕ) :
    List (Option ℚ) :=
  inds.map (fun i => (dat.getD i []).getD featurei none)

/-- Count of non-missing values of a whole matrix column
(`np.sum(~np.isnan(dat[:, featurei]))`). -/
def detectedCount (dat : List (List (Option ℚ))) (featurei : ℕ) : ℕ :=
  (dat.map (fun row => row.getD featurei none)).countP (fun v => v.isSome)

/-- One tested group's update of the signed keep-counter in
`blank_subtraction`; `none` models a failed `assert`.  The test
`notInBlanks` is recomputed here from the same unchanged column, which
equals the source's computing it once before the group loop.  `pvalOf`
abstracts the p-value of the two-sided Welch t-test
`scipy.stats.ttest_ind(..., equal_var=False)`, which has no rational closed
form; the claims hold for every such function. -/
def blankStep (pvalOf : List ℚ → List ℚ → ℚ) (dat : List (List (Option ℚ)))
    (groups : List ℕ) (blankGroup : ℕ) (foldCutoff pvalueCutoff : ℚ)
    (minDetected featurei : ℕ) (acc : Option ℤ) (toTestGroup : ℕ) : Option ℤ :=
  match acc with
  | none => none
  | some keep =>
    if (colVals dat (groupInds groups toTestGroup) featurei).countP
        (fun v => v.isSome) < minDetected then some keep
    else if (colVals dat (groupInds groups blankGroup) featurei).all
        (fun v => v.isNone) then
      if keep ≤ 0 then some (keep - 1) else none
    else
      if 0 ≤ keep then
        if pvalOf ((colVals dat (groupInds groups blankGroup) featurei).reduceOption)
              ((colVals dat (groupInds groups toTestGroup) featurei).reduceOption)
            ≤ pvalueCutoff ∧
            foldCutoff ≤
              qmean ((colVals dat (groupInds groups toTestGroup) featurei).reduceOption) /
              qmean ((colVals dat (groupInds groups blankGroup) featurei).reduceOption)
        then some (keep + 1) else some keep
      else none

/-- Final keep-counter of one feature of `blank_subtraction`: 0 when the
feature has fewer than `minDetected` non-missing values over all samples
(the `continue`), otherwise the fold of the tested groups from 0. -/
def featureKeep (pvalOf : List ℚ → List ℚ → ℚ) (dat : List (List (Option ℚ)))
    (groups : List ℕ) (blankGroup : ℕ) (toTestGroups : List ℕ)
    (foldCutoff pvalueCutoff : ℚ) (minDetected featurei : ℕ) : Option ℤ :=
  if detectedCount dat featurei < minDetected then some 0
  else toTestGroups.foldl
    (blankStep pvalOf dat groups blankGroup foldCutoff pvalueCutoff minDetected featurei)
    (some 0)

/-- Shallow embedding of `blank_subtraction`: the boolean keep-mask
`[k != 0 for k in keeps]` over the matrix columns, `none` when one of the
source's `assert` statements fails. -/
def blank_subtraction (pvalOf : List ℚ → List ℚ → ℚ) (dat : List (List (Option ℚ)))
    (groups : List ℕ) (blankGroup : ℕ) (toTestGroups : List ℕ)
    (foldCutoff pvalueCutoff : ℚ) (minDetected : ℕ) : Option (List Bool) :=
  ((List.range (dat.getD 0 []).length).mapM
    (featureKeep pvalOf dat groups blankGroup toTestGroups foldCutoff pvalueCutoff
      minDetected)).map (fun keeps => keeps.map (fun k => decide (k ≠ 0)))

/-! ### bracket_samples (src/tidyms/dartms.py) -/

/-- Seed choice of one bracketing iteration:
`c = np.argmax(temp["intensity"] * (temp["cluster"] == 0))`.  The pooled
intensity values are the log10-transformed intensities the source stores in
the pool; cluster id 0 means unassigned. -/
def bracketSeed (intensity : List ℚ) (cluster : List ℕ) : ℕ :=
  argmaxQ (List.zipWith (fun inte cl => inte * (if cl = 0 then 1 else 0)) intensity cluster)

/-- One bracketing iteration: every signal — assigned before or not — whose
mass lies within `max_ppm_deviation` PPM of the seed's mass
(`np.abs(temp["mz"] - cmz) / temp["mz"] * 1E6`, PPM relative to the
signal's own mass) is assigned to the new bracket `cclust`. -/
def bracketStep (mz intensity : List ℚ) (max_ppm_deviation : ℚ)
    (cluster : List ℕ) (cclust : ℕ) : List ℕ :=
  List.zipWith
    (fun m cl =>
      if |m - mz.getD (bracketSeed intensity cluster) 0| / m * 1000000
          ≤ max_ppm_deviation then cclust else cl)
    mz cluster

/-- The bracketing loop `while np.sum(temp["cluster"] == 0) > 0` of
`bracket_samples`, with fuel. -/
def bracketLoop (mz intensity : List ℚ) (max_ppm_deviation : ℚ) :
    ℕ → List ℕ → ℕ → List ℕ
  | 0, cluster, _ => cluster
  | fuel + 1, cluster, cclust =>
    if 0 < cluster.count 0 then
      bracketLoop mz intensity max_ppm_deviation fuel
        (bracketStep mz intensity max_ppm_deviation cluster cclust) (cclust + 1)
    else cluster

/-- Shallow embedding of the greedy bracket-assignment of `bracket_samples`
on the pooled consensus signals: all signals start unassigned (cluster 0)
and the first bracket id is 1.  `mz.length` rounds suffice whenever every
iteration assigns at least its seed. -/
def bracket_samples (mz intensity : List ℚ) (max_ppm_deviation : ℚ) : List ℕ :=
  bracketLoop mz intensity max_ppm_deviation mz.length (List.replicate mz.length 0) 1

/-! ### refine_clustering (src/tidyms/dartms.py)

The refinement is embedded with the crude cluster currently being processed
represented by its member positions `pos = np.argwhere(clusts == clust)`
and the local arrays `mzs_ = mzs[pos]`, `intensities_ = intensities[pos]`;
`used` holds 0 (unassigned), 1 (member of the currently growing
sub-cluster) or −1 (member of a closed sub-cluster), exactly as in the
source.  The unused `sample`, `spectrumID` and `expected_mz_deviation_ppm`
parameters of the source (the last appears only in commented-out debug
code) are dropped.  The two `while` loops are given fuel; the fuel passed
by `refine_clustering` is enough that it is never exhausted whenever every
iteration assigns an unassigned signal, which the theorems prove under
their hypotheses. -/

/-- Maximum of an integer list (`np.max`; 0 for the empty list, on which
numpy raises instead — the theorems require a nonempty input). -/
def listMaxZ : List ℤ → ℤ
  | [] => 0
  | [x] => x
  | x :: y :: ys => max x (listMaxZ (y :: ys))

/-- Indices of the entries of `l` equal to `v`, ascending
(`np.argwhere(l == v)`). -/
def positionsOf (l : List ℤ) (v : ℤ) : List ℕ :=
  (List.range l.length).filter (fun i => l.getD i 0 = v)

/-- Mask selection `usedMZs[used == 1]`. -/
def usedSel (usedMZs : List ℚ) (used : List ℤ) : List ℚ :=
  ((List.range usedMZs.length).filter (fun i => used.getD i 0 = 1)).map
    (fun i => usedMZs.getD i 0)

/-- Distance vector `np.abs(mzs_ - extreme) + np.abs(used) * 1E6` of the
inner growth loop. -/
def refineT (mzs_ : List ℚ) (used : List ℤ) (extreme : ℚ) : List ℚ :=
  (List.range mzs_.length).map
    (fun i => |mzs_.getD i 0 - extreme| + ((used.getD i 0).natAbs : ℚ) * 1000000)

/-- Choice of the signal to add:
`closest = closestTop if tTop[closestTop] < tLow[closestLow] else closestLow`. -/
def growClosest (mzs_ : List ℚ) (used : List ℤ) (usedMZs : List ℚ) : ℕ :=
  if (refineT mzs_ used (listMaxQ (usedSel usedMZs used))).getD
      (argminQ (refineT mzs_ used (listMaxQ (usedSel usedMZs used)))) 0 <
      (refineT mzs_ used (listMinQ (usedSel usedMZs used))).getD
      (argminQ (refineT mzs_ used (listMinQ (usedSel usedMZs used)))) 0
  then argminQ (refineT mzs_ used (listMaxQ (usedSel usedMZs used)))
  else argminQ (refineT mzs_ used (listMinQ (usedSel usedMZs used)))

/-- Close condition of the inner loop: no unassigned signal remains, or the
spread grew by more than `closest_signal_max_deviation_ppm`, or (when set)
the absolute spread exceeds `max_mz_deviation_ppm`; evaluated on the state
after the tentative addition. -/
def growRejectB (closestDev : ℚ) (maxDev : Option ℚ) (used1 : List ℤ)
    (usedMZs1 : List ℚ) (lastPPMDev : ℚ) : Bool :=
  (used1.count 0 == 0) ||
    decide (closestDev < ppmSpread (usedSel usedMZs1 used1) - lastPPMDev) ||
    (match maxDev with
      | none => false
      | some d => decide (d < ppmSpread (usedSel usedMZs1 used1)))

/-- Inner growth loop `while cont` of `refine_clustering`: one recursion
step adds the closest signal, recomputes the spread, and either keeps
growing or rejects the tentative addition and closes the sub-cluster
(`used = -np.abs(used)`, `usedMZs = usedMZs * 0.`, the rejected signal
reverts to its crude cluster id and `maxClust` advances). -/
def grow (mzs_ : List ℚ) (pos : List ℕ) (clusts : List ℤ) (closestDev : ℚ)
    (maxDev : Option ℚ) :
    ℕ → List ℤ → List ℚ → List ℤ → ℤ → ℚ → List ℤ × List ℚ × List ℤ × ℤ
  | 0, used, usedMZs, newClusts, maxClust, _ => (used, usedMZs, newClusts, maxClust)
  | fuel + 1, used, usedMZs, newClusts, maxClust, lastPPMDev =>
    if growRejectB closestDev maxDev
        (used.set (growClosest mzs_ used usedMZs) 1)
        (usedMZs.set (growClosest mzs_ used usedMZs)
          (mzs_.getD (growClosest mzs_ used usedMZs) 0))
        lastPPMDev = true then
      (((used.set (growClosest mzs_ used usedMZs) 1).set
          (growClosest mzs_ used usedMZs) 0).map (fun u => -(u.natAbs : ℤ)),
        ((usedMZs.set (growClosest mzs_ used usedMZs)
          (mzs_.getD (growClosest mzs_ used usedMZs) 0)).set
          (growClosest mzs_ used usedMZs) 0).map (fun _ => (0 : ℚ)),
        (newClusts.set (pos.getD (growClosest mzs_ used usedMZs) 0) (maxClust + 1)).set
          (pos.getD (growClosest mzs_ used usedMZs) 0)
          (clusts.getD (pos.getD (growClosest mzs_ used usedMZs) 0) 0),
        maxClust + 1)
    else
      grow mzs_ pos clusts closestDev maxDev fuel
        (used.set (growClosest mzs_ used usedMZs) 1)
        (usedMZs.set (growClosest mzs_ used usedMZs)
          (mzs_.getD (growClosest mzs_ used usedMZs) 0))
        (newClusts.set (pos.getD (growClosest mzs_ used usedMZs) 0) (maxClust + 1))
        maxClust
        (ppmSpread (usedSel
          (usedMZs.set (growClosest mzs_ used usedMZs)
            (mzs_.getD (growClosest mzs_ used usedMZs) 0))
          (used.set (growClosest mzs_ used usedMZs) 1)))

/-- Seed of a new sub-cluster:
`c = np.argmax(intensities_ * (used == 0))`. -/
def outerSeed (intensities_ : List ℚ) (used : List ℤ) : ℕ :=
  argmaxQ (List.zipWith (fun inte u => inte * (if u = 0 then 1 else 0)) intensities_ used)

/-- Outer loop `while sum(used == 0) > 0` of `refine_clustering`: seed the
highest-intensity unassigned signal, then run the growth loop when another
unassigned signal remains (`cont`). -/
def refineOuter (mzs_ intensities_ : List ℚ) (pos : List ℕ) (clusts : List ℤ)
    (closestDev : ℚ) (maxDev : Option ℚ) :
    ℕ → List ℤ → List ℚ → List ℤ → ℤ → List ℤ × ℤ
  | 0, _, _, newClusts, maxClust => (newClusts, maxClust)
  | fuel + 1, used, usedMZs, newClusts, maxClust =>
    if 0 < used.count 0 then
      if 0 < (used.set (outerSeed intensities_ used) 1).count 0 then
        refineOuter mzs_ intensities_ pos clusts closestDev maxDev fuel
          (grow mzs_ pos clusts closestDev maxDev (mzs_.length + 1)
            (used.set (outerSeed intensities_ used) 1)
            (usedMZs.set (outerSeed intensities_ used)
              (mzs_.getD (outerSeed intensities_ used) 0))
            (newClusts.set (pos.getD (outerSeed intensities_ used) 0) (maxClust + 1))
            maxClust 0).1
          (grow mzs_ pos clusts closestDev maxDev (mzs_.length + 1)
            (used.set (outerSeed intensities_ used) 1)
            (usedMZs.set (outerSeed intensities_ used)
              (mzs_.getD (outerSeed intensities_ used) 0))
            (newClusts.set (pos.getD (outerSeed intensities_ used) 0) (maxClust + 1))
            maxClust 0).2.1
          (grow mzs_ pos clusts closestDev maxDev (mzs_.length + 1)
            (used.set (outerSeed intensities_ used) 1)
            (usedMZs.set (outerSeed intensities_ used)
              (mzs_.getD (outerSeed intensities_ used) 0))
            (newClusts.set (pos.getD (outerSeed intensities_ used) 0) (maxClust + 1))
            maxClust 0).2.2.1
          (grow mzs_ pos clusts closestDev maxDev (mzs_.length + 1)
            (used.set (outerSeed intensities_ used) 1)
            (usedMZs.set (outerSeed intensities_ used)
              (mzs_.getD (outerSeed intensities_ used) 0))
            (newClusts.set (pos.getD (outerSeed intensities_ used) 0) (maxClust + 1))
            maxClust 0).2.2.2
      else
        refineOuter mzs_ intensities_ pos clusts closestDev maxDev fuel
          (used.set (outerSeed intensities_ used) 1)
          (usedMZs.set (outerSeed intensities_ used)
            (mzs_.getD (outerSeed intensities_ used) 0))
          (newClusts.set (pos.getD (outerSeed intensities_ used) 0) (maxClust + 1))
          maxClust
    else (newClusts, maxClust)

/-- Shallow embedding of `refine_clustering`: walk the sorted distinct
crude cluster ids; a cluster is re-partitioned when `n > 1`, where — as in
the source — `n = np.sum(clusts == i)` counts the value `i` of the
`enumerate` index while the member positions are taken at the value
`clust` (`pos = clusts == clust`); the two coincide on the dense ids the
pipeline produces. -/
def refineBody (mzs intensities : List ℚ) (clusts : List ℤ)
    (closest_signal_max_deviation_ppm : ℚ) (max_mz_deviation_ppm : Option ℚ)
    (acc : List ℤ × ℤ) (p : ℕ × ℤ) : List ℤ × ℤ :=
  if 1 < clusts.count (p.1 : ℤ) then
    refineOuter ((positionsOf clusts p.2).map (fun q => mzs.getD q 0))
      ((positionsOf clusts p.2).map (fun q => intensities.getD q 0))
      (positionsOf clusts p.2) clusts closest_signal_max_deviation_ppm
      max_mz_deviation_ppm
      ((positionsOf clusts p.2).length + 1)
      (List.replicate (positionsOf clusts p.2).length 0)
      (List.replicate (positionsOf clusts p.2).length 0)
      acc.1 (acc.2 + 1)
  else acc

def refine_clustering (mzs intensities : List ℚ) (clusts : List ℤ)
    (closest_signal_max_deviation_ppm : ℚ) (max_mz_deviation_ppm : Option ℚ) :
    List ℤ :=
  ((uniqSorted clusts).enum.foldl
    (refineBody mzs intensities clusts closest_signal_max_deviation_ppm
      max_mz_deviation_ppm)
    (clusts, listMaxZ clusts)).1

/-! #### Spread-bound machinery for C2 -/

/-- Member indices of the sub-cluster labelled `w` inside the processed
region, in region-local coordinates. -/
def regionIdx (m : ℕ) (pos : List ℕ) (nc : List ℤ) (w : ℤ) : List ℕ :=
  (List.range m).filter (fun i => nc.getD (pos.getD i 0) 0 = w)

/-- Masses of the sub-cluster labelled `w` inside the processed region. -/
def regionMzs (mzs_ : List ℚ) (pos : List ℕ) (nc : List ℤ) (w : ℤ) : List ℚ :=
  (regionIdx mzs_.length pos nc w).map (fun i => mzs_.getD i 0)

/-- Global member positions of the cluster labelled `w`. -/
def globIdx (nc : List ℤ) (w : ℤ) : List ℕ :=
  (List.range nc.length).filter (fun i => nc.getD i 0 = w)

/-- Global masses of the cluster labelled `w`. -/
def globMzs (mzs : List ℚ) (nc : List ℤ) (w : ℤ) : List ℚ :=
  (globIdx nc w).map (fun i => mzs.getD i 0)

/-- Fixed context of one crude-cluster region inside `refine_clustering`:
`pos` maps region-local indices to strictly increasing global positions of
the region's signals, whose crude ids lie below the region's label base
`McR`, and whose masses are positive and below 100000 (so that the
`+ |used| * 1E6` penalty dominates every mass distance). -/
structure RefCtx (mzs_ : List ℚ) (pos : List ℕ) (clusts : List ℤ) (McR : ℤ) :
    Prop where
  posLen : pos.length = mzs_.length
  posLt : ∀ i, i < mzs_.length → pos.getD i 0 < clusts.length
  posMono : ∀ i j, i < j → j < mzs_.length → pos.getD i 0 < pos.getD j 0
  crudeLt : ∀ i, i < mzs_.length → clusts.getD (pos.getD i 0) 0 < McR
  mzB : ∀ i, i < mzs_.length → 0 < mzs_.getD i 0 ∧ mzs_.getD i 0 < 100000

/-- Invariant of the inner growth loop of `refine_clustering`: `used` flags
are −1 (closed), 0 (unassigned) or 1 (open group); open signals carry their
mass in `usedMZs` and the label `mc + 1`; closed signals carry a label in
`(McR, mc]`; unassigned signals still hold their crude id; every closed
sub-cluster with at least two members has PPM spread at most `d`, as does
the open group. -/
structure GrowInv (mzs_ : List ℚ) (pos : List ℕ) (clusts : List ℤ) (McR : ℤ)
    (d : ℚ) (used : List ℤ) (usedMZs : List ℚ) (nc : List ℤ) (mc : ℤ) :
    Prop where
  lu : used.length = mzs_.length
  lm : usedMZs.length = mzs_.length
  ln : nc.length = clusts.length
  ur : ∀ i, i < mzs_.length →
    used.getD i 0 = -1 ∨ used.getD i 0 = 0 ∨ used.getD i 0 = 1
  um : ∀ i, i < mzs_.length → used.getD i 0 = 1 →
    usedMZs.getD i 0 = mzs_.getD i 0
  lblz : ∀ i, i < mzs_.length → used.getD i 0 = 0 →
    nc.getD (pos.getD i 0) 0 = clusts.getD (pos.getD i 0) 0
  lblo : ∀ i, i < mzs_.length → used.getD i 0 = 1 →
    nc.getD (pos.getD i 0) 0 = mc + 1
  lbln : ∀ i, i < mzs_.length → used.getD i 0 = -1 →
    McR < nc.getD (pos.getD i 0) 0 ∧ nc.getD (pos.getD i 0) 0 ≤ mc
  mcge : McR ≤ mc
  closed : ∀ w : ℤ, McR < w → w ≤ mc →
    2 ≤ (regionIdx mzs_.length pos nc w).length →
    ppmSpread (regionMzs mzs_ pos nc w) ≤ d
  openSp : 2 ≤ (usedSel usedMZs used).length →
    ppmSpread (usedSel usedMZs used) ≤ d
  one : ∃ i, i < mzs_.length ∧ used.getD i 0 = 1

/-- Invariant of the outer seeding loop of `refine_clustering` (between two
growth phases no signal is flagged 1): closed signals carry a label in
`(McR, mc]`, unassigned signals their crude id, and every closed
sub-cluster with at least two members has PPM spread at most `d`. -/
structure OuterInv (mzs_ : List ℚ) (pos : List ℕ) (clusts : List ℤ) (McR : ℤ)
    (d : ℚ) (used : List ℤ) (nc : List ℤ) (mc : ℤ) : Prop where
  lu : used.length = mzs_.length
  ln : nc.length = clusts.length
  ur : ∀ i, i < mzs_.length → used.getD i 0 = -1 ∨ used.getD i 0 = 0
  lblz : ∀ i, i < mzs_.length → used.getD i 0 = 0 →
    nc.getD (pos.getD i 0) 0 = clusts.getD (pos.getD i 0) 0
  lbln : ∀ i, i < mzs_.length → used.getD i 0 = -1 →
    McR < nc.getD (pos.getD i 0) 0 ∧ nc.getD (pos.getD i 0) 0 ≤ mc
  mcge : McR ≤ mc
  closed : ∀ w : ℤ, McR < w → w ≤ mc →
    2 ≤ (regionIdx mzs_.length pos nc w).length →
    ppmSpread (regionMzs mzs_ pos nc w) ≤ d

/-- Invariant threaded through the fold over the sorted distinct crude ids
in `refine_clustering` (dense ids: the pair processed at step `j` is
`(j, j)`): positions of still-unprocessed crude clusters are untouched,
labels never exceed `maxClust + 1`, positions of processed multi-signal
clusters carry fresh labels above the crude range, and every fresh label
with at least two members has PPM spread at most `d`. -/
structure FoldInv (mzs : List ℚ) (clusts : List ℤ) (d : ℚ) (j : ℕ)
    (nc : List ℤ) (mc : ℤ) : Prop where
  len : nc.length = clusts.length
  mcge : listMaxZ clusts ≤ mc
  untouched : ∀ p, p < clusts.length → (j : ℤ) ≤ clusts.getD p 0 →
    nc.getD p 0 = clusts.getD p 0
  ub : ∀ p, p < clusts.length → nc.getD p 0 ≤ mc + 1
  done : ∀ p, p < clusts.length → clusts.getD p 0 < (j : ℤ) →
    (1 < clusts.count (clusts.getD p 0) → listMaxZ clusts < nc.getD p 0) ∧
    (¬ 1 < clusts.count (clusts.getD p 0) → nc.getD p 0 = clusts.getD p 0)
  spread : ∀ w : ℤ, listMaxZ clusts < w → 2 ≤ (globIdx nc w).length →
    ppmSpread (globMzs mzs nc w) ≤ d

theorem argmaxQ_lt_length (l : List ℚ) (h : l ≠ []) : argmaxQ l < l.length := by
  induction l with
  | nil => simp at h
  | cons x xs ih =>
    rcases xs with _ | ⟨y, ys⟩
    · simp [argmaxQ]
    · rw [argmaxQ]
      by_cases hlt : x < (y :: ys).getD (argmaxQ (y :: ys)) 0
      · rw [if_pos hlt]
        exact Nat.succ_lt_succ (ih (by simp))
      · rw [if_neg hlt]
        simp

theorem argmaxQ_ge (l : List ℚ) (j : ℕ) (hj : j < l.length) :
    l.getD j 0 ≤ l.getD (argmaxQ l) 0 := by
  induction l generalizing j with
  | nil => simp at hj
  | cons x xs ih =>
    rcases xs with _ | ⟨y, ys⟩
    · rcases j with _ | j
      · simp [argmaxQ]
      · simp at hj
    · rw [argmaxQ]
      by_cases hlt : x < (y :: ys).getD (argmaxQ (y :: ys)) 0
      · rw [if_pos hlt]
        rcases j with _ | j
        · simpa using hlt.le
        · simpa using ih j (by simpa using hj)
      · rw [if_neg hlt]
        push_neg at hlt
        rcases j with _ | j
        · simp
        · simp only [List.getD_cons_succ, List.getD_cons_zero]
          exact le_trans (ih j (by simpa using hj)) hlt

theorem argmaxQ_first (l : List ℚ) (j : ℕ) (hj : j < l.length)
    (h : l.getD (argmaxQ l) 0 ≤ l.getD j 0) : argmaxQ l ≤ j := by
  induction l generalizing j with
  | nil => simp at hj
  | cons x xs ih =>
    rcases xs with _ | ⟨y, ys⟩
    · simp [argmaxQ]
    · rw [argmaxQ] at h ⊢
      by_cases hlt : x < (y :: ys).getD (argmaxQ (y :: ys)) 0
      · rw [if_pos hlt] at h ⊢
        rcases j with _ | j
        · exact absurd (lt_of_lt_of_le hlt (by simpa using h)) (lt_irrefl x)
        · exact Nat.succ_le_succ (ih j (by simpa using hj) (by simpa using h))
      · rw [if_neg hlt]
        exact Nat.zero_le j

theorem argminQ_lt_length (l : List ℚ) (h : l ≠ []) : argminQ l < l.length := by
  induction l with
  | nil => simp at h
  | cons x xs ih =>
    rcases xs with _ | ⟨y, ys⟩
    · simp [argminQ]
    · rw [argminQ]
      by_cases hlt : (y :: ys).getD (argminQ (y :: ys)) 0 < x
      · rw [if_pos hlt]
        exact Nat.succ_lt_succ (ih (by simp))
      · rw [if_neg hlt]
        simp

theorem argminQ_le (l : List ℚ) (j : ℕ) (hj : j < l.length) :
    l.getD (argminQ l) 0 ≤ l.getD j 0 := by
  induction l generalizing j with
  | nil => simp at hj
  | cons x xs ih =>
    rcases xs with _ | ⟨y, ys⟩
    · rcases j with _ | j
      · simp [argminQ]
      · simp at hj
    · rw [argminQ]
      by_cases hlt : (y :: ys).getD (argminQ (y :: ys)) 0 < x
      · rw [if_pos hlt]
        rcases j with _ | j
        · simpa using hlt.le
        · simpa using ih j (by simpa using hj)
      · rw [if_neg hlt]
        push_neg at hlt
        rcases j with _ | j
        · simp
        · simp only [List.getD_cons_succ, List.getD_cons_zero]
          exact le_trans hlt (ih j (by simpa using hj))

theorem le_listMaxQ (l : List ℚ) (x : ℚ) (hx : x ∈ l) : x ≤ listMaxQ l := by
  induction l with
  | nil => simp at hx
  | cons a as ih =>
    rcases as with _ | ⟨b, bs⟩
    · simp at hx; simp [listMaxQ, hx]
    · rw [listMaxQ]
      rcases List.mem_cons.mp hx with h | h
      · exact h ▸ le_max_left _ _
      · exact le_trans (ih h) (le_max_right _ _)

theorem listMaxQ_mem (l : List ℚ) (h : l ≠ []) : listMaxQ l ∈ l := by
  induction l with
  | nil => simp at h
  | cons a as ih =>
    rcases as with _ | ⟨b, bs⟩
    · simp [listMaxQ]
    · rw [listMaxQ]
      rcases max_choice a (listMaxQ (b :: bs)) with h1 | h1
      · rw [h1]; exact List.mem_cons_self ..
      · rw [h1]; exact List.mem_cons_of_mem _ (ih (by simp))

theorem listMinQ_le (l : List ℚ) (x : ℚ) (hx : x ∈ l) : listMinQ l ≤ x := by
  induction l with
  | nil => simp at hx
  | cons a as ih =>
    rcases as with _ | ⟨b, bs⟩
    · simp at hx; simp [listMinQ, hx]
    · rw [listMinQ]
      rcases List.mem_cons.mp hx with h | h
      · exact h ▸ min_le_left _ _
      · exact le_trans (min_le_right _ _) (ih h)

theorem listMinQ_mem (l : List ℚ) (h : l ≠ []) : listMinQ l ∈ l := by
  induction l with
  | nil => simp at h
  | cons a as ih =>
    rcases as with _ | ⟨b, bs⟩
    · simp [listMinQ]
    · rw [listMinQ]
      rcases min_choice a (listMinQ (b :: bs)) with h1 | h1
      · rw [h1]; exact List.mem_cons_self ..
      · rw [h1]; exact List.mem_cons_of_mem _ (ih (by simp))

theorem mem_insertUnique (x a : ℤ) (l : List ℤ) :
    a ∈ insertUnique x l ↔ a = x ∨ a ∈ l := by
  induction l with
  | nil => simp [insertUnique]
  | cons y ys ih =>
    rw [insertUnique]
    by_cases h1 : x < y
    · rw [if_pos h1]
      simp
    · rw [if_neg h1]
      by_cases h2 : x = y
      · rw [if_pos h2]
        subst h2
        simp only [List.mem_cons]
        tauto
      · rw [if_neg h2]
        simp only [List.mem_cons, ih]
        tauto

theorem pairwise_insertUnique (x : ℤ) (l : List ℤ) (h : l.Pairwise (· < ·)) :
    (insertUnique x l).Pairwise (· < ·) := by
  induction l with
  | nil => simp [insertUnique]
  | cons y ys ih =>
    rw [insertUnique]
    rcases List.pairwise_cons.mp h with ⟨hy, hys⟩
    by_cases h1 : x < y
    · rw [if_pos h1]
      refine List.pairwise_cons.mpr ⟨?_, h⟩
      intro b hb
      rcases List.mem_cons.mp hb with hb | hb
      · exact hb ▸ h1
      · exact lt_trans h1 (hy b hb)
    · rw [if_neg h1]
      by_cases h2 : x = y
      · rw [if_pos h2]
        exact h
      · rw [if_neg h2]
        refine List.pairwise_cons.mpr ⟨?_, ih hys⟩
        intro b hb
        rcases (mem_insertUnique x b ys).mp hb with hb | hb
        · subst hb
          exact lt_of_le_of_ne (not_lt.mp h1) (Ne.symm h2)
        · exact hy b hb

theorem pairwise_uniqSorted (l : List ℤ) : (uniqSorted l).Pairwise (· < ·) := by
  induction l with
  | nil => simp [uniqSorted]
  | cons x xs ih => exact pairwise_insertUnique x _ ih

theorem mem_uniqSorted (l : List ℤ) (a : ℤ) : a ∈ uniqSorted l ↔ a ∈ l := by
  induction l with
  | nil => simp [uniqSorted]
  | cons x xs ih =>
    rw [uniqSorted, List.foldr_cons]
    rw [mem_insertUnique]
    rw [uniqSorted] at ih
    rw [ih, List.mem_cons]

theorem nodup_uniqSorted (l : List ℤ) : (uniqSorted l).Nodup :=
  (pairwise_uniqSorted l).imp ne_of_lt

theorem rankOf_lt_length (x : ℤ) (l : List ℤ) (h : x ∈ l) : rankOf x l < l.length := by
  induction l with
  | nil => simp at h
  | cons y ys ih =>
    rw [rankOf]
    by_cases h1 : x = y
    · simp [h1]
    · rcases List.mem_cons.mp h with h2 | h2
      · exact absurd h2 h1
      · simpa [h1] using ih h2

theorem getD_rankOf (x : ℤ) (l : List ℤ) (h : x ∈ l) : l.getD (rankOf x l) 0 = x := by
  induction l with
  | nil => simp at h
  | cons y ys ih =>
    rw [rankOf]
    by_cases h1 : x = y
    · simp [h1]
    · rcases List.mem_cons.mp h with h2 | h2
      · exact absurd h2 h1
      · simpa [h1] using ih h2

theorem rankOf_getD (l : List ℤ) (hnd : l.Nodup) (r : ℕ) (hr : r < l.length) :
    rankOf (l.getD r 0) l = r := by
  induction l generalizing r with
  | nil => simp at hr
  | cons y ys ih =>
    rcases List.nodup_cons.mp hnd with ⟨hy, hys⟩
    rcases r with _ | r
    · simp [rankOf]
    · have hrlen : r < ys.length := by simpa using hr
      have hmem : ys.getD r 0 ∈ ys := by
        rw [List.getD_eq_getElem ys 0 hrlen]
        exact List.getElem_mem hrlen
      rw [rankOf]
      have hne : ys.getD r 0 ≠ y := by
        intro hEq
        exact hy (hEq ▸ hmem)
      rw [List.getD_cons_succ, if_neg hne, ih hys r (by simpa using hr)]

theorem rankOf_strictMono (l : List ℤ) (hp : l.Pairwise (· < ·)) (x y : ℤ)
    (hx : x ∈ l) (hy : y ∈ l) (hxy : x < y) : rankOf x l < rankOf y l := by
  induction l with
  | nil => simp at hx
  | cons a as ih =>
    rcases List.pairwise_cons.mp hp with ⟨ha, has⟩
    rw [rankOf, rankOf]
    by_cases h1 : x = a
    · subst h1
      have h2 : y ≠ x := (ne_of_gt hxy)
      simp [h2]
    · have hx2 : x ∈ as := by
        rcases List.mem_cons.mp hx with h | h
        · exact absurd h h1
        · exact h
      have h2 : y ≠ a := by
        intro hEq
        exact absurd (hEq ▸ ha x hx2) (not_lt.mpr hxy.le)
      have hy2 : y ∈ as := by
        rcases List.mem_cons.mp hy with h | h
        · exact absurd h h2
        · exact h
      simpa [h1, h2] using ih has hx2 hy2

theorem setWhere_length (cluster : List ℤ) (val use : ℤ) (newClust : List ℤ)
    (h : newClust.length = cluster.length) :
    (setWhere cluster val use newClust).length = cluster.length := by
  simp [setWhere, h]

theorem setWhere_getD (cluster : List ℤ) (val use : ℤ) (newClust : List ℤ)
    (h : newClust.length = cluster.length) (p : ℕ) (hp : p < cluster.length) :
    (setWhere cluster val use newClust).getD p 0 =
      if cluster.getD p 0 = val then use else newClust.getD p 0 := by
  induction cluster generalizing newClust p with
  | nil => simp at hp
  | cons c cs ih =>
    rcases newClust with _ | ⟨m, ms⟩
    · simp at h
    · rcases p with _ | p
      · simp [setWhere]
      · have h2 : ms.length = cs.length := by simpa using h
        have hp2 : p < cs.length := by simpa using hp
        simpa [setWhere] using ih ms h2 p hp2

theorem foldl_setWhere_length (cluster : List ℤ) (pairs : List (ℕ × ℤ))
    (acc : List ℤ) (h : acc.length = cluster.length) :
    (pairs.foldl (fun newClust p => setWhere cluster p.2 (p.1 : ℤ) newClust) acc).length
      = cluster.length := by
  induction pairs generalizing acc with
  | nil => simpa using h
  | cons q qs ih => exact ih _ (setWhere_length cluster q.2 (q.1 : ℤ) acc h)

theorem foldl_setWhere_not_mem (cluster : List ℤ) (pairs : List (ℕ × ℤ))
    (acc : List ℤ) (h : acc.length = cluster.length) (p : ℕ) (hp : p < cluster.length)
    (hno : ∀ q ∈ pairs, q.2 ≠ cluster.getD p 0) :
    (pairs.foldl (fun newClust q => setWhere cluster q.2 (q.1 : ℤ) newClust) acc).getD p 0
      = acc.getD p 0 := by
  induction pairs generalizing acc with
  | nil => simp
  | cons q qs ih =>
    rw [List.foldl_cons]
    rw [ih _ (setWhere_length cluster q.2 (q.1 : ℤ) acc h)
      (fun r hr => hno r (List.mem_cons_of_mem q hr))]
    rw [setWhere_getD cluster q.2 (q.1 : ℤ) acc h p hp]
    rw [if_neg (fun hEq => hno q (List.mem_cons_self ..) hEq.symm)]

theorem foldl_setWhere_mem (cluster : List ℤ) (pairs : List (ℕ × ℤ))
    (acc : List ℤ) (h : acc.length = cluster.length) (p : ℕ) (hp : p < cluster.length)
    (hnd : (pairs.map Prod.snd).Nodup) (i : ℕ) (hi : (i, cluster.getD p 0) ∈ pairs) :
    (pairs.foldl (fun newClust q => setWhere cluster q.2 (q.1 : ℤ) newClust) acc).getD p 0
      = (i : ℤ) := by
  induction pairs generalizing acc with
  | nil => simp at hi
  | cons q qs ih =>
    rw [List.foldl_cons]
    rcases List.mem_cons.mp hi with hq | hq
    · have hnomem : ∀ r ∈ qs, r.2 ≠ cluster.getD p 0 := by
        intro r hr hEq
        have hq2 : q.2 = r.2 := by
          rw [← hq, hEq]
        have : q.2 ∈ qs.map Prod.snd := by
          rw [hq2]
          exact List.mem_map_of_mem Prod.snd hr
        exact (List.nodup_cons.mp hnd).1 this
      rw [foldl_setWhere_not_mem cluster qs _
        (setWhere_length cluster q.2 (q.1 : ℤ) acc h) p hp hnomem]
      rw [setWhere_getD cluster q.2 (q.1 : ℤ) acc h p hp]
      rw [← hq]
      simp
    · exact ih _ (setWhere_length cluster q.2 (q.1 : ℤ) acc h)
        (List.nodup_cons.mp hnd).2 hq

theorem enum_mem_getD (l : List ℤ) (i : ℕ) (hi : i < l.length) :
    (i, l.getD i 0) ∈ l.enum := by
  rw [List.getD_eq_getElem l 0 hi]
  rw [List.mem_enum_iff_getElem?]
  exact List.getElem_eq_iff.mp rfl

theorem reindex_cluster_length (cluster : List ℤ) :
    (reindex_cluster cluster).length = cluster.length :=
  foldl_setWhere_length cluster _ _ (List.length_replicate ..)

theorem reindex_cluster_getD (cluster : List ℤ) (p : ℕ) (hp : p < cluster.length) :
    (reindex_cluster cluster).getD p 0 = (rankOf (cluster.getD p 0) (uniqSorted cluster) : ℤ) := by
  have hmem : cluster.getD p 0 ∈ uniqSorted cluster := by
    rw [mem_uniqSorted]
    rw [List.getD_eq_getElem cluster 0 hp]
    exact List.getElem_mem hp
  have hrank := rankOf_lt_length _ _ hmem
  have hpair : (rankOf (cluster.getD p 0) (uniqSorted cluster), cluster.getD p 0)
      ∈ (uniqSorted cluster).enum := by
    have := enum_mem_getD (uniqSorted cluster) _ hrank
    rwa [getD_rankOf _ _ hmem] at this
  have hnd : ((uniqSorted cluster).enum.map Prod.snd).Nodup := by
    rw [List.enum_map_snd]
    exact nodup_uniqSorted cluster
  exact foldl_setWhere_mem cluster _ _ (List.length_replicate ..) p hp hnd _ hpair

/-- C9: `reindex_cluster` produces a dense relabeling 0..k−1 that preserves
equality and order of the input ids, with the −1 sentinel (the smallest
possible id) mapping to 0 whenever it occurs; the concrete example of the
spec evaluates as stated. -/
theorem claim_C9 (cluster : List ℤ) (hge : ∀ c ∈ cluster, (-1 : ℤ) ≤ c) :
    (reindex_cluster cluster).length = cluster.length ∧
    (∀ i j, i < cluster.length → j < cluster.length →
      ((reindex_cluster cluster).getD i 0 = (reindex_cluster cluster).getD j 0 ↔
        cluster.getD i 0 = cluster.getD j 0)) ∧
    (∀ i j, i < cluster.length → j < cluster.length →
      (cluster.getD i 0 < cluster.getD j 0 ↔
        (reindex_cluster cluster).getD i 0 < (reindex_cluster cluster).getD j 0)) ∧
    (∀ i, i < cluster.length → 0 ≤ (reindex_cluster cluster).getD i 0 ∧
      (reindex_cluster cluster).getD i 0 < ((uniqSorted cluster).length : ℤ)) ∧
    (∀ r : ℕ, r < (uniqSorted cluster).length →
      ∃ i, i < cluster.length ∧ (reindex_cluster cluster).getD i 0 = (r : ℤ)) ∧
    ((-1 : ℤ) ∈ cluster → ∀ i, i < cluster.length →
      cluster.getD i 0 = -1 → (reindex_cluster cluster).getD i 0 = 0) ∧
    reindex_cluster [0, 0, 0, 1, 2, 4, 4, 4, 5, 6] = [0, 0, 0, 1, 2, 3, 3, 3, 4, 5] := by
  have hmemD : ∀ p, p < cluster.length → cluster.getD p 0 ∈ uniqSorted cluster := by
    intro p hp
    rw [mem_uniqSorted]
    rw [List.getD_eq_getElem cluster 0 hp]
    exact List.getElem_mem hp
  refine ⟨reindex_cluster_length cluster, ?_, ?_, ?_, ?_, ?_, by decide⟩
  · intro i j hi hj
    rw [reindex_cluster_getD cluster i hi, reindex_cluster_getD cluster j hj]
    constructor
    · intro hEq
      have hr : rankOf (cluster.getD i 0) (uniqSorted cluster)
          = rankOf (cluster.getD j 0) (uniqSorted cluster) := by exact_mod_cast hEq
      calc cluster.getD i 0
          = (uniqSorted cluster).getD (rankOf (cluster.getD i 0) (uniqSorted cluster)) 0 :=
            (getD_rankOf _ _ (hmemD i hi)).symm
        _ = (uniqSorted cluster).getD (rankOf (cluster.getD j 0) (uniqSorted cluster)) 0 := by
            rw [hr]
        _ = cluster.getD j 0 := getD_rankOf _ _ (hmemD j hj)
    · intro hEq
      rw [hEq]
  · intro i j hi hj
    rw [reindex_cluster_getD cluster i hi, reindex_cluster_getD cluster j hj]
    constructor
    · intro hlt
      exact_mod_cast rankOf_strictMono _ (pairwise_uniqSorted cluster) _ _
        (hmemD i hi) (hmemD j hj) hlt
    · intro hlt
      rcases lt_trichotomy (cluster.getD i 0) (cluster.getD j 0) with h | h | h
      · exact h
      · rw [h] at hlt
        exact absurd hlt (lt_irrefl _)
      · have := rankOf_strictMono _ (pairwise_uniqSorted cluster) _ _
          (hmemD j hj) (hmemD i hi) h
        have hcast : (rankOf (cluster.getD j 0) (uniqSorted cluster) : ℤ)
            < (rankOf (cluster.getD i 0) (uniqSorted cluster) : ℤ) := by exact_mod_cast this
        exact absurd hlt (not_lt.mpr hcast.le)
  · intro i hi
    rw [reindex_cluster_getD cluster i hi]
    constructor
    · exact_mod_cast Nat.zero_le _
    · exact_mod_cast rankOf_lt_length _ _ (hmemD i hi)
  · intro r hr
    have hmem : (uniqSorted cluster).getD r 0 ∈ cluster := by
      rw [← mem_uniqSorted]
      rw [List.getD_eq_getElem _ 0 hr]
      exact List.getElem_mem hr
    rcases List.getElem_of_mem hmem with ⟨i, hi, hEq⟩
    refine ⟨i, hi, ?_⟩
    rw [reindex_cluster_getD cluster i hi]
    rw [List.getD_eq_getElem cluster 0 hi, hEq]
    rw [rankOf_getD _ (nodup_uniqSorted cluster) r hr]
  · intro hneg i hi hval
    rw [reindex_cluster_getD cluster i hi, hval]
    have hmem : (-1 : ℤ) ∈ uniqSorted cluster := (mem_uniqSorted cluster _).mpr hneg
    have : rankOf (-1 : ℤ) (uniqSorted cluster) = 0 := by
      rcases hzero : uniqSorted cluster with _ | ⟨a, as⟩
      · rw [hzero] at hmem
        simp at hmem
      · have ha : a ∈ cluster := by
          rw [← mem_uniqSorted, hzero]
          exact List.mem_cons_self ..
        have hle : (-1 : ℤ) ≤ a := hge a ha
        rw [hzero] at hmem
        rcases List.mem_cons.mp hmem with h | h
        · rw [rankOf, if_pos h]
        · have hpw := pairwise_uniqSorted cluster
          rw [hzero] at hpw
          have := (List.pairwise_cons.mp hpw).1 _ h
          exact absurd this (not_lt.mpr hle)
    rw [this]
    rfl

/-- Witness for C9 at the concrete input of the spec example. -/
theorem claim_C9_witness :
    reindex_cluster [0, 0, 0, 1, 2, 4, 4, 4, 5, 6] = [0, 0, 0, 1, 2, 3, 3, 3, 4, 5] :=
  (claim_C9 [0, 0, 0, 1, 2, 4, 4, 4, 5, 6] (by decide)).2.2.2.2.2.2

/-! ### Indexed access helper lemmas -/

theorem getD_map_lt {α β : Type} (f : α → β) (l : List α) (j : ℕ) (d : α) (e : β)
    (hj : j < l.length) : (l.map f).getD j e = f (l.getD j d) := by
  rw [List.getD_eq_getElem (l.map f) e (by simpa using hj)]
  rw [List.getElem_map]
  rw [List.getD_eq_getElem l d hj]

theorem getD_drop_one {α : Type} (l : List α) (t : ℕ) (d : α) (ht : t + 1 < l.length) :
    (l.drop 1).getD t d = l.getD (t + 1) d := by
  rcases l with _ | ⟨x, xs⟩
  · simp at ht
  · simp

theorem getD_zipWith_q (f : ℚ → ℚ → ℚ) (l1 l2 : List ℚ) (t : ℕ)
    (h1 : t < l1.length) (h2 : t < l2.length) :
    (List.zipWith f l1 l2).getD t 0 = f (l1.getD t 0) (l2.getD t 0) := by
  have hlen : t < (List.zipWith f l1 l2).length := by
    rw [List.length_zipWith]
    exact lt_min h1 h2
  rw [List.getD_eq_getElem _ 0 hlen]
  rw [List.getElem_zipWith]
  rw [List.getD_eq_getElem l1 0 h1, List.getD_eq_getElem l2 0 h2]

theorem getD_zipWith_poly {α β γ : Type} (f : α → β → γ) (l1 : List α) (l2 : List β)
    (t : ℕ) (d1 : α) (d2 : β) (e : γ) (h1 : t < l1.length) (h2 : t < l2.length) :
    (List.zipWith f l1 l2).getD t e = f (l1.getD t d1) (l2.getD t d2) := by
  have hlen : t < (List.zipWith f l1 l2).length := by
    rw [List.length_zipWith]
    exact lt_min h1 h2
  rw [List.getD_eq_getElem _ e hlen]
  rw [List.getElem_zipWith]
  rw [List.getD_eq_getElem l1 d1 h1, List.getD_eq_getElem l2 d2 h2]

theorem map_getD_range {α : Type} (l : List α) (d : α) :
    (List.range l.length).map (fun i => l.getD i d) = l := by
  refine List.ext_getElem (by simp) ?_
  intro i h1 h2
  simp only [List.getElem_map, List.getElem_range]
  rw [List.getD_eq_getElem l d h2]

theorem insertIdxBy_perm (key : ℕ → ℚ) (i : ℕ) (l : List ℕ) :
    (insertIdxBy key i l).Perm (i :: l) := by
  induction l with
  | nil => simp [insertIdxBy]
  | cons j js ih =>
    rw [insertIdxBy]
    by_cases h : key i < key j
    · rw [if_pos h]
    · rw [if_neg h]
      exact List.Perm.trans (List.Perm.cons j ih) (List.Perm.swap i j js)

theorem foldl_insertIdxBy_perm (key : ℕ → ℚ) (l acc : List ℕ) :
    (l.foldl (fun acc i => insertIdxBy key i acc) acc).Perm (acc ++ l) := by
  induction l generalizing acc with
  | nil => simp
  | cons x xs ih =>
    rw [List.foldl_cons]
    refine List.Perm.trans (ih _) ?_
    refine List.Perm.trans ((insertIdxBy_perm key x acc).append_right xs) ?_
    rw [List.cons_append]
    exact (List.perm_middle).symm

theorem argsortBy_perm (key : ℕ → ℚ) (n : ℕ) : (argsortBy key n).Perm (List.range n) := by
  simpa using foldl_insertIdxBy_perm key (List.range n) []

theorem argsortBy_length (key : ℕ → ℚ) (n : ℕ) : (argsortBy key n).length = n := by
  rw [(argsortBy_perm key n).length_eq]
  exact List.length_range ..

theorem insertIdxBy_sorted (key : ℕ → ℚ) (i : ℕ) (l : List ℕ)
    (h : l.Pairwise (fun a b => key a ≤ key b)) :
    (insertIdxBy key i l).Pairwise (fun a b => key a ≤ key b) := by
  induction l with
  | nil => simp [insertIdxBy]
  | cons j js ih =>
    rw [insertIdxBy]
    rcases List.pairwise_cons.mp h with ⟨hj, hjs⟩
    by_cases hk : key i < key j
    · rw [if_pos hk]
      refine List.pairwise_cons.mpr ⟨?_, h⟩
      intro b hb
      rcases List.mem_cons.mp hb with hb | hb
      · exact hb ▸ hk.le
      · exact le_trans hk.le (hj b hb)
    · rw [if_neg hk]
      refine List.pairwise_cons.mpr ⟨?_, ih hjs⟩
      intro b hb
      have hb2 := (insertIdxBy_perm key i js).mem_iff.mp hb
      rcases List.mem_cons.mp hb2 with hb3 | hb3
      · rw [hb3]
        exact not_lt.mp hk
      · exact hj b hb3

theorem argsortBy_sorted (key : ℕ → ℚ) (n : ℕ) :
    (argsortBy key n).Pairwise (fun a b => key a ≤ key b) := by
  rw [argsortBy]
  have haux : ∀ (l acc : List ℕ), acc.Pairwise (fun a b => key a ≤ key b) →
      (l.foldl (fun acc i => insertIdxBy key i acc) acc).Pairwise
        (fun a b => key a ≤ key b) := by
    intro l
    induction l with
    | nil => intro acc h; simpa using h
    | cons x xs ih =>
      intro acc h
      rw [List.foldl_cons]
      exact ih _ (insertIdxBy_sorted key x acc h)
  exact haux (List.range n) [] (by simp)

theorem argsortBy_mem_lt (key : ℕ → ℚ) (n : ℕ) (j : ℕ) (hj : j ∈ argsortBy key n) :
    j < n := by
  have := (argsortBy_perm key n).mem_iff.mp hj
  exact List.mem_range.mp this

theorem argsortBy_getD_lt (key : ℕ → ℚ) (n : ℕ) (t : ℕ) (ht : t < n) :
    (argsortBy key n).getD t 0 < n := by
  have hlen : t < (argsortBy key n).length := by rw [argsortBy_length]; exact ht
  refine argsortBy_mem_lt key n _ ?_
  rw [List.getD_eq_getElem _ 0 hlen]
  exact List.getElem_mem hlen

/-- Sorting the indices of a permutation of `0..n-1` by their value yields
the inverse permutation: composing the two sorts gives the identity.  This
is the key fact behind `clust[np.argsort(mzOrd)]` in
`crude_cluster_mz_list`. -/
theorem argsortBy_inverse (p : List ℕ) (n : ℕ) (hp : p.Perm (List.range n)) (t : ℕ) (ht : t < n) :
    p.getD ((argsortBy (fun i => (p.getD i 0 : ℚ)) n).getD t 0) 0 = t := by
  have hplen : p.length = n := by rw [hp.length_eq]; exact List.length_range ..
  have hAperm : (argsortBy (fun i => (p.getD i 0 : ℚ)) n).Perm (List.range n) :=
    argsortBy_perm _ n
  have hAlen : (argsortBy (fun i => (p.getD i 0 : ℚ)) n).length = n := argsortBy_length _ n
  have hKeq : (argsortBy (fun i => (p.getD i 0 : ℚ)) n).map (fun i => (p.getD i 0 : ℚ))
      = (List.range n).map (fun i : ℕ => (i : ℚ)) := by
    refine @List.eq_of_perm_of_sorted ℚ (· ≤ ·) inferInstance _ _ ?_ ?_ ?_
    · refine List.Perm.trans (hAperm.map _) ?_
      have hstep : (List.range n).map (fun i => (p.getD i 0 : ℚ))
          = p.map (fun v : ℕ => (v : ℚ)) := by
        rw [← hplen]
        rw [show (fun i => (p.getD i 0 : ℚ)) = (fun v : ℕ => (v : ℚ)) ∘ (fun i => p.getD i 0)
          from rfl]
        rw [← List.map_map]
        rw [map_getD_range]
      rw [hstep]
      exact hp.map _
    · rw [List.Sorted, List.pairwise_map]
      exact argsortBy_sorted _ n
    · rw [List.Sorted, List.pairwise_map]
      refine List.Pairwise.imp ?_ (List.pairwise_lt_range n)
      intro a b hab
      exact_mod_cast hab.le
  have hAt : t < (argsortBy (fun i => (p.getD i 0 : ℚ)) n).length := by
    rw [hAlen]; exact ht
  have h1 := getD_map_lt (fun i => (p.getD i 0 : ℚ))
    (argsortBy (fun i => (p.getD i 0 : ℚ)) n) t 0 0 hAt
  have h2 : ((List.range n).map (fun i : ℕ => (i : ℚ))).getD t 0 = (t : ℚ) := by
    rw [getD_map_lt (fun i : ℕ => (i : ℚ)) (List.range n) t 0 0 (by simpa using ht)]
    rw [List.getD_eq_getElem _ 0 (by simpa using ht)]
    simp
  have h3 : ((p.getD ((argsortBy (fun i => (p.getD i 0 : ℚ)) n).getD t 0) 0 : ℕ) : ℚ)
      = (t : ℚ) := by
    have h4 := h1.symm.trans (by rw [hKeq, h2])
    exact h4
  exact_mod_cast h3

theorem argsortBy_inverse_right (p : List ℕ) (n : ℕ) (hp : p.Perm (List.range n))
    (t : ℕ) (ht : t < n) :
    (argsortBy (fun i => (p.getD i 0 : ℚ)) n).getD (p.getD t 0) 0 = t := by
  have hplen : p.length = n := by rw [hp.length_eq]; exact List.length_range ..
  have hnd : p.Nodup := hp.nodup_iff.mpr (List.nodup_range ..)
  have hAlen : (argsortBy (fun i => (p.getD i 0 : ℚ)) n).length = n := argsortBy_length _ n
  have htp : t < p.length := by rw [hplen]; exact ht
  have hptn : p.getD t 0 < n := by
    have : p.getD t 0 ∈ p := by
      rw [List.getD_eq_getElem p 0 htp]
      exact List.getElem_mem htp
    exact List.mem_range.mp (hp.mem_iff.mp this)
  have hAv : (argsortBy (fun i => (p.getD i 0 : ℚ)) n).getD (p.getD t 0) 0 < n :=
    argsortBy_getD_lt _ n _ hptn
  have hEq := argsortBy_inverse p n hp (p.getD t 0) hptn
  set s := (argsortBy (fun i => (p.getD i 0 : ℚ)) n).getD (p.getD t 0) 0 with hs
  have hslen : s < p.length := by rw [hplen]; exact hAv
  rw [List.getD_eq_getElem p 0 hslen, List.getD_eq_getElem p 0 htp] at hEq
  exact (List.Nodup.getElem_inj_iff hnd).mp hEq

theorem cumFlags_length (thr : ℚ) (acc : ℕ) (ds : List ℚ) :
    (cumFlags thr acc ds).length = ds.length := by
  induction ds generalizing acc with
  | nil => simp [cumFlags]
  | cons g gs ih => simp [cumFlags, ih]

theorem cumFlags_adj (thr : ℚ) (ds : List ℚ) (acc : ℕ) (t : ℕ) (ht : t < ds.length) :
    (acc :: cumFlags thr acc ds).getD (t + 1) 0 =
      (acc :: cumFlags thr acc ds).getD t 0 + (if thr < ds.getD t 0 then 1 else 0) := by
  induction ds generalizing acc t with
  | nil => simp at ht
  | cons g gs ih =>
    rcases t with _ | s
    · rw [cumFlags]
      by_cases hg : thr < g
      · rw [if_pos hg]
        simp [hg]
      · rw [if_neg hg]
        simp [hg]
    · rw [cumFlags]
      have hs : s < gs.length := by simpa using ht
      have := ih (if thr < g then acc + 1 else acc) s hs
      simpa using this

/-- C8: `crude_cluster_mz_list` returns one (nonnegative, by type) cluster
id per signal in the original order; along the mass-sorted order the masses
are nondecreasing and two sorted-adjacent signals share an id exactly when
the PPM gap between them is at most `min_difference_ppm`. -/
theorem claim_C8 (mz intensity : List ℚ) (thr : ℚ) (hne : mz ≠ []) :
    (crude_cluster_mz_list mz intensity thr).length = mz.length ∧
    (∀ t, t + 1 < mz.length →
      mz.getD ((argsortBy (fun i => mz.getD i 0) mz.length).getD t 0) 0 ≤
        mz.getD ((argsortBy (fun i => mz.getD i 0) mz.length).getD (t + 1) 0) 0 ∧
      ((crude_cluster_mz_list mz intensity thr).getD
          ((argsortBy (fun i => mz.getD i 0) mz.length).getD (t + 1) 0) 0 =
        (crude_cluster_mz_list mz intensity thr).getD
          ((argsortBy (fun i => mz.getD i 0) mz.length).getD t 0) 0 ↔
        (mz.getD ((argsortBy (fun i => mz.getD i 0) mz.length).getD (t + 1) 0) 0 -
            mz.getD ((argsortBy (fun i => mz.getD i 0) mz.length).getD t 0) 0) /
            mz.getD ((argsortBy (fun i => mz.getD i 0) mz.length).getD t 0) 0 * 1000000
          ≤ thr)) := by
  set n := mz.length with hn
  set mzOrd := argsortBy (fun i => mz.getD i 0) n with hmzOrd
  have hOrdPerm : mzOrd.Perm (List.range n) := argsortBy_perm _ n
  have hOrdLen : mzOrd.length = n := argsortBy_length _ n
  set mzS := mzOrd.map (fun i => mz.getD i 0) with hmzS
  have hmzSlen : mzS.length = n := by rw [hmzS, List.length_map, hOrdLen]
  set diffsPPM := List.zipWith (fun a b => (b - a) / a * 1000000) mzS (mzS.drop 1)
    with hdiffs
  have hdlen : diffsPPM.length = n - 1 := by
    rw [hdiffs, List.length_zipWith, List.length_drop, hmzSlen]
    omega
  set clust := (0 : ℕ) :: cumFlags thr 0 diffsPPM with hclust
  have hclen : clust.length = n := by
    rw [hclust, List.length_cons, cumFlags_length, hdlen]
    have : 0 < n := by
      rw [hn]
      exact List.length_pos.mpr hne
    omega
  have hout : crude_cluster_mz_list mz intensity thr
      = (argsortBy (fun i => (mzOrd.getD i 0 : ℚ)) mzOrd.length).map
          (fun t => clust.getD t 0) := rfl
  have houtlen : (crude_cluster_mz_list mz intensity thr).length = n := by
    rw [hout, List.length_map, argsortBy_length, hOrdLen]
  -- evaluating the output at a sorted position gives the sorted-walk id
  have hval : ∀ t, t < n →
      (crude_cluster_mz_list mz intensity thr).getD (mzOrd.getD t 0) 0
        = clust.getD t 0 := by
    intro t ht
    have hOrdt : mzOrd.getD t 0 < n := argsortBy_getD_lt _ n t ht
    have hidx : mzOrd.getD t 0 < (argsortBy (fun i => (mzOrd.getD i 0 : ℚ)) mzOrd.length).length := by
      rw [argsortBy_length, hOrdLen]
      exact hOrdt
    rw [hout]
    rw [getD_map_lt (fun t => clust.getD t 0) _ (mzOrd.getD t 0) 0 0 hidx]
    have hinv : (argsortBy (fun i => (mzOrd.getD i 0 : ℚ)) mzOrd.length).getD
        (mzOrd.getD t 0) 0 = t := by
      rw [hOrdLen]
      exact argsortBy_inverse_right mzOrd n hOrdPerm t ht
    rw [hinv]
  have hmzSval : ∀ t, t < n → mzS.getD t 0 = mz.getD (mzOrd.getD t 0) 0 := by
    intro t ht
    rw [hmzS]
    exact getD_map_lt (fun i => mz.getD i 0) mzOrd t 0 0 (by rw [hOrdLen]; exact ht)
  refine ⟨houtlen, ?_⟩
  intro t ht
  have ht1 : t < n := Nat.lt_of_succ_lt ht
  have hsorted : mz.getD (mzOrd.getD t 0) 0 ≤ mz.getD (mzOrd.getD (t + 1) 0) 0 := by
    have hpw := argsortBy_sorted (fun i => mz.getD i 0) n
    rw [List.pairwise_iff_getElem] at hpw
    have h1 : t < mzOrd.length := by rw [hOrdLen]; exact ht1
    have h2 : t + 1 < mzOrd.length := by rw [hOrdLen]; exact ht
    have := hpw t (t + 1) h1 h2 (Nat.lt_succ_self t)
    rw [← List.getD_eq_getElem mzOrd 0 h1, ← List.getD_eq_getElem mzOrd 0 h2] at this
    exact this
  refine ⟨hsorted, ?_⟩
  have hdval : diffsPPM.getD t 0 =
      (mz.getD (mzOrd.getD (t + 1) 0) 0 - mz.getD (mzOrd.getD t 0) 0) /
        mz.getD (mzOrd.getD t 0) 0 * 1000000 := by
    rw [hdiffs]
    rw [getD_zipWith_q _ mzS (mzS.drop 1) t (by rw [hmzSlen]; exact ht1)
      (by rw [List.length_drop, hmzSlen]; omega)]
    rw [getD_drop_one mzS t 0 (by rw [hmzSlen]; exact ht)]
    rw [hmzSval t ht1, hmzSval (t + 1) ht]
  have hadj := cumFlags_adj thr diffsPPM 0 t (by rw [hdlen]; omega)
  rw [← hclust] at hadj
  rw [hval t ht1, hval (t + 1) ht]
  rw [hadj, hdval]
  by_cases hgap : thr <
      (mz.getD (mzOrd.getD (t + 1) 0) 0 - mz.getD (mzOrd.getD t 0) 0) /
        mz.getD (mzOrd.getD t 0) 0 * 1000000
  · rw [if_pos hgap]
    constructor
    · intro hEq
      omega
    · intro hle
      exact absurd hgap (not_lt.mpr hle)
  · rw [if_neg hgap]
    constructor
    · intro _
      exact not_lt.mp hgap
    · intro _
      omega

theorem getD_set_ne_q (l : List ℚ) (m c : ℕ) (v : ℚ) (h : m ≠ c) :
    (l.set m v).getD c 0 = l.getD c 0 := by
  induction l generalizing m c with
  | nil => simp
  | cons x xs ih =>
    rcases m with _ | m
    · rcases c with _ | c
      · exact absurd rfl h
      · simp
    · rcases c with _ | c
      · simp
      · have : m ≠ c := fun hEq => h (by rw [hEq])
        simpa using ih m c this

theorem getD_set_self_q (l : List ℚ) (m : ℕ) (v : ℚ) (hm : m < l.length) :
    (l.set m v).getD m 0 = v := by
  induction l generalizing m with
  | nil => simp at hm
  | cons x xs ih =>
    rcases m with _ | m
    · simp
    · simpa using ih m (by simpa using hm)

theorem collapseStep_fst_length (mz intensity : List ℚ) (cluster : List ℤ)
    (acc : List ℚ × List ℚ) (i : ℕ) :
    (collapseStep mz intensity cluster acc i).1.length = acc.1.length := by
  rw [collapseStep]
  by_cases h : (0 : ℤ) ≤ cluster.getD i 0
  · rw [if_pos h]
    simp
  · rw [if_neg h]

theorem collapseStep_snd_length (mz intensity : List ℚ) (cluster : List ℤ)
    (acc : List ℚ × List ℚ) (i : ℕ) :
    (collapseStep mz intensity cluster acc i).2.length = acc.2.length := by
  rw [collapseStep]
  by_cases h : (0 : ℤ) ≤ cluster.getD i 0
  · rw [if_pos h]
    simp
  · rw [if_neg h]

theorem foldl_collapseStep_getD (mz intensity : List ℚ) (cluster : List ℤ)
    (I : List ℕ) (acc : List ℚ × List ℚ) (c : ℕ)
    (hc1 : c < acc.1.length) (hc2 : c < acc.2.length) :
    (I.foldl (collapseStep mz intensity cluster) acc).1.getD c 0 =
      acc.1.getD c 0 + ((I.filter (fun i => cluster.getD i 0 = (c : ℤ))).map
        (fun i => mz.getD i 0 * intensity.getD i 0)).sum ∧
    (I.foldl (collapseStep mz intensity cluster) acc).2.getD c 0 =
      acc.2.getD c 0 + ((I.filter (fun i => cluster.getD i 0 = (c : ℤ))).map
        (fun i => intensity.getD i 0)).sum := by
  induction I generalizing acc with
  | nil => simp
  | cons i I ih =>
    rw [List.foldl_cons]
    have hlen1 : c < (collapseStep mz intensity cluster acc i).1.length := by
      rw [collapseStep_fst_length]; exact hc1
    have hlen2 : c < (collapseStep mz intensity cluster acc i).2.length := by
      rw [collapseStep_snd_length]; exact hc2
    rcases ih (collapseStep mz intensity cluster acc i) hlen1 hlen2 with ⟨ih1, ih2⟩
    by_cases hcl : cluster.getD i 0 = (c : ℤ)
    · have hpos : (0 : ℤ) ≤ cluster.getD i 0 := by rw [hcl]; exact_mod_cast Nat.zero_le c
      have htn : (cluster.getD i 0).toNat = c := by rw [hcl]; simp
      have hstep1 : (collapseStep mz intensity cluster acc i).1.getD c 0 =
          acc.1.getD c 0 + mz.getD i 0 * intensity.getD i 0 := by
        rw [collapseStep]
        rw [if_pos hpos]
        rw [htn]
        exact getD_set_self_q acc.1 c _ hc1
      have hstep2 : (collapseStep mz intensity cluster acc i).2.getD c 0 =
          acc.2.getD c 0 + intensity.getD i 0 := by
        rw [collapseStep]
        rw [if_pos hpos]
        rw [htn]
        exact getD_set_self_q acc.2 c _ hc2
      constructor
      · rw [ih1, hstep1, List.filter_cons_of_pos (by simpa using hcl)]
        rw [List.map_cons, List.sum_cons]
        ring
      · rw [ih2, hstep2, List.filter_cons_of_pos (by simpa using hcl)]
        rw [List.map_cons, List.sum_cons]
        ring
    · have hstep1 : (collapseStep mz intensity cluster acc i).1.getD c 0 =
          acc.1.getD c 0 := by
        rw [collapseStep]
        by_cases hpos : (0 : ℤ) ≤ cluster.getD i 0
        · rw [if_pos hpos]
          refine getD_set_ne_q acc.1 _ c _ ?_
          intro hEq
          exact hcl (by omega)
        · rw [if_neg hpos]
      have hstep2 : (collapseStep mz intensity cluster acc i).2.getD c 0 =
          acc.2.getD c 0 := by
        rw [collapseStep]
        by_cases hpos : (0 : ℤ) ≤ cluster.getD i 0
        · rw [if_pos hpos]
          refine getD_set_ne_q acc.2 _ c _ ?_
          intro hEq
          exact hcl (by omega)
        · rw [if_neg hpos]
      constructor
      · rw [ih1, hstep1, List.filter_cons_of_neg (by simpa using hcl)]
      · rw [ih2, hstep2, List.filter_cons_of_neg (by simpa using hcl)]

theorem foldl_collapseStep_fst_length (mz intensity : List ℚ) (cluster : List ℤ)
    (I : List ℕ) (acc : List ℚ × List ℚ) :
    (I.foldl (collapseStep mz intensity cluster) acc).1.length = acc.1.length := by
  induction I generalizing acc with
  | nil => rfl
  | cons i I ih =>
    rw [List.foldl_cons, ih, collapseStep_fst_length]

theorem foldl_collapseStep_snd_length (mz intensity : List ℚ) (cluster : List ℤ)
    (I : List ℕ) (acc : List ℚ × List ℚ) :
    (I.foldl (collapseStep mz intensity cluster) acc).2.length = acc.2.length := by
  induction I generalizing acc with
  | nil => rfl
  | cons i I ih =>
    rw [List.foldl_cons, ih, collapseStep_snd_length]

theorem count_eq_filter_range (l : List ℤ) (v : ℤ) :
    l.count v = ((List.range l.length).filter (fun i => l.getD i 0 = v)).length := by
  induction l with
  | nil => simp
  | cons x xs ih =>
    have hmapfil : ((List.range xs.length).map Nat.succ).filter
        (fun i => decide ((x :: xs).getD i 0 = v)) =
        ((List.range xs.length).filter (fun i => decide (xs.getD i 0 = v))).map Nat.succ := by
      rw [List.filter_map]
      congr 1
    rw [List.length_cons, List.range_succ_eq_map, List.filter_cons]
    by_cases hx : x = v
    · rw [if_pos (by simpa using hx)]
      rw [List.length_cons, hmapfil, List.length_map]
      rw [hx, List.count_cons_self, ih]
    · rw [if_neg (by simpa using hx)]
      rw [hmapfil, List.length_map]
      have hvx : v ≠ x := fun hEq => hx hEq.symm
      rw [List.count_cons_of_ne hvx, ih]

theorem getD_replicate_zero (k c : ℕ) : (List.replicate k (0 : ℚ)).getD c 0 = 0 := by
  by_cases h : c < k
  · rw [List.getD_eq_getElem _ 0 (by simpa using h)]
    simp
  · rw [List.getD_eq_default _ 0 (by simpa using not_lt.mp h)]

theorem collapseClusts_dense (cluster : List ℤ) (k : ℕ)
    (h1 : ∀ x ∈ cluster, x = -1 ∨ (0 ≤ x ∧ x < (k : ℤ)))
    (h2 : ∀ c : ℕ, c < k → (c : ℤ) ∈ cluster) :
    collapseClusts cluster = (List.range k).map (fun c : ℕ => (c : ℤ)) := by
  have hRnodup : ((List.range k).map (fun c : ℕ => (c : ℤ))).Pairwise (· < ·) := by
    rw [List.pairwise_map]
    refine List.Pairwise.imp ?_ (List.pairwise_lt_range k)
    intro a b hab
    exact_mod_cast hab
  have hLpair : (collapseClusts cluster).Pairwise (· < ·) := by
    rw [collapseClusts]
    by_cases hm : (-1 : ℤ) ∈ uniqSorted cluster
    · rw [if_pos hm]
      exact (pairwise_uniqSorted cluster).drop
    · rw [if_neg hm]
      exact pairwise_uniqSorted cluster
  have hLmem : ∀ a : ℤ, a ∈ collapseClusts cluster ↔ (0 ≤ a ∧ a < (k : ℤ)) := by
    intro a
    rw [collapseClusts]
    by_cases hm : (-1 : ℤ) ∈ uniqSorted cluster
    · rw [if_pos hm]
      rcases hcase : uniqSorted cluster with _ | ⟨b, bs⟩
      · rw [hcase] at hm
        simp at hm
      · have hb : b = -1 := by
          by_contra hbne
          have hmem2 : (-1 : ℤ) ∈ bs := by
            rw [hcase] at hm
            rcases List.mem_cons.mp hm with h | h
            · exact absurd h.symm hbne
            · exact h
          have hpw := pairwise_uniqSorted cluster
          rw [hcase] at hpw
          have hblt : b < -1 := (List.pairwise_cons.mp hpw).1 _ hmem2
          have hbmem : b ∈ cluster := by
            rw [← mem_uniqSorted, hcase]
            exact List.mem_cons_self ..
          rcases h1 b hbmem with h | h
          · omega
          · omega
        have hdrop : (b :: bs).drop 1 = bs := rfl
        rw [hdrop]
        constructor
        · intro ha
          have hamem : a ∈ cluster := by
            rw [← mem_uniqSorted, hcase]
            exact List.mem_cons_of_mem _ ha
          have hane : a ≠ -1 := by
            intro hEq
            have hnd := nodup_uniqSorted cluster
            rw [hcase] at hnd
            refine (List.nodup_cons.mp hnd).1 ?_
            rw [hb, ← hEq]
            exact ha
          rcases h1 a hamem with h | h
          · exact absurd h hane
          · exact h
        · rintro ⟨ha0, hak⟩
          have hacl : a ∈ cluster := by
            have hEq : a = ((a.toNat : ℕ) : ℤ) := by omega
            rw [hEq]
            exact h2 a.toNat (by omega)
          rw [← mem_uniqSorted, hcase] at hacl
          rcases List.mem_cons.mp hacl with h | h
          · rw [hb] at h
            omega
          · exact h
    · rw [if_neg hm]
      constructor
      · intro ha
        have hamem : a ∈ cluster := (mem_uniqSorted cluster a).mp ha
        rcases h1 a hamem with h | h
        · rw [h] at ha
          exact absurd ha hm
        · exact h
      · rintro ⟨ha0, hak⟩
        rw [mem_uniqSorted]
        have hEq : a = ((a.toNat : ℕ) : ℤ) := by omega
        rw [hEq]
        exact h2 a.toNat (by omega)
  have hRmem : ∀ a : ℤ, a ∈ (List.range k).map (fun c : ℕ => (c : ℤ)) ↔
      (0 ≤ a ∧ a < (k : ℤ)) := by
    intro a
    rw [List.mem_map]
    constructor
    · rintro ⟨c, hc, rfl⟩
      have := List.mem_range.mp hc
      omega
    · rintro ⟨ha0, hak⟩
      exact ⟨a.toNat, List.mem_range.mpr (by omega), by omega⟩
  have hperm : (collapseClusts cluster).Perm ((List.range k).map (fun c : ℕ => (c : ℤ))) := by
    refine (List.perm_ext_iff_of_nodup ?_ ?_).mpr ?_
    · exact List.Pairwise.imp ne_of_lt hLpair
    · exact List.Pairwise.imp ne_of_lt hRnodup
    · intro a
      rw [hLmem a, hRmem a]
  exact @List.eq_of_perm_of_sorted ℤ (· ≤ ·) inferInstance _ _ hperm
    (List.Pairwise.imp le_of_lt hLpair) (List.Pairwise.imp le_of_lt hRnodup)

theorem collapseNs_eq_map (cluster : List ℤ) :
    collapseNs cluster = (collapseClusts cluster).map (fun v => cluster.count v) := by
  rw [collapseNs, collapseClusts]
  by_cases hm : (-1 : ℤ) ∈ uniqSorted cluster
  · rw [if_pos hm, if_pos hm, List.map_drop]
  · rw [if_neg hm, if_neg hm]

theorem collapseAcc_fst_length (mz intensity : List ℚ) (cluster : List ℤ) :
    (collapseAcc mz intensity cluster).1.length = (collapseClusts cluster).length := by
  rw [collapseAcc, foldl_collapseStep_fst_length]
  exact List.length_replicate ..

theorem collapseAcc_snd_length (mz intensity : List ℚ) (cluster : List ℤ) :
    (collapseAcc mz intensity cluster).2.length = (collapseClusts cluster).length := by
  rw [collapseAcc, foldl_collapseStep_snd_length]
  exact List.length_replicate ..

theorem collapseAcc_getD (mz intensity : List ℚ) (cluster : List ℤ) (c : ℕ)
    (hc : c < (collapseClusts cluster).length) :
    (collapseAcc mz intensity cluster).1.getD c 0 =
      ((clusterSignals cluster mz.length c).map
        (fun i => mz.getD i 0 * intensity.getD i 0)).sum ∧
    (collapseAcc mz intensity cluster).2.getD c 0 =
      clusterIntensitySum intensity cluster mz.length c := by
  have h := foldl_collapseStep_getD mz intensity cluster (List.range mz.length)
    (List.replicate (collapseClusts cluster).length 0,
     List.replicate (collapseClusts cluster).length 0) c
    (by simpa using hc) (by simpa using hc)
  rcases h with ⟨ha, hb⟩
  constructor
  · rw [collapseAcc, ha, getD_replicate_zero, zero_add]
    rfl
  · rw [collapseAcc, hb, getD_replicate_zero, zero_add]
    rfl

theorem collapseMzW_length (mz intensity : List ℚ) (cluster : List ℤ) :
    (collapseMzW mz intensity cluster).length = (collapseClusts cluster).length := by
  rw [collapseMzW, List.length_zipWith, collapseAcc_fst_length, collapseAcc_snd_length]
  exact min_self _

theorem collapseMzW_getD (mz intensity : List ℚ) (cluster : List ℤ) (c : ℕ)
    (hc : c < (collapseClusts cluster).length) :
    (collapseMzW mz intensity cluster).getD c 0 =
      clusterWeightedMZ mz intensity cluster c := by
  rw [collapseMzW]
  rw [getD_zipWith_q _ _ _ c (by rw [collapseAcc_fst_length]; exact hc)
    (by rw [collapseAcc_snd_length]; exact hc)]
  rw [(collapseAcc_getD mz intensity cluster c hc).1,
    (collapseAcc_getD mz intensity cluster c hc).2, clusterWeightedMZ]

/-- C5: under the `sum` and `average` aggregation rules, for dense
non-sentinel cluster ids with positive intensities, `collapse_mz_info`
returns exactly one pair per surviving cluster, pairing the
intensity-weighted mean mass `Σ(mz·intensity)/Σ(intensity)` with the
cluster's total intensity (`sum`) or total divided by signal count
(`average`), sorted ascending by mass; the spec's synthetic cluster with
masses `[100.0, 100.0002]` and intensities `[1, 3]` collapses to mass
`100.00015` exactly (the decimals are written as the equal fractions
`1000002/10000` and `10000015/100000`). -/
theorem claim_C5 :
    (∀ (mz intensity : List ℚ) (cluster : List ℤ) (method : String) (k : ℕ),
      mz.length = cluster.length → intensity.length = cluster.length →
      (∀ x ∈ cluster, x = -1 ∨ (0 ≤ x ∧ x < (k : ℤ))) →
      (∀ c : ℕ, c < k → (c : ℤ) ∈ cluster) →
      (∀ x ∈ intensity, 0 < x) →
      (method = "sum" ∨ method = "average") →
      ∃ mzOut intOut,
        collapse_mz_info mz intensity cluster method = some (mzOut, intOut) ∧
        mzOut.length = k ∧ intOut.length = k ∧ mzOut.Pairwise (· ≤ ·) ∧
        (mzOut.zip intOut).Perm ((List.range k).map (fun c =>
          (clusterWeightedMZ mz intensity cluster c,
            if method = "sum" then clusterIntensitySum intensity cluster mz.length c
            else clusterIntensitySum intensity cluster mz.length c /
              (cluster.count (c : ℤ) : ℚ))))) ∧
    collapse_mz_info [100, (1000002 : ℚ)/10000] [1, 3] [0, 0] "sum"
      = some ([(10000015 : ℚ)/100000], [4]) := by
  constructor
  · intro mz intensity cluster method k hlen hilen h1 h2 hpos hmeth
    have hK : (collapseClusts cluster).length = k := by
      rw [collapseClusts_dense cluster k h1 h2, List.length_map, List.length_range]
    have hOrdPerm := argsortBy_perm (fun i => (collapseMzW mz intensity cluster).getD i 0)
      (collapseClusts cluster).length
    have hOrdLen := argsortBy_length (fun i => (collapseMzW mz intensity cluster).getD i 0)
      (collapseClusts cluster).length
    have hOrdSorted := argsortBy_sorted (fun i => (collapseMzW mz intensity cluster).getD i 0)
      (collapseClusts cluster).length
    have hclustsGetD : ∀ c : ℕ, c < k → (collapseClusts cluster).getD c 0 = (c : ℤ) := by
      intro c hc
      rw [collapseClusts_dense cluster k h1 h2]
      rw [getD_map_lt (fun v : ℕ => (v : ℤ)) (List.range k) c 0 0 (by simpa using hc)]
      rw [List.getD_eq_getElem _ 0 (by simpa using hc)]
      simp
    have hNsGetD : ∀ c : ℕ, c < k →
        (collapseNs cluster).getD c 0 = cluster.count (c : ℤ) := by
      intro c hc
      rw [collapseNs_eq_map]
      rw [getD_map_lt (fun v => cluster.count v) (collapseClusts cluster) c 0 0
        (by rw [hK]; exact hc)]
      rw [hclustsGetD c hc]
    have hNsLen : (collapseNs cluster).length = k := by
      rw [collapseNs_eq_map, List.length_map, hK]
    -- the two output components depending on the method
    rcases hmeth with hmeth | hmeth
    · subst hmeth
      refine ⟨_, _, by rw [collapse_mz_info, if_pos rfl], ?_, ?_, ?_, ?_⟩
      · rw [collapseOrd, List.length_map, hOrdLen, hK]
      · rw [collapseOrd, List.length_map, hOrdLen, hK]
      · rw [collapseOrd, List.pairwise_map]
        exact hOrdSorted
      · rw [collapseOrd, List.zip_map']
        refine List.Perm.trans (hOrdPerm.map _) ?_
        rw [hK]
        have hcongr : ∀ c ∈ List.range k,
            ((collapseMzW mz intensity cluster).getD c 0,
              (collapseAcc mz intensity cluster).2.getD c 0) =
            (clusterWeightedMZ mz intensity cluster c,
              if ("sum" : String) = "sum" then clusterIntensitySum intensity cluster mz.length c
              else clusterIntensitySum intensity cluster mz.length c /
                (cluster.count (c : ℤ) : ℚ)) := by
          intro c hc
          have hck : c < k := List.mem_range.mp hc
          rw [if_pos rfl]
          rw [collapseMzW_getD mz intensity cluster c (by rw [hK]; exact hck)]
          rw [(collapseAcc_getD mz intensity cluster c (by rw [hK]; exact hck)).2]
        rw [List.map_congr_left hcongr]
    · subst hmeth
      refine ⟨_, _, by rw [collapse_mz_info, if_neg (by decide), if_pos rfl], ?_, ?_, ?_, ?_⟩
      · rw [collapseOrd, List.length_map, hOrdLen, hK]
      · rw [collapseOrd, List.length_map, hOrdLen, hK]
      · rw [collapseOrd, List.pairwise_map]
        exact hOrdSorted
      · rw [collapseOrd, List.zip_map']
        refine List.Perm.trans (hOrdPerm.map _) ?_
        rw [hK]
        have hcongr : ∀ c ∈ List.range k,
            ((collapseMzW mz intensity cluster).getD c 0,
              (List.zipWith (· / ·) (collapseAcc mz intensity cluster).2
                ((collapseNs cluster).map (fun n : ℕ => (n : ℚ)))).getD c 0) =
            (clusterWeightedMZ mz intensity cluster c,
              if ("average" : String) = "sum" then
                clusterIntensitySum intensity cluster mz.length c
              else clusterIntensitySum intensity cluster mz.length c /
                (cluster.count (c : ℤ) : ℚ)) := by
          intro c hc
          have hck : c < k := List.mem_range.mp hc
          rw [if_neg (by decide)]
          rw [collapseMzW_getD mz intensity cluster c (by rw [hK]; exact hck)]
          rw [getD_zipWith_q _ _ _ c
            (by rw [collapseAcc_snd_length, hK]; exact hck)
            (by rw [List.length_map, hNsLen]; exact hck)]
          rw [(collapseAcc_getD mz intensity cluster c (by rw [hK]; exact hck)).2]
          rw [getD_map_lt (fun n : ℕ => (n : ℚ)) (collapseNs cluster) c 0 0
            (by rw [hNsLen]; exact hck)]
          rw [hNsGetD c hck]
        exact List.Perm.of_eq (List.map_congr_left hcongr)
  · norm_num [collapse_mz_info, collapseOrd, collapseMzW, collapseAcc, collapseClusts,
      collapseNs, collapseStep, uniqSorted, insertUnique, argsortBy, insertIdxBy,
      List.range_succ]

/-- Witness for C5: the general statement applied to the spec's synthetic
two-signal cluster with the `sum` rule. -/
theorem claim_C5_witness :
    ∃ mzOut intOut,
      collapse_mz_info [100, (1000002 : ℚ)/10000] [1, 3] [0, 0] "sum" = some (mzOut, intOut) ∧
      mzOut.length = 1 ∧ intOut.length = 1 ∧ mzOut.Pairwise (· ≤ ·) ∧
      (mzOut.zip intOut).Perm ((List.range 1).map (fun c =>
        (clusterWeightedMZ [100, (1000002 : ℚ)/10000] [1, 3] [0, 0] c,
          if ("sum" : String) = "sum" then
            clusterIntensitySum [1, 3] [0, 0] ([100, (1000002 : ℚ)/10000] : List ℚ).length c
          else clusterIntensitySum [1, 3] [0, 0] ([100, (1000002 : ℚ)/10000] : List ℚ).length c /
            (([0, 0] : List ℤ).count (c : ℤ) : ℚ)))) :=
  claim_C5.1 [100, (1000002 : ℚ)/10000] [1, 3] [0, 0] "sum" 1 (by decide) (by decide)
    (by decide) (by decide) (by norm_num) (Or.inl rfl)

/-- Witness for C8 on a concrete three-signal sample. -/
theorem claim_C8_witness :
    (crude_cluster_mz_list [100, (3001 : ℚ)/30, 200] [1, 1, 1] 400).length = 3 ∧
    ((crude_cluster_mz_list [100, (3001 : ℚ)/30, 200] [1, 1, 1] 400).getD
        ((argsortBy (fun i => ([100, (3001 : ℚ)/30, 200] : List ℚ).getD i 0) 3).getD 1 0) 0 =
      (crude_cluster_mz_list [100, (3001 : ℚ)/30, 200] [1, 1, 1] 400).getD
        ((argsortBy (fun i => ([100, (3001 : ℚ)/30, 200] : List ℚ).getD i 0) 3).getD 0 0) 0 ↔
      (([100, (3001 : ℚ)/30, 200] : List ℚ).getD
          ((argsortBy (fun i => ([100, (3001 : ℚ)/30, 200] : List ℚ).getD i 0) 3).getD 1 0) 0 -
        ([100, (3001 : ℚ)/30, 200] : List ℚ).getD
          ((argsortBy (fun i => ([100, (3001 : ℚ)/30, 200] : List ℚ).getD i 0) 3).getD 0 0) 0) /
        ([100, (3001 : ℚ)/30, 200] : List ℚ).getD
          ((argsortBy (fun i => ([100, (3001 : ℚ)/30, 200] : List ℚ).getD i 0) 3).getD 0 0) 0 *
        1000000 ≤ 400) :=
  ⟨(claim_C8 [100, (3001 : ℚ)/30, 200] [1, 1, 1] 400 (by decide)).1,
    ((claim_C8 [100, (3001 : ℚ)/30, 200] [1, 1, 1] 400 (by decide)).2 0 (by decide)).2⟩

theorem count_true_map_decide (xs : List ℚ) (P : ℚ → Prop) [DecidablePred P] :
    (xs.map (fun m => decide (P m))).count true =
      ((List.range xs.length).filter (fun i => decide (P (xs.getD i 0)))).length := by
  induction xs with
  | nil => simp
  | cons x xs ih =>
    have hmapfil : ((List.range xs.length).map Nat.succ).filter
        (fun i => decide (P ((x :: xs).getD i 0))) =
        ((List.range xs.length).filter (fun i => decide (P (xs.getD i 0)))).map Nat.succ := by
      rw [List.filter_map]
      congr 1
    rw [List.length_cons, List.range_succ_eq_map, List.map_cons, List.filter_cons]
    by_cases hx : P x
    · have hdx : decide (P x) = true := by simpa using hx
      have hd0 : decide (P ((x :: xs).getD 0 0)) = true := by simpa using hx
      rw [hdx, if_pos hd0, List.count_cons_self, List.length_cons, hmapfil,
        List.length_map, ih]
    · have hdx : decide (P x) = false := by simpa using hx
      have hd0 : ¬ decide (P ((x :: xs).getD 0 0)) = true := by simpa using hx
      rw [hdx, if_neg hd0, hmapfil, List.length_map]
      rw [List.count_cons_of_ne (by decide), ih]

theorem maskFilter_map_decide (xs vals : List ℚ) (P : ℚ → Prop) [DecidablePred P]
    (hlen : xs.length = vals.length) :
    maskFilter (xs.map (fun m => decide (P m))) vals =
      ((List.range xs.length).filter (fun i => decide (P (xs.getD i 0)))).map
        (fun i => vals.getD i 0) := by
  induction xs generalizing vals with
  | nil => simp [maskFilter]
  | cons x xs ih =>
    rcases vals with _ | ⟨v, vs⟩
    · simp at hlen
    · have hlen2 : xs.length = vs.length := by simpa using hlen
      have hmapfil : ((List.range xs.length).map Nat.succ).filter
          (fun i => decide (P ((x :: xs).getD i 0))) =
          ((List.range xs.length).filter (fun i => decide (P (xs.getD i 0)))).map Nat.succ := by
        rw [List.filter_map]
        congr 1
      have hmapmap : (((List.range xs.length).filter
          (fun i => decide (P (xs.getD i 0)))).map Nat.succ).map
            (fun i => (v :: vs).getD i 0) =
          ((List.range xs.length).filter (fun i => decide (P (xs.getD i 0)))).map
            (fun i => vs.getD i 0) := by
        rw [List.map_map]
        rfl
      rw [List.length_cons, List.range_succ_eq_map, List.map_cons, List.filter_cons]
      rw [maskFilter, List.zip_cons_cons, List.filterMap_cons]
      by_cases hx : P x
      · have hdx : decide (P x) = true := by simpa using hx
        have hd0 : decide (P ((x :: xs).getD 0 0)) = true := by simpa using hx
        rw [hdx, if_pos hd0]
        simp only [if_pos rfl]
        rw [List.map_cons, hmapfil, hmapmap]
        have := ih vs hlen2
        rw [maskFilter] at this
        rw [this]
        rfl
      · have hdx : decide (P x) = false := by simpa using hx
        have hd0 : ¬ decide (P ((x :: xs).getD 0 0)) = true := by simpa using hx
        rw [hdx, if_neg hd0]
        simp only [Bool.false_eq_true, if_false]
        rw [hmapfil, hmapmap]
        have := ih vs hlen2
        rw [maskFilter] at this
        rw [this]

/-- C6: a cell of `build_data_matrix` for sample `s` and bracket `b` is the
sum of the intensities of the signals of `s` whose mass lies in the closed
window `[min, max]` of `b` whenever at least one such signal exists, and is
NaN (modelled `none`) exactly when no signal of `s` falls in the window. -/
theorem claim_C6 (spectra : List (List ℚ × List ℚ)) (brackets : List (ℚ × ℚ × ℚ))
    (s b : ℕ) (hs : s < spectra.length) (hb : b < brackets.length)
    (hlen : (spectra.getD s ([], [])).1.length = (spectra.getD s ([], [])).2.length) :
    ((((build_data_matrix spectra brackets).getD s []).getD b none = none) ↔
      ((List.range (spectra.getD s ([], [])).1.length).filter (fun i =>
        decide ((brackets.getD b (0, 0, 0)).1 ≤ (spectra.getD s ([], [])).1.getD i 0 ∧
          (spectra.getD s ([], [])).1.getD i 0 ≤ (brackets.getD b (0, 0, 0)).2.2))).length
        = 0) ∧
    (∀ v : ℚ, (((build_data_matrix spectra brackets).getD s []).getD b none = some v) →
      v = (((List.range (spectra.getD s ([], [])).1.length).filter (fun i =>
        decide ((brackets.getD b (0, 0, 0)).1 ≤ (spectra.getD s ([], [])).1.getD i 0 ∧
          (spectra.getD s ([], [])).1.getD i 0 ≤ (brackets.getD b (0, 0, 0)).2.2))).map
            (fun i => (spectra.getD s ([], [])).2.getD i 0)).sum) := by
  have hrow : (build_data_matrix spectra brackets).getD s [] =
      brackets.map (fun brac =>
        if 0 < (bracketMask (spectra.getD s ([], [])) brac).count true then
          some (maskFilter (bracketMask (spectra.getD s ([], [])) brac)
            (spectra.getD s ([], [])).2).sum
        else none) := by
    rw [build_data_matrix]
    exact getD_map_lt _ spectra s ([], []) [] hs
  have hcell : ((build_data_matrix spectra brackets).getD s []).getD b none =
      (if 0 < (bracketMask (spectra.getD s ([], [])) (brackets.getD b (0, 0, 0))).count true
        then some (maskFilter
          (bracketMask (spectra.getD s ([], [])) (brackets.getD b (0, 0, 0)))
          (spectra.getD s ([], [])).2).sum
        else none) := by
    rw [hrow]
    exact getD_map_lt _ brackets b (0, 0, 0) none hb
  have hcount := count_true_map_decide (spectra.getD s ([], [])).1
    (fun m => (brackets.getD b (0, 0, 0)).1 ≤ m ∧ m ≤ (brackets.getD b (0, 0, 0)).2.2)
  have hmaskf := maskFilter_map_decide (spectra.getD s ([], [])).1
    (spectra.getD s ([], [])).2
    (fun m => (brackets.getD b (0, 0, 0)).1 ≤ m ∧ m ≤ (brackets.getD b (0, 0, 0)).2.2) hlen
  rw [hcell, bracketMask, hcount]
  constructor
  · by_cases hzero : 0 < ((List.range (spectra.getD s ([], [])).1.length).filter (fun i =>
        decide ((brackets.getD b (0, 0, 0)).1 ≤ (spectra.getD s ([], [])).1.getD i 0 ∧
          (spectra.getD s ([], [])).1.getD i 0 ≤ (brackets.getD b (0, 0, 0)).2.2))).length
    · rw [if_pos hzero]
      constructor
      · intro hcontra
        exact absurd hcontra (by simp)
      · intro hEq
        omega
    · rw [if_neg hzero]
      constructor
      · intro _
        omega
      · intro _
        rfl
  · intro v hv
    by_cases hzero : 0 < ((List.range (spectra.getD s ([], [])).1.length).filter (fun i =>
        decide ((brackets.getD b (0, 0, 0)).1 ≤ (spectra.getD s ([], [])).1.getD i 0 ∧
          (spectra.getD s ([], [])).1.getD i 0 ≤ (brackets.getD b (0, 0, 0)).2.2))).length
    · rw [if_pos hzero] at hv
      rw [hmaskf] at hv
      exact (Option.some_inj.mp hv).symm
    · rw [if_neg hzero] at hv
      exact absurd hv (by simp)

/-- Witness for C6 on a one-sample, one-bracket matrix. -/
theorem claim_C6_witness :
    ((((build_data_matrix [([100, 200], [5, 7])] [(99, 100, 150)]).getD 0 []).getD 0 none
        = none) ↔
      ((List.range (([([100, 200], [5, 7])] : List (List ℚ × List ℚ)).getD 0
          ([], [])).1.length).filter (fun i =>
        decide ((([(99, 100, 150)] : List (ℚ × ℚ × ℚ)).getD 0 (0, 0, 0)).1 ≤
            (([([100, 200], [5, 7])] : List (List ℚ × List ℚ)).getD 0 ([], [])).1.getD i 0 ∧
          (([([100, 200], [5, 7])] : List (List ℚ × List ℚ)).getD 0 ([], [])).1.getD i 0 ≤
            (([(99, 100, 150)] : List (ℚ × ℚ × ℚ)).getD 0 (0, 0, 0)).2.2))).length = 0) ∧
    (∀ v : ℚ,
      (((build_data_matrix [([100, 200], [5, 7])] [(99, 100, 150)]).getD 0 []).getD 0 none
        = some v) →
      v = (((List.range (([([100, 200], [5, 7])] : List (List ℚ × List ℚ)).getD 0
          ([], [])).1.length).filter (fun i =>
        decide ((([(99, 100, 150)] : List (ℚ × ℚ × ℚ)).getD 0 (0, 0, 0)).1 ≤
            (([([100, 200], [5, 7])] : List (List ℚ × List ℚ)).getD 0 ([], [])).1.getD i 0 ∧
          (([([100, 200], [5, 7])] : List (List ℚ × List ℚ)).getD 0 ([], [])).1.getD i 0 ≤
            (([(99, 100, 150)] : List (ℚ × ℚ × ℚ)).getD 0 (0, 0, 0)).2.2))).map
        (fun i => (([([100, 200], [5, 7])] : List (List ℚ × List ℚ)).getD 0
          ([], [])).2.getD i 0)).sum) :=
  claim_C6 [([100, 200], [5, 7])] [(99, 100, 150)] 0 0 (by decide) (by decide) (by decide)

theorem foldl_blankStep_sign (pvalOf : List ℚ → List ℚ → ℚ)
    (dat : List (List (Option ℚ))) (groups : List ℕ) (blankGroup : ℕ)
    (foldCutoff pvalueCutoff : ℚ) (minDetected featurei : ℕ) (gs : List ℕ) (s : ℤ)
    (hneg : (colVals dat (groupInds groups blankGroup) featurei).all
      (fun v => v.isNone) = true → s ≤ 0)
    (hpos : (colVals dat (groupInds groups blankGroup) featurei).all
      (fun v => v.isNone) = false → 0 ≤ s) :
    ∃ c : ℤ, gs.foldl
      (blankStep pvalOf dat groups blankGroup foldCutoff pvalueCutoff minDetected featurei)
      (some s) = some c ∧
      ((colVals dat (groupInds groups blankGroup) featurei).all
        (fun v => v.isNone) = true → c ≤ 0) ∧
      ((colVals dat (groupInds groups blankGroup) featurei).all
        (fun v => v.isNone) = false → 0 ≤ c) := by
  induction gs generalizing s with
  | nil => exact ⟨s, rfl, hneg, hpos⟩
  | cons g gs ih =>
    rw [List.foldl_cons]
    by_cases hmin : (colVals dat (groupInds groups g) featurei).countP
        (fun v => v.isSome) < minDetected
    · have hstep : blankStep pvalOf dat groups blankGroup foldCutoff pvalueCutoff
          minDetected featurei (some s) g = some s := by
        rw [blankStep]
        rw [if_pos hmin]
      rw [hstep]
      exact ih s hneg hpos
    · by_cases hB : ((colVals dat (groupInds groups blankGroup) featurei).all
          (fun v => v.isNone)) = true
      · have hs0 : s ≤ 0 := hneg hB
        have hstep : blankStep pvalOf dat groups blankGroup foldCutoff pvalueCutoff
            minDetected featurei (some s) g = some (s - 1) := by
          rw [blankStep]
          rw [if_neg hmin]
          rw [hB]
          rw [if_pos rfl]
          rw [if_pos hs0]
        rw [hstep]
        refine ih (s - 1) ?_ ?_
        · intro _
          omega
        · intro hcontra
          rw [hcontra] at hB
          exact absurd hB (by simp)
      · have hBf : ((colVals dat (groupInds groups blankGroup) featurei).all
            (fun v => v.isNone)) = false := by simpa using hB
        have hs0 : 0 ≤ s := hpos hBf
        have hstep : blankStep pvalOf dat groups blankGroup foldCutoff pvalueCutoff
            minDetected featurei (some s) g =
            (if pvalOf ((colVals dat (groupInds groups blankGroup)
                  featurei).reduceOption)
                ((colVals dat (groupInds groups g) featurei).reduceOption)
                ≤ pvalueCutoff ∧
                foldCutoff ≤
                  qmean ((colVals dat (groupInds groups g) featurei).reduceOption) /
                  qmean ((colVals dat (groupInds groups blankGroup)
                    featurei).reduceOption)
              then some (s + 1) else some s) := by
          rw [blankStep]
          rw [if_neg hmin]
          rw [hBf]
          rw [if_neg (by simp)]
          rw [if_pos hs0]
        rw [hstep]
        by_cases hsig : pvalOf ((colVals dat (groupInds groups blankGroup)
              featurei).reduceOption)
            ((colVals dat (groupInds groups g) featurei).reduceOption) ≤ pvalueCutoff ∧
            foldCutoff ≤
              qmean ((colVals dat (groupInds groups g) featurei).reduceOption) /
              qmean ((colVals dat (groupInds groups blankGroup) featurei).reduceOption)
        · rw [if_pos hsig]
          refine ih (s + 1) ?_ ?_
          · intro hcontra
            rw [hcontra] at hBf
            exact absurd hBf (by simp)
          · intro _
            omega
        · rw [if_neg hsig]
          exact ih s hneg hpos

theorem featureKeep_isSome (pvalOf : List ℚ → List ℚ → ℚ)
    (dat : List (List (Option ℚ))) (groups : List ℕ) (blankGroup : ℕ)
    (toTestGroups : List ℕ) (foldCutoff pvalueCutoff : ℚ) (minDetected featurei : ℕ) :
    ∃ c : ℤ, featureKeep pvalOf dat groups blankGroup toTestGroups foldCutoff
      pvalueCutoff minDetected featurei = some c ∧
      ((colVals dat (groupInds groups blankGroup) featurei).all
        (fun v => v.isNone) = true → c ≤ 0) ∧
      ((colVals dat (groupInds groups blankGroup) featurei).all
        (fun v => v.isNone) = false → 0 ≤ c) ∧
      (detectedCount dat featurei < minDetected → c = 0) := by
  rw [featureKeep]
  by_cases hmin : detectedCount dat featurei < minDetected
  · rw [if_pos hmin]
    exact ⟨0, rfl, by intro _; exact le_refl 0, by intro _; exact le_refl 0,
      by intro _; rfl⟩
  · rw [if_neg hmin]
    rcases foldl_blankStep_sign pvalOf dat groups blankGroup foldCutoff pvalueCutoff
      minDetected featurei toTestGroups 0 (by intro _; exact le_refl 0)
      (by intro _; exact le_refl 0) with ⟨c, hc, hcneg, hcpos⟩
    exact ⟨c, hc, hcneg, hcpos, fun hcontra => absurd hcontra hmin⟩

theorem mapM_featureKeep_some (pvalOf : List ℚ → List ℚ → ℚ)
    (dat : List (List (Option ℚ))) (groups : List ℕ) (blankGroup : ℕ)
    (toTestGroups : List ℕ) (foldCutoff pvalueCutoff : ℚ) (minDetected : ℕ)
    (l : List ℕ) :
    ∃ keeps : List ℤ, l.mapM (featureKeep pvalOf dat groups blankGroup toTestGroups
        foldCutoff pvalueCutoff minDetected) = some keeps ∧
      keeps.length = l.length ∧
      (∀ i, i < l.length →
        featureKeep pvalOf dat groups blankGroup toTestGroups foldCutoff pvalueCutoff
          minDetected (l.getD i 0) = some (keeps.getD i 0)) := by
  induction l with
  | nil => exact ⟨[], rfl, rfl, by intro i hi; simp at hi⟩
  | cons a as ih =>
    rcases ih with ⟨keeps, hk, hklen, hkval⟩
    rcases featureKeep_isSome pvalOf dat groups blankGroup toTestGroups foldCutoff
      pvalueCutoff minDetected a with ⟨c, hc, -, -, -⟩
    refine ⟨c :: keeps, ?_, by simpa using hklen, ?_⟩
    · rw [List.mapM_cons, hc, hk]
      rfl
    · intro i hi
      rcases i with _ | i
      · simpa using hc
      · simpa using hkval i (by simpa using hi)

/-- C7: `blank_subtraction` returns a boolean keep-mask with exactly one
entry per matrix column; a feature's entry is true exactly when its final
signed keep-counter is nonzero, and a feature with fewer than `minDetected`
non-missing values across all samples keeps counter 0 and is dropped.  The
statement holds for every p-value oracle `pvalOf` standing in for the Welch
t-test. -/
theorem claim_C7 (pvalOf : List ℚ → List ℚ → ℚ) (dat : List (List (Option ℚ)))
    (groups : List ℕ) (blankGroup : ℕ) (toTestGroups : List ℕ)
    (foldCutoff pvalueCutoff : ℚ) (minDetected : ℕ) :
    ∃ mask : List Bool,
      blank_subtraction pvalOf dat groups blankGroup toTestGroups foldCutoff
        pvalueCutoff minDetected = some mask ∧
      mask.length = (dat.getD 0 []).length ∧
      (∀ f, f < (dat.getD 0 []).length →
        ∃ c : ℤ, featureKeep pvalOf dat groups blankGroup toTestGroups foldCutoff
            pvalueCutoff minDetected f = some c ∧
          (mask.getD f false = true ↔ c ≠ 0) ∧
          (detectedCount dat f < minDetected → c = 0 ∧ mask.getD f false = false)) := by
  rcases mapM_featureKeep_some pvalOf dat groups blankGroup toTestGroups foldCutoff
    pvalueCutoff minDetected (List.range (dat.getD 0 []).length) with
    ⟨keeps, hk, hklen, hkval⟩
  refine ⟨keeps.map (fun k => decide (k ≠ 0)), ?_, ?_, ?_⟩
  · rw [blank_subtraction, hk]
    rfl
  · rw [List.length_map, hklen, List.length_range]
  · intro f hf
    have hfr : f < (List.range (dat.getD 0 []).length).length := by simpa using hf
    have hgetr : (List.range (dat.getD 0 []).length).getD f 0 = f := by
      rw [List.getD_eq_getElem _ 0 hfr]
      simp
    have hval := hkval f hfr
    rw [hgetr] at hval
    have hmask : (keeps.map (fun k => decide (k ≠ 0))).getD f false
        = decide (keeps.getD f 0 ≠ 0) :=
      getD_map_lt _ keeps f 0 false (by rw [hklen]; simpa using hf)
    refine ⟨keeps.getD f 0, hval, ?_, ?_⟩
    · rw [hmask]
      simp
    · intro hmin
      rcases featureKeep_isSome pvalOf dat groups blankGroup toTestGroups foldCutoff
        pvalueCutoff minDetected f with ⟨c2, hc2, -, -, hzero⟩
      rw [hval] at hc2
      have hceq : keeps.getD f 0 = c2 := Option.some_inj.mp hc2
      have hc0 : keeps.getD f 0 = 0 := by
        rw [hceq]
        exact hzero hmin
      refine ⟨hc0, ?_⟩
      rw [hmask, hc0]
      simp

/-- Witness for C7 on a concrete 2×1 matrix with one blank and one sample
group. -/
theorem claim_C7_witness :
    ∃ mask : List Bool,
      blank_subtraction (fun _ _ => 0) [[some 10], [some 100]] [0, 1] 0 [1] 2 (1/20) 2
        = some mask ∧
      mask.length = (([[some 10], [some 100]] :
        List (List (Option ℚ))).getD 0 []).length ∧
      (∀ f, f < (([[some 10], [some 100]] : List (List (Option ℚ))).getD 0 []).length →
        ∃ c : ℤ, featureKeep (fun _ _ => 0) [[some 10], [some 100]] [0, 1] 0 [1] 2
            (1/20) 2 f = some c ∧
          (mask.getD f false = true ↔ c ≠ 0) ∧
          (detectedCount [[some 10], [some 100]] f < 2 → c = 0 ∧
            mask.getD f false = false)) :=
  claim_C7 (fun _ _ => 0) [[some 10], [some 100]] [0, 1] 0 [1] 2 (1/20) 2

/-- C10: the signed keep-counter of a feature never mixes sign — after any
number of tested groups it is nonpositive when the feature has no
non-missing blank value and nonnegative otherwise — so the two `assert`
statements of `blank_subtraction` never fail and the function always
returns a mask. -/
theorem claim_C10 (pvalOf : List ℚ → List ℚ → ℚ) (dat : List (List (Option ℚ)))
    (groups : List ℕ) (blankGroup : ℕ) (toTestGroups : List ℕ)
    (foldCutoff pvalueCutoff : ℚ) (minDetected : ℕ) :
    (∀ featurei n : ℕ, ∃ c : ℤ,
      (toTestGroups.take n).foldl
        (blankStep pvalOf dat groups blankGroup foldCutoff pvalueCutoff minDetected
          featurei) (some 0) = some c ∧
      ((colVals dat (groupInds groups blankGroup) featurei).all
        (fun v => v.isNone) = true → c ≤ 0) ∧
      ((colVals dat (groupInds groups blankGroup) featurei).all
        (fun v => v.isNone) = false → 0 ≤ c)) ∧
    ∃ mask : List Bool,
      blank_subtraction pvalOf dat groups blankGroup toTestGroups foldCutoff
        pvalueCutoff minDetected = some mask := by
  constructor
  · intro featurei n
    exact foldl_blankStep_sign pvalOf dat groups blankGroup foldCutoff pvalueCutoff
      minDetected featurei (toTestGroups.take n) 0 (fun _ => le_refl 0)
      (fun _ => le_refl 0)
  · rcases mapM_featureKeep_some pvalOf dat groups blankGroup toTestGroups foldCutoff
      pvalueCutoff minDetected (List.range (dat.getD 0 []).length) with
      ⟨keeps, hk, -, -⟩
    refine ⟨keeps.map (fun k => decide (k ≠ 0)), ?_⟩
    rw [blank_subtraction, hk]
    rfl

/-- Witness for C10 at a concrete matrix where both assertion paths are
exercised. -/
theorem claim_C10_witness :
    ∃ mask : List Bool,
      blank_subtraction (fun _ _ => 0) [[none], [some 100]] [0, 1] 0 [1] 2 (1/20) 1
        = some mask :=
  (claim_C10 (fun _ _ => 0) [[none], [some 100]] [0, 1] 0 [1] 2 (1/20) 1).2

theorem countP_le_countP {α : Type} (l : List α) (p q : α → Bool)
    (hmono : ∀ a ∈ l, p a = true → q a = true) : l.countP p ≤ l.countP q := by
  induction l with
  | nil => simp
  | cons a as ih =>
    rw [List.countP_cons, List.countP_cons]
    have hih := ih (fun b hb => hmono b (List.mem_cons_of_mem a hb))
    by_cases hp : p a = true
    · rw [hp, hmono a (List.mem_cons_self ..) hp]
      omega
    · have hp2 : p a = false := by simpa using hp
      rw [hp2]
      simp only [Bool.false_eq_true, if_false]
      omega

theorem countP_lt_countP {α : Type} (l : List α) (p q : α → Bool)
    (hmono : ∀ a ∈ l, p a = true → q a = true) (c : α) (hc : c ∈ l)
    (hq : q c = true) (hp : p c = false) : l.countP p < l.countP q := by
  induction l with
  | nil => simp at hc
  | cons a as ih =>
    rw [List.countP_cons, List.countP_cons]
    have hle := countP_le_countP as p q (fun b hb => hmono b (List.mem_cons_of_mem a hb))
    rcases List.mem_cons.mp hc with hca | hca
    · rw [← hca, hp, hq]
      simp only [Bool.false_eq_true, if_false, if_true]
      omega
    · have hlt := ih (fun b hb => hmono b (List.mem_cons_of_mem a hb)) hca
      by_cases hpa : p a = true
      · rw [hpa, hmono a (List.mem_cons_self ..) hpa]
        omega
      · have hpa2 : p a = false := by simpa using hpa
        rw [hpa2]
        simp only [Bool.false_eq_true, if_false]
        omega

theorem bracketSeed_spec (mz intensity : List ℚ) (cluster : List ℕ)
    (hilen : intensity.length = mz.length) (hclen : cluster.length = mz.length)
    (hpos : ∀ x ∈ intensity, 0 < x) (hzero : 0 ∈ cluster) :
    bracketSeed intensity cluster < mz.length ∧
    cluster.getD (bracketSeed intensity cluster) 0 = 0 ∧
    (∀ j, j < mz.length → cluster.getD j 0 = 0 →
      intensity.getD j 0 ≤ intensity.getD (bracketSeed intensity cluster) 0) ∧
    (∀ j, j < mz.length → cluster.getD j 0 = 0 →
      intensity.getD (bracketSeed intensity cluster) 0 ≤ intensity.getD j 0 →
      bracketSeed intensity cluster ≤ j) := by
  set prods := List.zipWith (fun inte cl => inte * (if cl = 0 then 1 else 0))
    intensity cluster with hprods
  have hplen : prods.length = mz.length := by
    rw [hprods, List.length_zipWith, hilen, hclen]
    exact min_self _
  have hpval : ∀ j, j < mz.length →
      prods.getD j 0 = intensity.getD j 0 * (if cluster.getD j 0 = 0 then 1 else 0) := by
    intro j hj
    rw [hprods]
    exact getD_zipWith_poly _ intensity cluster j 0 0 0 (by rw [hilen]; exact hj)
      (by rw [hclen]; exact hj)
  rcases List.getElem_of_mem hzero with ⟨j0, hj0len, hj0⟩
  have hj0n : j0 < mz.length := by rw [← hclen]; exact hj0len
  have hj0val : cluster.getD j0 0 = 0 := by
    rw [List.getD_eq_getElem cluster 0 hj0len]
    exact hj0
  have hj0mem : intensity.getD j0 0 ∈ intensity := by
    have hlt : j0 < intensity.length := by rw [hilen]; exact hj0n
    rw [List.getD_eq_getElem intensity 0 hlt]
    exact List.getElem_mem hlt
  have hj0pos : 0 < intensity.getD j0 0 := hpos _ hj0mem
  have hj0prod : prods.getD j0 0 = intensity.getD j0 0 := by
    rw [hpval j0 hj0n, hj0val]
    simp
  have hne : prods ≠ [] := by
    intro hcontra
    rw [hcontra] at hplen
    simp at hplen
    omega
  have hseedlt : bracketSeed intensity cluster < mz.length := by
    rw [← hplen]
    exact argmaxQ_lt_length prods hne
  have hseedge : prods.getD j0 0 ≤ prods.getD (bracketSeed intensity cluster) 0 :=
    argmaxQ_ge prods j0 (by rw [hplen]; exact hj0n)
  have hseedpos : 0 < prods.getD (bracketSeed intensity cluster) 0 := by
    rw [hj0prod] at hseedge
    exact lt_of_lt_of_le hj0pos hseedge
  have hseedzero : cluster.getD (bracketSeed intensity cluster) 0 = 0 := by
    by_contra hcontra
    have := hpval (bracketSeed intensity cluster) hseedlt
    rw [if_neg hcontra, mul_zero] at this
    rw [this] at hseedpos
    exact absurd hseedpos (lt_irrefl 0)
  have hseedint : prods.getD (bracketSeed intensity cluster) 0 =
      intensity.getD (bracketSeed intensity cluster) 0 := by
    rw [hpval _ hseedlt, hseedzero]
    simp
  refine ⟨hseedlt, hseedzero, ?_, ?_⟩
  · intro j hj hjz
    have h1 : prods.getD j 0 ≤ prods.getD (bracketSeed intensity cluster) 0 :=
      argmaxQ_ge prods j (by rw [hplen]; exact hj)
    rw [hseedint] at h1
    rw [hpval j hj, hjz] at h1
    simpa using h1
  · intro j hj hjz hle
    have hseeddef : bracketSeed intensity cluster = argmaxQ prods := by
      rw [bracketSeed, hprods]
    rw [hseeddef]
    refine argmaxQ_first prods j (by rw [hplen]; exact hj) ?_
    rw [← hseeddef, hseedint, hpval j hj, hjz]
    simpa using hle

theorem bracketStep_getD (mz intensity : List ℚ) (max_ppm_deviation : ℚ)
    (cluster : List ℕ) (cclust : ℕ) (hclen : cluster.length = mz.length)
    (i : ℕ) (hi : i < mz.length) :
    (bracketStep mz intensity max_ppm_deviation cluster cclust).getD i 0 =
      if |mz.getD i 0 - mz.getD (bracketSeed intensity cluster) 0| / mz.getD i 0
          * 1000000 ≤ max_ppm_deviation then cclust else cluster.getD i 0 := by
  rw [bracketStep]
  exact getD_zipWith_poly _ mz cluster i 0 0 0 hi (by rw [hclen]; exact hi)

theorem bracketStep_length (mz intensity : List ℚ) (max_ppm_deviation : ℚ)
    (cluster : List ℕ) (cclust : ℕ) (hclen : cluster.length = mz.length) :
    (bracketStep mz intensity max_ppm_deviation cluster cclust).length = mz.length := by
  rw [bracketStep, List.length_zipWith, hclen]
  exact min_self _

theorem count_zero_eq_filter (cluster : List ℕ) :
    cluster.count 0 = ((List.range cluster.length).filter
      (fun i => cluster.getD i 0 = 0)).length := by
  induction cluster with
  | nil => simp
  | cons x xs ih =>
    have hmapfil : ((List.range xs.length).map Nat.succ).filter
        (fun i => decide ((x :: xs).getD i 0 = 0)) =
        ((List.range xs.length).filter (fun i => decide (xs.getD i 0 = 0))).map
          Nat.succ := by
      rw [List.filter_map]
      congr 1
    rw [List.length_cons, List.range_succ_eq_map, List.filter_cons]
    by_cases hx : x = 0
    · rw [if_pos (by simpa using hx)]
      rw [List.length_cons, hmapfil, List.length_map]
      rw [hx, List.count_cons_self, ih]
    · rw [if_neg (by simpa using hx)]
      rw [hmapfil, List.length_map]
      have hvx : (0 : ℕ) ≠ x := fun hEq => hx hEq.symm
      rw [List.count_cons_of_ne hvx, ih]

theorem bracketStep_count_lt (mz intensity : List ℚ) (max_ppm_deviation : ℚ)
    (cluster : List ℕ) (cclust : ℕ) (hilen : intensity.length = mz.length)
    (hclen : cluster.length = mz.length) (hpos : ∀ x ∈ intensity, 0 < x)
    (hppm : 0 ≤ max_ppm_deviation) (hcc : 0 < cclust) (hzero : 0 ∈ cluster) :
    (bracketStep mz intensity max_ppm_deviation cluster cclust).count 0
      < cluster.count 0 := by
  have hslen := bracketStep_length mz intensity max_ppm_deviation cluster cclust hclen
  rcases bracketSeed_spec mz intensity cluster hilen hclen hpos hzero with
    ⟨hseedlt, hseedzero, -, -⟩
  rw [count_zero_eq_filter, count_zero_eq_filter, hslen, hclen]
  rw [← List.countP_eq_length_filter, ← List.countP_eq_length_filter]
  refine countP_lt_countP (List.range mz.length) _ _ ?_ (bracketSeed intensity cluster)
    (List.mem_range.mpr hseedlt) ?_ ?_
  · intro j hj hstep
    have hjn : j < mz.length := List.mem_range.mp hj
    have := bracketStep_getD mz intensity max_ppm_deviation cluster cclust hclen j hjn
    simp only [decide_eq_true_eq] at hstep ⊢
    rw [this] at hstep
    by_cases hwin : |mz.getD j 0 - mz.getD (bracketSeed intensity cluster) 0| /
        mz.getD j 0 * 1000000 ≤ max_ppm_deviation
    · rw [if_pos hwin] at hstep
      omega
    · rw [if_neg hwin] at hstep
      exact hstep
  · simp only [decide_eq_true_eq]
    exact hseedzero
  · simp only [decide_eq_false_iff_not]
    have := bracketStep_getD mz intensity max_ppm_deviation cluster cclust hclen
      (bracketSeed intensity cluster) hseedlt
    rw [this]
    rw [if_pos (by rw [sub_self, abs_zero, zero_div, zero_mul]; exact hppm)]
    omega

theorem bracketLoop_count_zero (mz intensity : List ℚ) (max_ppm_deviation : ℚ)
    (hilen : intensity.length = mz.length) (hpos : ∀ x ∈ intensity, 0 < x)
    (hppm : 0 ≤ max_ppm_deviation) :
    ∀ (fuel : ℕ) (cluster : List ℕ) (cclust : ℕ), cluster.length = mz.length →
    0 < cclust → cluster.count 0 ≤ fuel →
    (bracketLoop mz intensity max_ppm_deviation fuel cluster cclust).count 0 = 0 := by
  intro fuel
  induction fuel with
  | zero =>
    intro cluster cclust hclen hcc hfuel
    rw [bracketLoop]
    omega
  | succ fuel ih =>
    intro cluster cclust hclen hcc hfuel
    rw [bracketLoop]
    by_cases hcount : 0 < cluster.count 0
    · rw [if_pos hcount]
      have hzero : 0 ∈ cluster := by
        by_contra hcontra
        rw [List.count_eq_zero_of_not_mem hcontra] at hcount
        exact absurd hcount (lt_irrefl 0)
      have hlt := bracketStep_count_lt mz intensity max_ppm_deviation cluster cclust
        hilen hclen hpos hppm hcc hzero
      exact ih _ (cclust + 1)
        (bracketStep_length mz intensity max_ppm_deviation cluster cclust hclen)
        (by omega) (by omega)
    · rw [if_neg hcount]
      omega

/-- C3 (amended): provided every pooled (log-scale) intensity is positive —
without this the masked `np.argmax` can select an already-assigned signal
and the loop need not terminate — bracketing of a nonempty finite pool with
positive masses and a nonnegative PPM window terminates with no unassigned
signal, and whenever an unassigned signal remains the chosen seed is an
unassigned signal of maximal intensity among the unassigned, with ties
broken by the lowest index. -/
theorem claim_C3 (mz intensity : List ℚ) (max_ppm_deviation : ℚ) (hne : mz ≠ [])
    (hilen : intensity.length = mz.length) (hmz : ∀ x ∈ mz, 0 < x)
    (hpos : ∀ x ∈ intensity, 0 < x) (hppm : 0 ≤ max_ppm_deviation) :
    (bracket_samples mz intensity max_ppm_deviation).count 0 = 0 ∧
    (∀ cluster : List ℕ, cluster.length = mz.length → 0 ∈ cluster →
      cluster.getD (bracketSeed intensity cluster) 0 = 0 ∧
      (∀ j, j < mz.length → cluster.getD j 0 = 0 →
        intensity.getD j 0 ≤ intensity.getD (bracketSeed intensity cluster) 0) ∧
      (∀ j, j < mz.length → cluster.getD j 0 = 0 →
        intensity.getD (bracketSeed intensity cluster) 0 ≤ intensity.getD j 0 →
        bracketSeed intensity cluster ≤ j)) := by
  constructor
  · rw [bracket_samples]
    refine bracketLoop_count_zero mz intensity max_ppm_deviation hilen hpos hppm
      mz.length (List.replicate mz.length 0) 1 (List.length_replicate ..)
      (by omega) ?_
    have : (List.replicate mz.length (0 : ℕ)).count 0 = mz.length := by
      rw [List.count_replicate]
      simp
    omega
  · intro cluster hclen hzero
    rcases bracketSeed_spec mz intensity cluster hilen hclen hpos hzero with
      ⟨-, h1, h2, h3⟩
    exact ⟨h1, h2, h3⟩

/-- Witness for C3 (amended) on a concrete two-signal pool. -/
theorem claim_C3_witness :
    (bracket_samples [100, 200] [3, 2] 25).count 0 = 0 ∧
    (∀ cluster : List ℕ, cluster.length = ([100, (200 : ℚ)] : List ℚ).length →
      0 ∈ cluster →
      cluster.getD (bracketSeed [3, 2] cluster) 0 = 0 ∧
      (∀ j, j < ([100, (200 : ℚ)] : List ℚ).length → cluster.getD j 0 = 0 →
        ([3, (2 : ℚ)] : List ℚ).getD j 0 ≤
          ([3, (2 : ℚ)] : List ℚ).getD (bracketSeed [3, 2] cluster) 0) ∧
      (∀ j, j < ([100, (200 : ℚ)] : List ℚ).length → cluster.getD j 0 = 0 →
        ([3, (2 : ℚ)] : List ℚ).getD (bracketSeed [3, 2] cluster) 0 ≤
          ([3, (2 : ℚ)] : List ℚ).getD j 0 →
        bracketSeed [3, 2] cluster ≤ j)) :=
  claim_C3 [100, 200] [3, 2] 25 (by decide) (by decide) (by norm_num) (by norm_num)
    (by norm_num)

/-- Counterexample to C3 as stated: on the pool with masses `[100, 200]` and
pooled (log-scale) intensities `[-1, -2]`, the first iteration correctly
seeds at signal 0 and assigns only it, but the second iteration's masked
argmax picks the already-assigned signal 0 (intensity·mask is 0 there,
beating the negative products of the unassigned), not the
highest-intensity still-unassigned signal 1; signal 1 is never assigned and
the loop does not terminate (after the standard `n` rounds an unassigned
signal remains). -/
theorem claim_C3_counterexample :
    bracketStep [100, 200] [-1, -2] 25 [0, 0] 1 = [1, 0] ∧
    bracketSeed [-1, -2] [1, 0] = 0 ∧
    ([1, 0] : List ℕ).getD 0 0 ≠ 0 ∧
    ([1, 0] : List ℕ).getD 1 0 = 0 ∧
    bracket_samples [100, 200] [-1, -2] 25 = [2, 0] ∧
    (bracket_samples [100, 200] [-1, -2] 25).count 0 ≠ 0 := by
  have hseed0 : bracketSeed [-1, -2] [0, 0] = 0 := by
    norm_num [bracketSeed, argmaxQ]
  have hseed1 : bracketSeed [-1, -2] [1, 0] = 0 := by
    norm_num [bracketSeed, argmaxQ]
  have hstep0 : bracketStep [100, 200] [-1, -2] 25 [0, 0] 1 = [1, 0] := by
    rw [bracketStep, hseed0]
    norm_num
  have hstep1 : bracketStep [100, 200] [-1, -2] 25 [1, 0] 2 = [2, 0] := by
    rw [bracketStep, hseed1]
    norm_num
  have hrun : bracket_samples [100, 200] [-1, -2] 25 = [2, 0] := by
    rw [bracket_samples]
    show bracketLoop [100, 200] [-1, -2] 25 2 [0, 0] 1 = [2, 0]
    rw [bracketLoop, if_pos (by norm_num), hstep0]
    rw [bracketLoop, if_pos (by norm_num), hstep1]
    rw [bracketLoop]
  exact ⟨hstep0, hseed1, by norm_num, rfl, hrun, by rw [hrun]; norm_num⟩

/-- C1 (amended): each bracketing iteration assigns the new bracket id to
exactly the signals — already assigned to an earlier bracket or not — whose
mass is within `max_ppm_deviation` PPM of the seed's mass (PPM measured
relative to each signal's own mass), and leaves all other assignments
unchanged; a signal assigned to an earlier bracket is therefore reassigned
whenever it falls inside a later seed's window. -/
theorem claim_C1 (mz intensity : List ℚ) (max_ppm_deviation : ℚ)
    (cluster : List ℕ) (cclust : ℕ) (hclen : cluster.length = mz.length) :
    (∀ i, i < mz.length →
      (bracketStep mz intensity max_ppm_deviation cluster cclust).getD i 0 =
        if |mz.getD i 0 - mz.getD (bracketSeed intensity cluster) 0| / mz.getD i 0
            * 1000000 ≤ max_ppm_deviation
        then cclust else cluster.getD i 0) ∧
    (bracketStep mz intensity max_ppm_deviation cluster cclust).length = mz.length :=
  ⟨fun i hi => bracketStep_getD mz intensity max_ppm_deviation cluster cclust hclen i hi,
    bracketStep_length mz intensity max_ppm_deviation cluster cclust hclen⟩

/-- Witness for C1 (amended) at a concrete iteration state. -/
theorem claim_C1_witness :
    (∀ i, i < ([100, (200 : ℚ)] : List ℚ).length →
      (bracketStep [100, 200] [3, 2] 25 [1, 0] 2).getD i 0 =
        if |([100, (200 : ℚ)] : List ℚ).getD i 0 -
              ([100, (200 : ℚ)] : List ℚ).getD (bracketSeed [3, 2] [1, 0]) 0| /
              ([100, (200 : ℚ)] : List ℚ).getD i 0 * 1000000 ≤ 25
        then 2 else ([1, 0] : List ℕ).getD i 0) ∧
    (bracketStep [100, 200] [3, 2] 25 [1, 0] 2).length =
      ([100, (200 : ℚ)] : List ℚ).length :=
  claim_C1 [100, 200] [3, 2] 25 [1, 0] 2 (by decide)

/-- Counterexample to C1 as stated: with masses
`[100, 100.002, 100.004]` (the decimals written as fractions), intensities
`[10, 1, 5]` and a 25 PPM window, the first bracket seeds at signal 0 and
captures signals 0 and 1; the second bracket seeds at signal 2 and its
window also contains signal 1, which is REASSIGNED from bracket 1 to
bracket 2 — the final assignment is `[1, 2, 2]`, not the `[1, 1, 2]` that
"never reassigned" would give. -/
theorem claim_C1_counterexample :
    bracketStep [100, (50001 : ℚ)/500, (25001 : ℚ)/250] [10, 1, 5] 25 [0, 0, 0] 1
      = [1, 1, 0] ∧
    bracket_samples [100, (50001 : ℚ)/500, (25001 : ℚ)/250] [10, 1, 5] 25
      = [1, 2, 2] := by
  have hseed0 : bracketSeed [10, 1, 5] [0, 0, 0] = 0 := by
    norm_num [bracketSeed, argmaxQ]
  have hseed1 : bracketSeed [10, 1, 5] [1, 1, 0] = 2 := by
    norm_num [bracketSeed, argmaxQ]
  have hstep0 : bracketStep [100, (50001 : ℚ)/500, (25001 : ℚ)/250] [10, 1, 5] 25
      [0, 0, 0] 1 = [1, 1, 0] := by
    rw [bracketStep, hseed0]
    norm_num
    constructor <;>
      simp only [show |(1 : ℚ)/500| = 1/500 from abs_of_nonneg (by norm_num),
        show |(1 : ℚ)/250| = 1/250 from abs_of_nonneg (by norm_num)] <;>
      norm_num
  have hstep1 : bracketStep [100, (50001 : ℚ)/500, (25001 : ℚ)/250] [10, 1, 5] 25
      [1, 1, 0] 2 = [1, 2, 2] := by
    rw [bracketStep, hseed1]
    norm_num
    constructor <;>
      simp only [show |(1 : ℚ)/500| = 1/500 from abs_of_nonneg (by norm_num),
        show |(1 : ℚ)/250| = 1/250 from abs_of_nonneg (by norm_num)] <;>
      norm_num
  have hrun : bracket_samples [100, (50001 : ℚ)/500, (25001 : ℚ)/250] [10, 1, 5] 25
      = [1, 2, 2] := by
    rw [bracket_samples]
    show bracketLoop [100, (50001 : ℚ)/500, (25001 : ℚ)/250] [10, 1, 5] 25 3
      [0, 0, 0] 1 = [1, 2, 2]
    rw [bracketLoop, if_pos (by norm_num), hstep0]
    rw [bracketLoop, if_pos (by norm_num), hstep1]
    rw [bracketLoop, if_neg (by norm_num)]
  exact ⟨hstep0, hrun⟩

theorem le_listMaxZ (l : List ℤ) (x : ℤ) (hx : x ∈ l) : x ≤ listMaxZ l := by
  induction l with
  | nil => simp at hx
  | cons a as ih =>
    rcases as with _ | ⟨b, bs⟩
    · simp at hx
      simp [listMaxZ, hx]
    · rw [listMaxZ]
      rcases List.mem_cons.mp hx with h | h
      · exact h ▸ le_max_left _ _
      · exact le_trans (ih h) (le_max_right _ _)

theorem getD_nonneg_of_forall (l : List ℤ) (h : ∀ x ∈ l, 0 ≤ x) (p : ℕ) :
    0 ≤ l.getD p 0 := by
  by_cases hp : p < l.length
  · refine h _ ?_
    rw [List.getD_eq_getElem l 0 hp]
    exact List.getElem_mem hp
  · rw [List.getD_eq_default _ 0 (by omega)]

theorem forall_mem_set {α : Type} (l : List α) (i : ℕ) (v : α) (P : α → Prop)
    (hl : ∀ x ∈ l, P x) (hv : P v) : ∀ x ∈ l.set i v, P x := by
  intro x hx
  rcases List.mem_or_eq_of_mem_set hx with h | h
  · exact hl x h
  · exact h ▸ hv

theorem grow_struct (mzs_ : List ℚ) (pos : List ℕ) (clusts : List ℤ)
    (closestDev : ℚ) (maxDev : Option ℚ) (hclnn : ∀ x ∈ clusts, 0 ≤ x) :
    ∀ (fuel : ℕ) (used : List ℤ) (usedMZs : List ℚ) (nc : List ℤ) (mc : ℤ)
      (lastDev : ℚ), (∀ x ∈ nc, 0 ≤ x) → 0 ≤ mc →
    (grow mzs_ pos clusts closestDev maxDev fuel used usedMZs nc mc
      lastDev).2.2.1.length = nc.length ∧
    (∀ x ∈ (grow mzs_ pos clusts closestDev maxDev fuel used usedMZs nc mc
      lastDev).2.2.1, 0 ≤ x) ∧
    mc ≤ (grow mzs_ pos clusts closestDev maxDev fuel used usedMZs nc mc
      lastDev).2.2.2 := by
  intro fuel
  induction fuel with
  | zero =>
    intro used usedMZs nc mc lastDev hnn hmc
    exact ⟨rfl, hnn, le_refl mc⟩
  | succ fuel ih =>
    intro used usedMZs nc mc lastDev hnn hmc
    rw [grow]
    by_cases hrej : growRejectB closestDev maxDev
        (used.set (growClosest mzs_ used usedMZs) 1)
        (usedMZs.set (growClosest mzs_ used usedMZs)
          (mzs_.getD (growClosest mzs_ used usedMZs) 0))
        lastDev = true
    · rw [if_pos hrej]
      refine ⟨by simp, ?_, by simp⟩
      refine forall_mem_set _ _ _ _ ?_ ?_
      · exact forall_mem_set _ _ _ _ hnn (by omega)
      · exact getD_nonneg_of_forall clusts hclnn _
    · rw [if_neg hrej]
      have hres := ih (used.set (growClosest mzs_ used usedMZs) 1)
        (usedMZs.set (growClosest mzs_ used usedMZs)
          (mzs_.getD (growClosest mzs_ used usedMZs) 0))
        (nc.set (pos.getD (growClosest mzs_ used usedMZs) 0) (mc + 1))
        mc
        (ppmSpread (usedSel
          (usedMZs.set (growClosest mzs_ used usedMZs)
            (mzs_.getD (growClosest mzs_ used usedMZs) 0))
          (used.set (growClosest mzs_ used usedMZs) 1)))
        (forall_mem_set _ _ _ _ hnn (by omega)) hmc
      refine ⟨?_, hres.2.1, hres.2.2⟩
      rw [hres.1]
      simp

theorem refineOuter_struct (mzs_ intensities_ : List ℚ) (pos : List ℕ)
    (clusts : List ℤ) (closestDev : ℚ) (maxDev : Option ℚ)
    (hclnn : ∀ x ∈ clusts, 0 ≤ x) :
    ∀ (fuel : ℕ) (used : List ℤ) (usedMZs : List ℚ) (nc : List ℤ) (mc : ℤ),
      (∀ x ∈ nc, 0 ≤ x) → 0 ≤ mc →
    (refineOuter mzs_ intensities_ pos clusts closestDev maxDev fuel used usedMZs
      nc mc).1.length = nc.length ∧
    (∀ x ∈ (refineOuter mzs_ intensities_ pos clusts closestDev maxDev fuel used
      usedMZs nc mc).1, 0 ≤ x) ∧
    mc ≤ (refineOuter mzs_ intensities_ pos clusts closestDev maxDev fuel used
      usedMZs nc mc).2 := by
  intro fuel
  induction fuel with
  | zero =>
    intro used usedMZs nc mc hnn hmc
    exact ⟨rfl, hnn, le_refl mc⟩
  | succ fuel ih =>
    intro used usedMZs nc mc hnn hmc
    rw [refineOuter]
    by_cases hcnt : 0 < used.count 0
    · rw [if_pos hcnt]
      by_cases hcnt1 : 0 < (used.set (outerSeed intensities_ used) 1).count 0
      · rw [if_pos hcnt1]
        have hgrow := grow_struct mzs_ pos clusts closestDev maxDev hclnn
          (mzs_.length + 1)
          (used.set (outerSeed intensities_ used) 1)
          (usedMZs.set (outerSeed intensities_ used)
            (mzs_.getD (outerSeed intensities_ used) 0))
          (nc.set (pos.getD (outerSeed intensities_ used) 0) (mc + 1))
          mc 0 (forall_mem_set nc _ (mc + 1) (fun x => 0 ≤ x) hnn (by omega)) hmc
        set g := grow mzs_ pos clusts closestDev maxDev (mzs_.length + 1)
          (used.set (outerSeed intensities_ used) 1)
          (usedMZs.set (outerSeed intensities_ used)
            (mzs_.getD (outerSeed intensities_ used) 0))
          (nc.set (pos.getD (outerSeed intensities_ used) 0) (mc + 1))
          mc 0 with hg
        have hres := ih g.1 g.2.1 g.2.2.1 g.2.2.2 hgrow.2.1 (le_trans hmc hgrow.2.2)
        refine ⟨?_, hres.2.1, le_trans hgrow.2.2 hres.2.2⟩
        rw [hres.1, hgrow.1]
        simp
      · rw [if_neg hcnt1]
        have hres := ih (used.set (outerSeed intensities_ used) 1)
          (usedMZs.set (outerSeed intensities_ used)
            (mzs_.getD (outerSeed intensities_ used) 0))
          (nc.set (pos.getD (outerSeed intensities_ used) 0) (mc + 1)) mc
          (forall_mem_set nc _ (mc + 1) (fun x => 0 ≤ x) hnn (by omega)) hmc
        refine ⟨?_, hres.2.1, hres.2.2⟩
        rw [hres.1]
        simp
    · rw [if_neg hcnt]
      exact ⟨rfl, hnn, le_refl mc⟩

theorem foldl_refineBody_struct (mzs intensities : List ℚ) (clusts : List ℤ)
    (closestDev : ℚ) (maxDev : Option ℚ) (hclnn : ∀ x ∈ clusts, 0 ≤ x)
    (pairs : List (ℕ × ℤ)) :
    ∀ (acc : List ℤ × ℤ), acc.1.length = clusts.length → (∀ x ∈ acc.1, 0 ≤ x) →
      0 ≤ acc.2 →
    (pairs.foldl (refineBody mzs intensities clusts closestDev maxDev) acc).1.length
      = clusts.length ∧
    (∀ x ∈ (pairs.foldl (refineBody mzs intensities clusts closestDev maxDev)
      acc).1, 0 ≤ x) := by
  induction pairs with
  | nil =>
    intro acc hlen hnn _
    exact ⟨hlen, hnn⟩
  | cons p ps ih =>
    intro acc hlen hnn hmc
    rw [List.foldl_cons]
    rw [refineBody]
    by_cases hn : 1 < clusts.count (p.1 : ℤ)
    · rw [if_pos hn]
      have houter := refineOuter_struct ((positionsOf clusts p.2).map
          (fun q => mzs.getD q 0))
        ((positionsOf clusts p.2).map (fun q => intensities.getD q 0))
        (positionsOf clusts p.2) clusts closestDev maxDev hclnn
        ((positionsOf clusts p.2).length + 1)
        (List.replicate (positionsOf clusts p.2).length 0)
        (List.replicate (positionsOf clusts p.2).length 0)
        acc.1 (acc.2 + 1) hnn (by omega)
      refine ih _ ?_ houter.2.1 ?_
      · rw [houter.1, hlen]
      · have := houter.2.2
        omega
    · rw [if_neg hn]
      exact ih acc hlen hnn hmc

theorem sum_map_add_nat {α : Type} (u : List α) (f g : α → ℕ) :
    (u.map (fun w => f w + g w)).sum = (u.map f).sum + (u.map g).sum := by
  induction u with
  | nil => simp
  | cons a as ih =>
    simp only [List.map_cons, List.sum_cons, ih]
    omega

theorem sum_map_indicator_zero (u : List ℤ) (x : ℤ) (hx : x ∉ u) :
    (u.map (fun w => if w = x then (1 : ℕ) else 0)).sum = 0 := by
  induction u with
  | nil => simp
  | cons a as ih =>
    have hax : a ≠ x := fun hEq => hx (hEq ▸ List.mem_cons_self ..)
    simp only [List.map_cons, List.sum_cons]
    rw [if_neg hax, ih (fun h => hx (List.mem_cons_of_mem a h))]

theorem sum_map_indicator_one (u : List ℤ) (x : ℤ) (hnd : u.Nodup) (hx : x ∈ u) :
    (u.map (fun w => if w = x then (1 : ℕ) else 0)).sum = 1 := by
  induction u with
  | nil => simp at hx
  | cons a as ih =>
    rcases List.nodup_cons.mp hnd with ⟨ha, has⟩
    simp only [List.map_cons, List.sum_cons]
    by_cases hax : a = x
    · rw [if_pos hax]
      rw [sum_map_indicator_zero as x (hax ▸ ha)]
    · rw [if_neg hax]
      rcases List.mem_cons.mp hx with h | h
      · exact absurd h.symm hax
      · rw [ih has h]

theorem sum_map_count_eq_length (l u : List ℤ) (hnd : u.Nodup)
    (hmem : ∀ a ∈ l, a ∈ u) : (u.map (fun w => l.count w)).sum = l.length := by
  induction l with
  | nil => simp
  | cons x xs ih =>
    have hcnt : ∀ w : ℤ, (x :: xs).count w = xs.count w + (if w = x then 1 else 0) := by
      intro w
      by_cases hw : w = x
      · rw [if_pos hw, hw, List.count_cons_self]
      · rw [if_neg hw, List.count_cons_of_ne hw]
        rfl
    have hmapeq : u.map (fun w => (x :: xs).count w)
        = u.map (fun w => xs.count w + (if w = x then 1 else 0)) := by
      refine List.map_congr_left ?_
      intro a _
      exact hcnt a
    rw [hmapeq, sum_map_add_nat]
    rw [ih (fun a ha => hmem a (List.mem_cons_of_mem x ha))]
    rw [sum_map_indicator_one u x hnd (hmem x (List.mem_cons_self ..))]
    simp

/-- C4: on the dense nonnegative cluster ids the pipeline produces,
`refine_clustering` returns exactly one cluster id per signal, never the −1
sentinel (all output ids are nonnegative), and the sub-cluster sizes sum to
the total signal count — no signal is dropped during refinement. -/
theorem claim_C4 (mzs intensities : List ℚ) (clusts : List ℤ)
    (closestDev : ℚ) (maxDev : Option ℚ) (hne : clusts ≠ [])
    (hdense : ∀ x ∈ clusts, 0 ≤ x ∧ x < ((uniqSorted clusts).length : ℤ)) :
    (refine_clustering mzs intensities clusts closestDev maxDev).length
      = clusts.length ∧
    (∀ x ∈ refine_clustering mzs intensities clusts closestDev maxDev, 0 ≤ x) ∧
    (-1 : ℤ) ∉ refine_clustering mzs intensities clusts closestDev maxDev ∧
    ((uniqSorted (refine_clustering mzs intensities clusts closestDev maxDev)).map
      (fun w => (refine_clustering mzs intensities clusts closestDev maxDev).count w)).sum
      = clusts.length := by
  have hclnn : ∀ x ∈ clusts, 0 ≤ x := fun x hx => (hdense x hx).1
  have hmax0 : 0 ≤ listMaxZ clusts := by
    rcases List.exists_mem_of_ne_nil clusts hne with ⟨a, ha⟩
    exact le_trans (hclnn a ha) (le_listMaxZ clusts a ha)
  have hfold := foldl_refineBody_struct mzs intensities clusts closestDev maxDev hclnn
    (uniqSorted clusts).enum (clusts, listMaxZ clusts) rfl hclnn hmax0
  have hlen : (refine_clustering mzs intensities clusts closestDev maxDev).length
      = clusts.length := by
    rw [refine_clustering]
    exact hfold.1
  have hnn : ∀ x ∈ refine_clustering mzs intensities clusts closestDev maxDev,
      0 ≤ x := by
    rw [refine_clustering]
    exact hfold.2
  refine ⟨hlen, hnn, ?_, ?_⟩
  · intro hcontra
    have := hnn _ hcontra
    omega
  · rw [sum_map_count_eq_length _ _
      (nodup_uniqSorted (refine_clustering mzs intensities clusts closestDev maxDev))
      (fun a ha => (mem_uniqSorted _ a).mpr ha)]
    exact hlen

/-- Witness for C4 on a concrete three-signal input with two crude clusters. -/
theorem claim_C4_witness :
    (refine_clustering [100, 101, 200] [5, 3, 7] [0, 0, 1] 15 (some 100)).length
      = ([0, 0, 1] : List ℤ).length ∧
    (∀ x ∈ refine_clustering [100, 101, 200] [5, 3, 7] [0, 0, 1] 15 (some 100),
      0 ≤ x) ∧
    (-1 : ℤ) ∉ refine_clustering [100, 101, 200] [5, 3, 7] [0, 0, 1] 15 (some 100) ∧
    ((uniqSorted (refine_clustering [100, 101, 200] [5, 3, 7] [0, 0, 1] 15
      (some 100))).map
      (fun w => (refine_clustering [100, 101, 200] [5, 3, 7] [0, 0, 1] 15
        (some 100)).count w)).sum = ([0, 0, 1] : List ℤ).length :=
  claim_C4 [100, 101, 200] [5, 3, 7] [0, 0, 1] 15 (some 100) (by decide) (by decide)

theorem getD_range (n j : ℕ) (hj : j < n) : (List.range n).getD j 0 = j := by
  rw [List.getD_eq_getElem _ 0 (by simpa using hj)]
  simp

theorem getD_set_self {α : Type} (l : List α) (m : ℕ) (v d : α) (hm : m < l.length) :
    (l.set m v).getD m d = v := by
  induction l generalizing m with
  | nil => simp at hm
  | cons x xs ih =>
    rcases m with _ | m
    · simp
    · simpa using ih m (by simpa using hm)

theorem getD_set_ne {α : Type} (l : List α) (m c : ℕ) (v d : α) (h : m ≠ c) :
    (l.set m v).getD c d = l.getD c d := by
  induction l generalizing m c with
  | nil => simp
  | cons x xs ih =>
    rcases m with _ | m
    · rcases c with _ | c
      · exact absurd rfl h
      · simp
    · rcases c with _ | c
      · simp
      · have hmc : m ≠ c := fun hEq => h (by rw [hEq])
        simpa using ih m c hmc

theorem refineT_getD (mzs_ : List ℚ) (used : List ℤ) (ext : ℚ) (j : ℕ)
    (hj : j < mzs_.length) :
    (refineT mzs_ used ext).getD j 0 =
      |mzs_.getD j 0 - ext| + ((used.getD j 0).natAbs : ℚ) * 1000000 := by
  rw [refineT]
  rw [getD_map_lt _ (List.range mzs_.length) j 0 0 (by simpa using hj)]
  rw [getD_range _ j hj]

theorem refineT_length (mzs_ : List ℚ) (used : List ℤ) (ext : ℚ) :
    (refineT mzs_ used ext).length = mzs_.length := by
  rw [refineT, List.length_map, List.length_range]

theorem usedSel_mem (usedMZs : List ℚ) (used : List ℤ) (x : ℚ)
    (hx : x ∈ usedSel usedMZs used) :
    ∃ i, i < usedMZs.length ∧ used.getD i 0 = 1 ∧ x = usedMZs.getD i 0 := by
  rw [usedSel] at hx
  rcases List.mem_map.mp hx with ⟨i, hi, hEq⟩
  rcases List.mem_filter.mp hi with ⟨hir, hif⟩
  exact ⟨i, List.mem_range.mp hir, by simpa using hif, hEq.symm⟩

theorem usedSel_ne_nil (usedMZs : List ℚ) (used : List ℤ) (i : ℕ)
    (hi : i < usedMZs.length) (hu : used.getD i 0 = 1) :
    usedSel usedMZs used ≠ [] := by
  rw [usedSel]
  intro hcontra
  have hmem : i ∈ (List.range usedMZs.length).filter
      (fun i => used.getD i 0 = 1) := by
    rw [List.mem_filter]
    exact ⟨List.mem_range.mpr hi, by simpa using hu⟩
  rw [List.map_eq_nil_iff] at hcontra
  rw [hcontra] at hmem
  simp at hmem

theorem refineT_pick (mzs_ : List ℚ) (used : List ℤ) (ext : ℚ)
    (hlu : used.length = mzs_.length)
    (hur : ∀ i, i < mzs_.length →
      used.getD i 0 = -1 ∨ used.getD i 0 = 0 ∨ used.getD i 0 = 1)
    (hmzB : ∀ i, i < mzs_.length → 0 < mzs_.getD i 0 ∧ mzs_.getD i 0 < 100000)
    (hext : 0 < ext ∧ ext < 100000)
    (j : ℕ) (hj : j < mzs_.length) (hjz : used.getD j 0 = 0) :
    argminQ (refineT mzs_ used ext) < mzs_.length ∧
    used.getD (argminQ (refineT mzs_ used ext)) 0 = 0 := by
  have hne : refineT mzs_ used ext ≠ [] := by
    rw [refineT]
    intro hcontra
    rw [List.map_eq_nil_iff, List.range_eq_nil] at hcontra
    omega
  have hlt : argminQ (refineT mzs_ used ext) < mzs_.length := by
    have := argminQ_lt_length _ hne
    rwa [refineT_length] at this
  refine ⟨hlt, ?_⟩
  have hjval : (refineT mzs_ used ext).getD j 0 = |mzs_.getD j 0 - ext| := by
    rw [refineT_getD mzs_ used ext j hj, hjz]
    simp
  have hjsmall : (refineT mzs_ used ext).getD j 0 < 100000 := by
    rw [hjval]
    rcases hmzB j hj with ⟨h1, h2⟩
    rw [abs_sub_lt_iff]
    constructor <;> nlinarith [hext.1, hext.2]
  have hminle : (refineT mzs_ used ext).getD (argminQ (refineT mzs_ used ext)) 0 ≤
      (refineT mzs_ used ext).getD j 0 := by
    refine argminQ_le _ j ?_
    rw [refineT_length]
    exact hj
  by_contra hcontra
  have habs : 1 ≤ ((used.getD (argminQ (refineT mzs_ used ext)) 0).natAbs : ℚ) := by
    rcases hur _ hlt with h | h | h
    · rw [h]
      norm_num
    · exact absurd h hcontra
    · rw [h]
      norm_num
  have hbig : (1000000 : ℚ) ≤
      (refineT mzs_ used ext).getD (argminQ (refineT mzs_ used ext)) 0 := by
    rw [refineT_getD mzs_ used ext _ hlt]
    have habspos : (0 : ℚ) ≤ |mzs_.getD (argminQ (refineT mzs_ used ext)) 0 - ext| :=
      abs_nonneg _
    nlinarith
  linarith

theorem getD_mem_of_lt {α : Type} (l : List α) (i : ℕ) (d : α) (hi : i < l.length) :
    l.getD i d ∈ l := by
  rw [List.getD_eq_getElem l d hi]
  exact List.getElem_mem hi

theorem count_cons_split (v x : ℤ) (t : List ℤ) :
    (x :: t).count v = t.count v + (if v = x then 1 else 0) := by
  by_cases hv : v = x
  · rw [if_pos hv, hv, List.count_cons_self]
  · rw [if_neg hv, List.count_cons_of_ne hv]
    rfl

theorem count_pos_of_getD (l : List ℤ) (v : ℤ) (i : ℕ) (hi : i < l.length)
    (h : l.getD i 0 = v) : 0 < l.count v := by
  refine List.count_pos_iff.mpr ?_
  rw [← h]
  exact getD_mem_of_lt l i 0 hi

theorem exists_getD_zero (l : List ℤ) (h : 0 < l.count 0) :
    ∃ j, j < l.length ∧ l.getD j 0 = 0 := by
  have hmem : (0 : ℤ) ∈ l := List.count_pos_iff.mp h
  rcases List.mem_iff_getElem.mp hmem with ⟨j, hj, hEq⟩
  exact ⟨j, hj, by rw [List.getD_eq_getElem l 0 hj, hEq]⟩

theorem count_zero_set1 (l : List ℤ) (s : ℕ) (hs : s < l.length)
    (h : l.getD s 0 = 0) : (l.set s 1).count 0 + 1 = l.count 0 := by
  induction l generalizing s with
  | nil => simp at hs
  | cons x xs ih =>
    rcases s with _ | s
    · have hx : x = 0 := by simpa using h
      subst hx
      rw [List.set_cons_zero]
      rw [count_cons_split 0 1 xs, count_cons_split 0 0 xs]
      norm_num
    · rw [List.set_cons_succ]
      rw [count_cons_split 0 x (xs.set s 1), count_cons_split 0 x xs]
      have := ih s (by simpa using hs) (by simpa using h)
      omega

theorem set_eq_self_of_getD {α : Type} (l : List α) (c : ℕ) (v d : α)
    (hc : c < l.length) (h : l.getD c d = v) : l.set c v = l := by
  induction l generalizing c with
  | nil => simp at hc
  | cons x xs ih =>
    rcases c with _ | c
    · have hx : x = v := by simpa using h
      rw [List.set_cons_zero, hx]
    · rw [List.set_cons_succ]
      rw [ih c (by simpa using hc) (by simpa using h)]

theorem count_zero_map_negAbs (l : List ℤ) :
    (l.map (fun u => -((u.natAbs : ℤ)))).count 0 = l.count 0 := by
  induction l with
  | nil => simp
  | cons x xs ih =>
    rw [List.map_cons, count_cons_split 0 _ xs, count_cons_split]
    rw [ih]
    have hiff : ((0 : ℤ) = -((x.natAbs : ℤ))) ↔ ((0 : ℤ) = x) := by omega
    by_cases hx : (0 : ℤ) = x
    · rw [if_pos (hiff.mpr hx), if_pos hx]
    · rw [if_neg (fun hc => hx (hiff.mp hc)), if_neg hx]

theorem length_filter_le_one (l : List ℕ) (p : ℕ → Bool) (s : ℕ)
    (hnd : l.Nodup) (h : ∀ x ∈ l, p x = true → x = s) :
    (l.filter p).length ≤ 1 := by
  induction l with
  | nil => simp
  | cons x xs ih =>
    rcases List.nodup_cons.mp hnd with ⟨hx, hxs⟩
    rw [List.filter_cons]
    by_cases hpx : p x = true
    · rw [if_pos hpx]
      have hxss : x = s := h x (List.mem_cons_self ..) hpx
      have hnil : xs.filter p = [] := by
        refine List.filter_eq_nil_iff.mpr ?_
        intro y hy hpy
        have hys : y = s := h y (List.mem_cons_of_mem x hy) hpy
        exact hx (by rw [hxss, ← hys]; exact hy)
      rw [hnil]
      simp
    · rw [if_neg hpx]
      exact ih hxs (fun y hy hpy => h y (List.mem_cons_of_mem x hy) hpy)

theorem two_mem_le_length {α : Type} [DecidableEq α] (l : List α) (a b : α)
    (ha : a ∈ l) (hb : b ∈ l) (hab : a ≠ b) : 2 ≤ l.length := by
  have hb' : b ∈ l.erase a := (List.mem_erase_of_ne (fun h => hab h.symm)).mpr hb
  have h1 : 0 < (l.erase a).length := List.length_pos.mpr (by
    intro hc
    rw [hc] at hb'
    simp at hb')
  have h2 : (l.erase a).length = l.length - 1 := List.length_erase_of_mem ha
  have h3 : 0 < l.length := List.length_pos.mpr (by
    intro hc
    rw [hc] at ha
    simp at ha)
  omega

theorem exists_two_of_le_length {α : Type} (l : List α) (hnd : l.Nodup)
    (h2 : 2 ≤ l.length) : ∃ a b, a ∈ l ∧ b ∈ l ∧ a ≠ b := by
  rcases l with _ | ⟨x, _ | ⟨y, t⟩⟩
  · simp at h2
  · simp at h2
  · refine ⟨x, y, List.mem_cons_self .., List.mem_cons_of_mem x (List.mem_cons_self ..), ?_⟩
    rcases List.nodup_cons.mp hnd with ⟨hx, _⟩
    intro hc
    exact hx (by rw [hc]; exact List.mem_cons_self ..)

theorem eq_of_pairwise_lt_ext (l1 l2 : List ℕ) (h1 : l1.Pairwise (· < ·))
    (h2 : l2.Pairwise (· < ·)) (hext : ∀ x, x ∈ l1 ↔ x ∈ l2) : l1 = l2 := by
  have hnd1 : l1.Nodup := List.Pairwise.imp (fun h => Nat.ne_of_lt h) h1
  have hnd2 : l2.Nodup := List.Pairwise.imp (fun h => Nat.ne_of_lt h) h2
  have hperm : l1.Perm l2 := (List.perm_ext_iff_of_nodup hnd1 hnd2).mpr hext
  refine @List.eq_of_perm_of_sorted ℕ (· ≤ ·) inferInstance _ _ hperm ?_ ?_
  · exact List.Pairwise.imp (fun h => Nat.le_of_lt h) h1
  · exact List.Pairwise.imp (fun h => Nat.le_of_lt h) h2

theorem regionIdx_mem (m : ℕ) (pos : List ℕ) (nc : List ℤ) (w : ℤ) (i : ℕ) :
    i ∈ regionIdx m pos nc w ↔ i < m ∧ nc.getD (pos.getD i 0) 0 = w := by
  rw [regionIdx, List.mem_filter, List.mem_range]
  constructor
  · rintro ⟨h1, h2⟩
    exact ⟨h1, by simpa using h2⟩
  · rintro ⟨h1, h2⟩
    exact ⟨h1, by simpa using h2⟩

theorem regionIdx_pairwise (m : ℕ) (pos : List ℕ) (nc : List ℤ) (w : ℤ) :
    (regionIdx m pos nc w).Pairwise (· < ·) := by
  rw [regionIdx]
  exact List.Pairwise.filter _ (List.pairwise_lt_range m)

theorem regionIdx_congr (m : ℕ) (pos : List ℕ) (nc1 nc2 : List ℤ) (w : ℤ)
    (h : ∀ i, i < m →
      (nc1.getD (pos.getD i 0) 0 = w ↔ nc2.getD (pos.getD i 0) 0 = w)) :
    regionIdx m pos nc1 w = regionIdx m pos nc2 w := by
  rw [regionIdx, regionIdx]
  refine List.filter_congr ?_
  intro i hi
  exact decide_eq_decide.mpr (h i (List.mem_range.mp hi))

theorem regionMzs_congr (mzs_ : List ℚ) (pos : List ℕ) (nc1 nc2 : List ℤ) (w : ℤ)
    (h : ∀ i, i < mzs_.length →
      (nc1.getD (pos.getD i 0) 0 = w ↔ nc2.getD (pos.getD i 0) 0 = w)) :
    regionMzs mzs_ pos nc1 w = regionMzs mzs_ pos nc2 w := by
  rw [regionMzs, regionMzs, regionIdx_congr mzs_.length pos nc1 nc2 w h]

theorem regionMzs_length (mzs_ : List ℚ) (pos : List ℕ) (nc : List ℤ) (w : ℤ) :
    (regionMzs mzs_ pos nc w).length = (regionIdx mzs_.length pos nc w).length := by
  rw [regionMzs, List.length_map]

theorem globIdx_mem (nc : List ℤ) (w : ℤ) (p : ℕ) :
    p ∈ globIdx nc w ↔ p < nc.length ∧ nc.getD p 0 = w := by
  rw [globIdx, List.mem_filter, List.mem_range]
  constructor
  · rintro ⟨h1, h2⟩
    exact ⟨h1, by simpa using h2⟩
  · rintro ⟨h1, h2⟩
    exact ⟨h1, by simpa using h2⟩

theorem globIdx_pairwise (nc : List ℤ) (w : ℤ) :
    (globIdx nc w).Pairwise (· < ·) := by
  rw [globIdx]
  exact List.Pairwise.filter _ (List.pairwise_lt_range nc.length)

theorem globIdx_congr (nc1 nc2 : List ℤ) (w : ℤ) (hl : nc1.length = nc2.length)
    (h : ∀ p, p < nc1.length → (nc1.getD p 0 = w ↔ nc2.getD p 0 = w)) :
    globIdx nc1 w = globIdx nc2 w := by
  rw [globIdx, globIdx, ← hl]
  refine List.filter_congr ?_
  intro p hp
  exact decide_eq_decide.mpr (h p (List.mem_range.mp hp))

theorem globMzs_congr (mzs : List ℚ) (nc1 nc2 : List ℤ) (w : ℤ)
    (hl : nc1.length = nc2.length)
    (h : ∀ p, p < nc1.length → (nc1.getD p 0 = w ↔ nc2.getD p 0 = w)) :
    globMzs mzs nc1 w = globMzs mzs nc2 w := by
  rw [globMzs, globMzs, globIdx_congr nc1 nc2 w hl h]

theorem positionsOf_mem (l : List ℤ) (v : ℤ) (q : ℕ) :
    q ∈ positionsOf l v ↔ q < l.length ∧ l.getD q 0 = v := by
  rw [positionsOf, List.mem_filter, List.mem_range]
  constructor
  · rintro ⟨h1, h2⟩
    exact ⟨h1, by simpa using h2⟩
  · rintro ⟨h1, h2⟩
    exact ⟨h1, by simpa using h2⟩

theorem positionsOf_pairwise (l : List ℤ) (v : ℤ) :
    (positionsOf l v).Pairwise (· < ·) := by
  rw [positionsOf]
  exact List.Pairwise.filter _ (List.pairwise_lt_range l.length)

theorem positionsOf_length (l : List ℤ) (v : ℤ) :
    (positionsOf l v).length = l.count v := by
  rw [positionsOf, count_eq_filter_range]

theorem pairwise_lt_getD_mono (l : List ℕ) (hp : l.Pairwise (· < ·)) (i j : ℕ)
    (hij : i < j) (hj : j < l.length) : l.getD i 0 < l.getD j 0 := by
  rw [List.getD_eq_getElem l 0 (by omega), List.getD_eq_getElem l 0 hj]
  exact List.pairwise_iff_getElem.mp hp i j (by omega) hj hij

theorem pairwise_lt_getD_monoZ (l : List ℤ) (hp : l.Pairwise (· < ·)) (i j : ℕ)
    (hij : i < j) (hj : j < l.length) : l.getD i 0 < l.getD j 0 := by
  rw [List.getD_eq_getElem l 0 (by omega), List.getD_eq_getElem l 0 hj]
  exact List.pairwise_iff_getElem.mp hp i j (by omega) hj hij

theorem pairwise_lt_bounded_eq_range (l : List ℤ) (hp : l.Pairwise (· < ·))
    (hb : ∀ x ∈ l, 0 ≤ x ∧ x < (l.length : ℤ)) :
    l = (List.range l.length).map (fun j : ℕ => (j : ℤ)) := by
  have hbD : ∀ i, i < l.length → 0 ≤ l.getD i 0 ∧ l.getD i 0 < (l.length : ℤ) :=
    fun i hi => hb _ (getD_mem_of_lt l i 0 hi)
  have hstep : ∀ (t i : ℕ), i + t < l.length →
      l.getD i 0 + (t : ℤ) ≤ l.getD (i + t) 0 := by
    intro t
    induction t with
    | zero =>
      intro i h
      simp
    | succ t iht =>
      intro i h
      have h1 := iht i (by omega)
      have h2 := pairwise_lt_getD_monoZ l hp (i + t) (i + t + 1) (by omega) (by omega)
      have hidx : i + (t + 1) = i + t + 1 := by omega
      rw [hidx]
      push_cast
      omega
  have hval : ∀ i, i < l.length → l.getD i 0 = (i : ℤ) := by
    intro i hi
    have hlow : (i : ℤ) ≤ l.getD i 0 := by
      have h0 := hstep i 0 (by omega)
      have hnn : 0 ≤ l.getD 0 0 := (hbD 0 (by omega)).1
      rw [Nat.zero_add] at h0
      omega
    have hhigh : l.getD i 0 ≤ (i : ℤ) := by
      have h0 := hstep (l.length - 1 - i) i (by omega)
      have hub : l.getD (l.length - 1) 0 < (l.length : ℤ) := (hbD _ (by omega)).2
      have hidx : i + (l.length - 1 - i) = l.length - 1 := by omega
      rw [hidx] at h0
      have hcast : ((l.length - 1 - i : ℕ) : ℤ) = (l.length : ℤ) - 1 - (i : ℤ) := by
        omega
      rw [hcast] at h0
      omega
    omega
  refine List.ext_getElem (by simp) ?_
  intro i hi hi2
  have := hval i hi
  rw [List.getD_eq_getElem l 0 hi] at this
  rw [this]
  simp

theorem uniqSorted_dense (clusts : List ℤ)
    (hdense : ∀ x ∈ clusts, 0 ≤ x ∧ x < ((uniqSorted clusts).length : ℤ)) :
    uniqSorted clusts =
      (List.range (uniqSorted clusts).length).map (fun j : ℕ => (j : ℤ)) := by
  refine pairwise_lt_bounded_eq_range (uniqSorted clusts) (pairwise_uniqSorted clusts) ?_
  intro x hx
  exact hdense x ((mem_uniqSorted clusts x).mp hx)

theorem zip_self_map {α : Type} (l : List α) :
    l.zip l = l.map (fun x => (x, x)) := by
  induction l with
  | nil => simp
  | cons x xs ih =>
    rw [List.zip_cons_cons, List.map_cons, ih]

theorem enum_uniqSorted_dense (clusts : List ℤ)
    (hdense : ∀ x ∈ clusts, 0 ≤ x ∧ x < ((uniqSorted clusts).length : ℤ)) :
    (uniqSorted clusts).enum =
      (List.range (uniqSorted clusts).length).map (fun j : ℕ => (j, (j : ℤ))) := by
  rw [List.enum_eq_zip_range]
  rw [uniqSorted_dense clusts hdense]
  rw [List.length_map, List.length_range]
  rw [List.zip_map_right, zip_self_map, List.map_map]
  rfl

theorem growClosest_spec (mzs_ : List ℚ) (used : List ℤ) (usedMZs : List ℚ)
    (hlu : used.length = mzs_.length) (hlm : usedMZs.length = mzs_.length)
    (hur : ∀ i, i < mzs_.length →
      used.getD i 0 = -1 ∨ used.getD i 0 = 0 ∨ used.getD i 0 = 1)
    (hum : ∀ i, i < mzs_.length → used.getD i 0 = 1 →
      usedMZs.getD i 0 = mzs_.getD i 0)
    (hmzB : ∀ i, i < mzs_.length → 0 < mzs_.getD i 0 ∧ mzs_.getD i 0 < 100000)
    (i1 : ℕ) (hi1 : i1 < mzs_.length) (hone : used.getD i1 0 = 1)
    (j : ℕ) (hj : j < mzs_.length) (hjz : used.getD j 0 = 0) :
    growClosest mzs_ used usedMZs < mzs_.length ∧
    used.getD (growClosest mzs_ used usedMZs) 0 = 0 := by
  have hselB : ∀ x ∈ usedSel usedMZs used, 0 < x ∧ x < 100000 := by
    intro x hx
    rcases usedSel_mem usedMZs used x hx with ⟨i, hi, hu, hEq⟩
    have hin : i < mzs_.length := by rw [← hlm]; exact hi
    rw [hEq, hum i hin hu]
    exact hmzB i hin
  have hselne : usedSel usedMZs used ≠ [] :=
    usedSel_ne_nil usedMZs used i1 (by rw [hlm]; exact hi1) hone
  have hmaxB : 0 < listMaxQ (usedSel usedMZs used) ∧
      listMaxQ (usedSel usedMZs used) < 100000 :=
    hselB _ (listMaxQ_mem _ hselne)
  have hminB : 0 < listMinQ (usedSel usedMZs used) ∧
      listMinQ (usedSel usedMZs used) < 100000 :=
    hselB _ (listMinQ_mem _ hselne)
  have htop := refineT_pick mzs_ used (listMaxQ (usedSel usedMZs used)) hlu hur hmzB
    hmaxB j hj hjz
  have hlow := refineT_pick mzs_ used (listMinQ (usedSel usedMZs used)) hlu hur hmzB
    hminB j hj hjz
  rw [growClosest]
  by_cases hc : (refineT mzs_ used (listMaxQ (usedSel usedMZs used))).getD
      (argminQ (refineT mzs_ used (listMaxQ (usedSel usedMZs used)))) 0 <
      (refineT mzs_ used (listMinQ (usedSel usedMZs used))).getD
      (argminQ (refineT mzs_ used (listMinQ (usedSel usedMZs used)))) 0
  · rw [if_pos hc]
    exact htop
  · rw [if_neg hc]
    exact hlow

theorem RefCtx_posInj (mzs_ : List ℚ) (pos : List ℕ) (clusts : List ℤ)
    (McR : ℤ) (ctx : RefCtx mzs_ pos clusts McR) (i j : ℕ)
    (hi : i < mzs_.length) (hj : j < mzs_.length) (hij : i ≠ j) :
    pos.getD i 0 ≠ pos.getD j 0 := by
  rcases lt_trichotomy i j with h | h | h
  · exact Nat.ne_of_lt (ctx.posMono i j h hj)
  · exact absurd h hij
  · exact (Nat.ne_of_lt (ctx.posMono j i h hi)).symm

theorem outerSeed_spec (ints_ : List ℚ) (used : List ℤ)
    (hlen : used.length = ints_.length)
    (hpos : ∀ i, i < ints_.length → 0 < ints_.getD i 0)
    (j : ℕ) (hj : j < ints_.length) (hjz : used.getD j 0 = 0) :
    outerSeed ints_ used < ints_.length ∧
    used.getD (outerSeed ints_ used) 0 = 0 := by
  have hzlen : (List.zipWith (fun inte u => inte * (if u = 0 then 1 else 0))
      ints_ used).length = ints_.length := by
    rw [List.length_zipWith, hlen]
    omega
  have hzne : List.zipWith (fun inte u => inte * (if u = 0 then 1 else 0))
      ints_ used ≠ [] := by
    intro hc
    rw [hc] at hzlen
    simp at hzlen
    omega
  have hslt : outerSeed ints_ used < ints_.length := by
    rw [outerSeed, ← hzlen]
    exact argmaxQ_lt_length _ hzne
  refine ⟨hslt, ?_⟩
  have hvalj : (List.zipWith (fun inte u => inte * (if u = 0 then 1 else 0))
      ints_ used).getD j 0 = ints_.getD j 0 := by
    rw [getD_zipWith_poly _ ints_ used j 0 0 0 hj (by omega)]
    rw [hjz]
    simp
  have hge := argmaxQ_ge (List.zipWith (fun inte u => inte * (if u = 0 then 1 else 0))
      ints_ used) j (by omega)
  by_contra hcontra
  have hvals : (List.zipWith (fun inte u => inte * (if u = 0 then 1 else 0))
      ints_ used).getD (argmaxQ (List.zipWith
        (fun inte u => inte * (if u = 0 then 1 else 0)) ints_ used)) 0 = 0 := by
    rw [getD_zipWith_poly _ ints_ used _ 0 0 0 (by rw [← outerSeed]; exact hslt)
      (by rw [hlen, ← outerSeed]; exact hslt)]
    rw [← outerSeed, if_neg hcontra]
    simp
  rw [← outerSeed] at hge hvals
  rw [hvalj, hvals] at hge
  exact absurd (lt_of_lt_of_le (hpos j hj) hge) (lt_irrefl 0)

theorem refineOuter_zero (mzs_ ints_ : List ℚ) (pos : List ℕ) (clusts : List ℤ)
    (cd : ℚ) (md : Option ℚ) (fuel : ℕ) (used : List ℤ) (usedMZs : List ℚ)
    (nc : List ℤ) (mc : ℤ) (h : used.count 0 = 0) :
    refineOuter mzs_ ints_ pos clusts cd md fuel used usedMZs nc mc = (nc, mc) := by
  cases fuel with
  | zero => rw [refineOuter]
  | succ f =>
    rw [refineOuter, if_neg (by omega)]

theorem grow_spec (mzs_ : List ℚ) (pos : List ℕ) (clusts : List ℤ) (McR : ℤ)
    (d closestDev : ℚ) (ctx : RefCtx mzs_ pos clusts McR) :
    ∀ (fuel : ℕ) (used : List ℤ) (usedMZs : List ℚ) (nc : List ℤ) (mc : ℤ)
      (last : ℚ),
    GrowInv mzs_ pos clusts McR d used usedMZs nc mc →
    0 < used.count 0 → used.count 0 ≤ fuel →
    OuterInv mzs_ pos clusts McR d
      (grow mzs_ pos clusts closestDev (some d) fuel used usedMZs nc mc last).1
      (grow mzs_ pos clusts closestDev (some d) fuel used usedMZs nc mc last).2.2.1
      (grow mzs_ pos clusts closestDev (some d) fuel used usedMZs nc mc last).2.2.2 ∧
    (grow mzs_ pos clusts closestDev (some d) fuel used usedMZs nc mc
      last).2.2.2 = mc + 1 ∧
    (grow mzs_ pos clusts closestDev (some d) fuel used usedMZs nc mc
      last).1.count 0 ≤ used.count 0 ∧
    (grow mzs_ pos clusts closestDev (some d) fuel used usedMZs nc mc
      last).2.1.length = mzs_.length ∧
    (∀ p : ℕ, (∀ i, i < mzs_.length → pos.getD i 0 ≠ p) →
      (grow mzs_ pos clusts closestDev (some d) fuel used usedMZs nc mc
        last).2.2.1.getD p 0 = nc.getD p 0) := by
  intro fuel
  induction fuel with
  | zero =>
    intro used usedMZs nc mc last hInv hcnt hfuel
    omega
  | succ fuel ih =>
    intro used usedMZs nc mc last hInv hcnt hfuel
    obtain ⟨i1, hi1, hone⟩ := hInv.one
    obtain ⟨j0, hj0, hjz⟩ := exists_getD_zero used hcnt
    have hj0m : j0 < mzs_.length := by rw [← hInv.lu]; exact hj0
    have hcs := growClosest_spec mzs_ used usedMZs hInv.lu hInv.lm hInv.ur
      hInv.um ctx.mzB i1 hi1 hone j0 hj0m hjz
    rw [grow]
    set c := growClosest mzs_ used usedMZs with hcdef
    have hclt : c < mzs_.length := hcs.1
    have hcz : used.getD c 0 = 0 := hcs.2
    set used1 := used.set c 1 with hu1
    set usedMZs1 := usedMZs.set c (mzs_.getD c 0) with hm1
    set nc1 := nc.set (pos.getD c 0) (mc + 1) with hn1
    have hclu : c < used.length := by rw [hInv.lu]; exact hclt
    have hclm : c < usedMZs.length := by rw [hInv.lm]; exact hclt
    have hposc : pos.getD c 0 < clusts.length := ctx.posLt c hclt
    have hposcn : pos.getD c 0 < nc.length := by rw [hInv.ln]; exact hposc
    have hcrudec : clusts.getD (pos.getD c 0) 0 < McR := ctx.crudeLt c hclt
    have hncc : nc.getD (pos.getD c 0) 0 = clusts.getD (pos.getD c 0) 0 :=
      hInv.lblz c hclt hcz
    have hpinj : ∀ i, i < mzs_.length → i ≠ c →
        pos.getD c 0 ≠ pos.getD i 0 := by
      intro i hi hic
      exact RefCtx_posInj mzs_ pos clusts McR ctx c i hclt hi
        (fun h => hic h.symm)
    have hu1len : used1.length = mzs_.length := by
      rw [hu1, List.length_set, hInv.lu]
    have hm1len : usedMZs1.length = mzs_.length := by
      rw [hm1, List.length_set, hInv.lm]
    have hn1len : nc1.length = clusts.length := by
      rw [hn1, List.length_set, hInv.ln]
    have hu1c : used1.getD c 0 = 1 := by
      rw [hu1]
      exact getD_set_self used c 1 0 hclu
    have hu1ne : ∀ i, i ≠ c → used1.getD i 0 = used.getD i 0 := by
      intro i hic
      rw [hu1]
      exact getD_set_ne used c i 1 0 (fun h => hic h.symm)
    have hm1c : usedMZs1.getD c 0 = mzs_.getD c 0 := by
      rw [hm1]
      exact getD_set_self usedMZs c _ 0 hclm
    have hm1ne : ∀ i, i ≠ c → usedMZs1.getD i 0 = usedMZs.getD i 0 := by
      intro i hic
      rw [hm1]
      exact getD_set_ne usedMZs c i _ 0 (fun h => hic h.symm)
    have hn1c : nc1.getD (pos.getD c 0) 0 = mc + 1 := by
      rw [hn1]
      exact getD_set_self nc (pos.getD c 0) (mc + 1) 0 hposcn
    have hn1ne : ∀ i, i < mzs_.length → i ≠ c →
        nc1.getD (pos.getD i 0) 0 = nc.getD (pos.getD i 0) 0 := by
      intro i hi hic
      rw [hn1]
      exact getD_set_ne nc (pos.getD c 0) (pos.getD i 0) (mc + 1) 0 (hpinj i hi hic)
    by_cases hrej : growRejectB closestDev (some d) used1 usedMZs1 last = true
    · rw [if_pos hrej]
      have husedR : used1.set c 0 = used := by
        rw [hu1, List.set_set]
        exact set_eq_self_of_getD used c 0 0 hclu hcz
      have hncR : nc1.set (pos.getD c 0) (clusts.getD (pos.getD c 0) 0) = nc := by
        rw [hn1, List.set_set]
        exact set_eq_self_of_getD nc (pos.getD c 0) _ 0 hposcn hncc
      rw [husedR, hncR]
      dsimp only
      have hcount : (used.map (fun u => -((u.natAbs : ℤ)))).count 0 = used.count 0 :=
        count_zero_map_negAbs used
      refine ⟨?_, rfl, by rw [hcount], by simp [hm1len], fun p _ => rfl⟩
      refine ⟨by simp [hInv.lu], hInv.ln, ?_, ?_, ?_, by have := hInv.mcge; omega, ?_⟩
      · intro i hi
        rw [getD_map_lt _ used i 0 0 (by rw [hInv.lu]; exact hi)]
        rcases hInv.ur i hi with h | h | h
        · left
          rw [h]
          decide
        · right
          rw [h]
          decide
        · left
          rw [h]
          decide
      · intro i hi h0
        have h0' : used.getD i 0 = 0 := by
          rw [getD_map_lt _ used i 0 0 (by rw [hInv.lu]; exact hi)] at h0
          omega
        exact hInv.lblz i hi h0'
      · intro i hi h1
        have h1' : used.getD i 0 = 1 ∨ used.getD i 0 = -1 := by
          rw [getD_map_lt _ used i 0 0 (by rw [hInv.lu]; exact hi)] at h1
          rcases hInv.ur i hi with h | h | h
          · right
            exact h
          · rw [h] at h1
            simp at h1
          · left
            exact h
        rcases h1' with h | h
        · have := hInv.lblo i hi h
          have := hInv.mcge
          omega
        · have := hInv.lbln i hi h
          omega
      · intro w hw1 hw2 hlen2
        by_cases hwm : w ≤ mc
        · exact hInv.closed w hw1 hwm hlen2
        · have hw : w = mc + 1 := by omega
          subst hw
          have hfilter : regionIdx mzs_.length pos nc (mc + 1) =
              (List.range mzs_.length).filter (fun i => used.getD i 0 = 1) := by
            rw [regionIdx]
            refine List.filter_congr ?_
            intro i hi
            replace hi := List.mem_range.mp hi
            refine decide_eq_decide.mpr ?_
            constructor
            · intro hlab
              rcases hInv.ur i hi with h | h | h
              · have := hInv.lbln i hi h
                omega
              · have := hInv.lblz i hi h
                have := ctx.crudeLt i hi
                have := hInv.mcge
                omega
              · exact h
            · intro h
              exact hInv.lblo i hi h
          have hmzsEq : regionMzs mzs_ pos nc (mc + 1) = usedSel usedMZs used := by
            rw [regionMzs, hfilter, usedSel, hInv.lm]
            refine List.map_congr_left ?_
            intro i hi
            rcases List.mem_filter.mp hi with ⟨hir, hif⟩
            exact (hInv.um i (List.mem_range.mp hir) (by simpa using hif)).symm
          have hlenEq : (usedSel usedMZs used).length =
              (regionIdx mzs_.length pos nc (mc + 1)).length := by
            rw [usedSel, hInv.lm, List.length_map, hfilter]
          rw [hmzsEq]
          refine hInv.openSp ?_
          omega
    · rw [if_neg hrej]
      have hrejf : growRejectB closestDev (some d) used1 usedMZs1 last = false :=
        Bool.eq_false_iff.mpr hrej
      rw [growRejectB] at hrejf
      simp only [Bool.or_eq_false_iff, beq_eq_false_iff_ne, ne_eq,
        decide_eq_false_iff_not, not_lt] at hrejf
      have hcnt1pos : 0 < used1.count 0 := by
        rcases Nat.eq_zero_or_pos (used1.count 0) with h | h
        · exact absurd h hrejf.1.1
        · exact h
      have hcount1 : used1.count 0 + 1 = used.count 0 :=
        count_zero_set1 used c hclu hcz
      have hspread1 : ppmSpread (usedSel usedMZs1 used1) ≤ d := hrejf.2
      have hInv1 : GrowInv mzs_ pos clusts McR d used1 usedMZs1 nc1 mc := by
        refine ⟨hu1len, hm1len, hn1len, ?_, ?_, ?_, ?_, ?_, hInv.mcge, ?_, ?_, ?_⟩
        · intro i hi
          by_cases hic : i = c
          · subst hic
            right
            right
            exact hu1c
          · rw [hu1ne i hic]
            exact hInv.ur i hi
        · intro i hi h1
          by_cases hic : i = c
          · subst hic
            exact hm1c
          · rw [hu1ne i hic] at h1
            rw [hm1ne i hic]
            exact hInv.um i hi h1
        · intro i hi h0
          by_cases hic : i = c
          · subst hic
            rw [hu1c] at h0
            omega
          · rw [hu1ne i hic] at h0
            rw [hn1ne i hi hic]
            exact hInv.lblz i hi h0
        · intro i hi h1
          by_cases hic : i = c
          · subst hic
            exact hn1c
          · rw [hu1ne i hic] at h1
            rw [hn1ne i hi hic]
            exact hInv.lblo i hi h1
        · intro i hi h1
          by_cases hic : i = c
          · subst hic
            rw [hu1c] at h1
            omega
          · rw [hu1ne i hic] at h1
            rw [hn1ne i hi hic]
            exact hInv.lbln i hi h1
        · intro w hw1 hw2 hlen2
          have hcongr : ∀ i, i < mzs_.length →
              (nc1.getD (pos.getD i 0) 0 = w ↔ nc.getD (pos.getD i 0) 0 = w) := by
            intro i hi
            by_cases hic : i = c
            · subst hic
              rw [hn1c, hncc]
              constructor
              · intro h
                omega
              · intro h
                omega
            · rw [hn1ne i hi hic]
          rw [regionIdx_congr mzs_.length pos nc1 nc w hcongr] at hlen2
          rw [regionMzs_congr mzs_ pos nc1 nc w hcongr]
          exact hInv.closed w hw1 hw2 hlen2
        · intro _
          exact hspread1
        · exact ⟨c, hclt, hu1c⟩
      have hres := ih used1 usedMZs1 nc1 mc (ppmSpread (usedSel usedMZs1 used1))
        hInv1 hcnt1pos (by omega)
      refine ⟨hres.1, hres.2.1, by have := hres.2.2.1; omega, hres.2.2.2.1, ?_⟩
      intro p hp
      rw [hres.2.2.2.2 p hp, hn1]
      exact getD_set_ne nc (pos.getD c 0) p (mc + 1) 0 (hp c hclt)

theorem outerInv_exit (mzs_ : List ℚ) (pos : List ℕ) (clusts : List ℤ)
    (McR : ℤ) (d : ℚ) (used nc : List ℤ) (mc : ℤ)
    (hInv : OuterInv mzs_ pos clusts McR d used nc mc)
    (hcnt : used.count 0 = 0) :
    (∀ i, i < mzs_.length → McR < nc.getD (pos.getD i 0) 0 ∧
      nc.getD (pos.getD i 0) 0 ≤ mc + 1) ∧
    (∀ w : ℤ, McR < w → w ≤ mc + 1 →
      2 ≤ (regionIdx mzs_.length pos nc w).length →
      ppmSpread (regionMzs mzs_ pos nc w) ≤ d) := by
  have hneg : ∀ i, i < mzs_.length → used.getD i 0 = -1 := by
    intro i hi
    rcases hInv.ur i hi with h | h
    · exact h
    · have := count_pos_of_getD used 0 i (by rw [hInv.lu]; exact hi) h
      omega
  constructor
  · intro i hi
    have := hInv.lbln i hi (hneg i hi)
    omega
  · intro w hw1 hw2 h2
    by_cases hwm : w ≤ mc
    · exact hInv.closed w hw1 hwm h2
    · have hnil : regionIdx mzs_.length pos nc w = [] := by
        refine List.eq_nil_iff_forall_not_mem.mpr ?_
        intro i hi
        rcases (regionIdx_mem mzs_.length pos nc w i).mp hi with ⟨him, hlab⟩
        have := hInv.lbln i him (hneg i him)
        omega
      rw [hnil] at h2
      simp at h2

theorem refineOuter_spec (mzs_ ints_ : List ℚ) (pos : List ℕ) (clusts : List ℤ)
    (McR : ℤ) (d closestDev : ℚ) (ctx : RefCtx mzs_ pos clusts McR)
    (hil : ints_.length = mzs_.length)
    (hintp : ∀ i, i < mzs_.length → 0 < ints_.getD i 0) :
    ∀ (fuel : ℕ) (used : List ℤ) (usedMZs : List ℚ) (nc : List ℤ) (mc : ℤ),
    OuterInv mzs_ pos clusts McR d used nc mc →
    usedMZs.length = mzs_.length →
    used.count 0 ≤ fuel →
    (refineOuter mzs_ ints_ pos clusts closestDev (some d) fuel used usedMZs nc
      mc).1.length = clusts.length ∧
    (∀ i, i < mzs_.length →
      McR < (refineOuter mzs_ ints_ pos clusts closestDev (some d) fuel used
        usedMZs nc mc).1.getD (pos.getD i 0) 0 ∧
      (refineOuter mzs_ ints_ pos clusts closestDev (some d) fuel used usedMZs nc
        mc).1.getD (pos.getD i 0) 0 ≤
        (refineOuter mzs_ ints_ pos clusts closestDev (some d) fuel used usedMZs
          nc mc).2 + 1) ∧
    (∀ w : ℤ, McR < w →
      w ≤ (refineOuter mzs_ ints_ pos clusts closestDev (some d) fuel used
        usedMZs nc mc).2 + 1 →
      2 ≤ (regionIdx mzs_.length pos (refineOuter mzs_ ints_ pos clusts
        closestDev (some d) fuel used usedMZs nc mc).1 w).length →
      ppmSpread (regionMzs mzs_ pos (refineOuter mzs_ ints_ pos clusts closestDev
        (some d) fuel used usedMZs nc mc).1 w) ≤ d) ∧
    (∀ p : ℕ, (∀ i, i < mzs_.length → pos.getD i 0 ≠ p) →
      (refineOuter mzs_ ints_ pos clusts closestDev (some d) fuel used usedMZs nc
        mc).1.getD p 0 = nc.getD p 0) ∧
    mc ≤ (refineOuter mzs_ ints_ pos clusts closestDev (some d) fuel used usedMZs
      nc mc).2 := by
  intro fuel
  induction fuel with
  | zero =>
    intro used usedMZs nc mc hInv _ hfuel
    rw [refineOuter]
    dsimp only
    have hexit := outerInv_exit mzs_ pos clusts McR d used nc mc hInv (by omega)
    exact ⟨hInv.ln, hexit.1, hexit.2, fun p _ => rfl, le_refl mc⟩
  | succ fuel ih =>
    intro used usedMZs nc mc hInv hmlen hfuel
    by_cases hcnt0 : 0 < used.count 0
    · rw [refineOuter, if_pos hcnt0]
      obtain ⟨j0, hj0, hjz⟩ := exists_getD_zero used hcnt0
      have hulen : used.length = ints_.length := by rw [hInv.lu, hil]
      have hj0i : j0 < ints_.length := by rw [← hulen]; exact hj0
      have hintp2 : ∀ i, i < ints_.length → 0 < ints_.getD i 0 := by
        intro i hi
        rw [hil] at hi
        exact hintp i hi
      have hseed := outerSeed_spec ints_ used hulen hintp2 j0 hj0i hjz
      set s := outerSeed ints_ used with hsdef
      have hslt : s < mzs_.length := by rw [← hil]; exact hseed.1
      have husz : used.getD s 0 = 0 := hseed.2
      set used1 := used.set s 1 with hu1
      set usedMZs1 := usedMZs.set s (mzs_.getD s 0) with hm1
      set nc1 := nc.set (pos.getD s 0) (mc + 1) with hn1
      have hslu : s < used.length := by rw [hInv.lu]; exact hslt
      have hslm : s < usedMZs.length := by rw [hmlen]; exact hslt
      have hposs : pos.getD s 0 < clusts.length := ctx.posLt s hslt
      have hpossn : pos.getD s 0 < nc.length := by rw [hInv.ln]; exact hposs
      have hcrudes : clusts.getD (pos.getD s 0) 0 < McR := ctx.crudeLt s hslt
      have hpinj : ∀ i, i < mzs_.length → i ≠ s →
          pos.getD s 0 ≠ pos.getD i 0 := by
        intro i hi hic
        exact RefCtx_posInj mzs_ pos clusts McR ctx s i hslt hi
          (fun h => hic h.symm)
      have hu1len : used1.length = mzs_.length := by
        rw [hu1, List.length_set, hInv.lu]
      have hm1len : usedMZs1.length = mzs_.length := by
        rw [hm1, List.length_set, hmlen]
      have hn1len : nc1.length = clusts.length := by
        rw [hn1, List.length_set, hInv.ln]
      have hu1s : used1.getD s 0 = 1 := by
        rw [hu1]
        exact getD_set_self used s 1 0 hslu
      have hu1ne : ∀ i, i ≠ s → used1.getD i 0 = used.getD i 0 := by
        intro i hic
        rw [hu1]
        exact getD_set_ne used s i 1 0 (fun h => hic h.symm)
      have hm1s : usedMZs1.getD s 0 = mzs_.getD s 0 := by
        rw [hm1]
        exact getD_set_self usedMZs s _ 0 hslm
      have hn1s : nc1.getD (pos.getD s 0) 0 = mc + 1 := by
        rw [hn1]
        exact getD_set_self nc (pos.getD s 0) (mc + 1) 0 hpossn
      have hn1ne : ∀ i, i < mzs_.length → i ≠ s →
          nc1.getD (pos.getD i 0) 0 = nc.getD (pos.getD i 0) 0 := by
        intro i hi hic
        rw [hn1]
        exact getD_set_ne nc (pos.getD s 0) (pos.getD i 0) (mc + 1) 0
          (hpinj i hi hic)
      have honly : ∀ i, i < mzs_.length → used1.getD i 0 = 1 → i = s := by
        intro i hi h1
        by_contra hic
        rw [hu1ne i hic] at h1
        rcases hInv.ur i hi with h | h
        · omega
        · omega
      have hcount1 : used1.count 0 + 1 = used.count 0 :=
        count_zero_set1 used s hslu husz
      have hclosed1 : ∀ w : ℤ, McR < w → w ≤ mc →
          2 ≤ (regionIdx mzs_.length pos nc1 w).length →
          ppmSpread (regionMzs mzs_ pos nc1 w) ≤ d := by
        intro w hw1 hw2 h2
        have hcongr : ∀ i, i < mzs_.length →
            (nc1.getD (pos.getD i 0) 0 = w ↔ nc.getD (pos.getD i 0) 0 = w) := by
          intro i hi
          by_cases hic : i = s
          · rw [hic, hn1s, hInv.lblz s hslt husz]
            constructor
            · intro h
              omega
            · intro h
              have := hcrudes
              omega
          · rw [hn1ne i hi hic]
        rw [regionIdx_congr mzs_.length pos nc1 nc w hcongr] at h2
        rw [regionMzs_congr mzs_ pos nc1 nc w hcongr]
        exact hInv.closed w hw1 hw2 h2
      by_cases hcnt1 : 0 < used1.count 0
      · rw [if_pos hcnt1]
        have hInv1 : GrowInv mzs_ pos clusts McR d used1 usedMZs1 nc1 mc := by
          refine ⟨hu1len, hm1len, hn1len, ?_, ?_, ?_, ?_, ?_, hInv.mcge,
            hclosed1, ?_, ⟨s, hslt, hu1s⟩⟩
          · intro i hi
            by_cases hic : i = s
            · subst hic
              right
              right
              exact hu1s
            · rw [hu1ne i hic]
              rcases hInv.ur i hi with h | h
              · left
                exact h
              · right
                left
                exact h
          · intro i hi h1
            have his := honly i hi h1
            subst his
            exact hm1s
          · intro i hi h0
            have hic : i ≠ s := by
              intro hEq
              rw [hEq, hu1s] at h0
              omega
            rw [hu1ne i hic] at h0
            rw [hn1ne i hi hic]
            exact hInv.lblz i hi h0
          · intro i hi h1
            have his := honly i hi h1
            subst his
            exact hn1s
          · intro i hi h1
            have hic : i ≠ s := by
              intro hEq
              rw [hEq, hu1s] at h1
              omega
            rw [hu1ne i hic] at h1
            rw [hn1ne i hi hic]
            exact hInv.lbln i hi h1
          · intro h2
            have hle1 : ((List.range usedMZs1.length).filter
                (fun i => used1.getD i 0 = 1)).length ≤ 1 := by
              refine length_filter_le_one _ _ s (List.nodup_range _) ?_
              intro x hx hpx
              exact honly x (by rw [← hm1len]; exact List.mem_range.mp hx)
                (by simpa using hpx)
            rw [usedSel, List.length_map] at h2
            omega
        have hgrow := grow_spec mzs_ pos clusts McR d closestDev ctx
          (mzs_.length + 1) used1 usedMZs1 nc1 mc 0 hInv1 hcnt1
          (by have := List.count_le_length 0 used1; omega)
        set g := grow mzs_ pos clusts closestDev (some d) (mzs_.length + 1)
          used1 usedMZs1 nc1 mc 0 with hg
        have hres := ih g.1 g.2.1 g.2.2.1 g.2.2.2 hgrow.1 hgrow.2.2.2.1
          (by have := hgrow.2.2.1; omega)
        refine ⟨hres.1, hres.2.1, hres.2.2.1, ?_, ?_⟩
        · intro p hp
          rw [hres.2.2.2.1 p hp, hgrow.2.2.2.2 p hp, hn1]
          exact getD_set_ne nc (pos.getD s 0) p (mc + 1) 0 (hp s hslt)
        · have h1 := hgrow.2.1
          have h2 := hres.2.2.2.2
          omega
      · rw [if_neg hcnt1]
        rw [refineOuter_zero mzs_ ints_ pos clusts closestDev (some d) fuel
          used1 usedMZs1 nc1 mc (by omega)]
        dsimp only
        have hneg1 : ∀ i, i < mzs_.length → i ≠ s → used.getD i 0 = -1 := by
          intro i hi hic
          rcases hInv.ur i hi with h | h
          · exact h
          · have h0 : used1.getD i 0 = 0 := by rw [hu1ne i hic]; exact h
            have := count_pos_of_getD used1 0 i (by rw [hu1len]; exact hi) h0
            omega
        refine ⟨hn1len, ?_, ?_, ?_, le_refl mc⟩
        · intro i hi
          by_cases hic : i = s
          · subst hic
            rw [hn1s]
            have := hInv.mcge
            omega
          · rw [hn1ne i hi hic]
            have := hInv.lbln i hi (hneg1 i hi hic)
            omega
        · intro w hw1 hw2 h2
          by_cases hwm : w ≤ mc
          · exact hclosed1 w hw1 hwm h2
          · have hw : w = mc + 1 := by omega
            subst hw
            have hle1 : (regionIdx mzs_.length pos nc1 (mc + 1)).length ≤ 1 := by
              rw [regionIdx]
              refine length_filter_le_one _ _ s (List.nodup_range _) ?_
              intro x hx hpx
              replace hx := List.mem_range.mp hx
              replace hpx : nc1.getD (pos.getD x 0) 0 = mc + 1 := by simpa using hpx
              by_contra hxs
              rw [hn1ne x hx hxs] at hpx
              have := hInv.lbln x hx (hneg1 x hx hxs)
              omega
            omega
        · intro p hp
          rw [hn1]
          exact getD_set_ne nc (pos.getD s 0) p (mc + 1) 0 (hp s hslt)
    · rw [refineOuter, if_neg hcnt0]
      dsimp only
      have hexit := outerInv_exit mzs_ pos clusts McR d used nc mc hInv (by omega)
      exact ⟨hInv.ln, hexit.1, hexit.2, fun p _ => rfl, le_refl mc⟩

theorem getD_replicate_zeroZ (k c : ℕ) : (List.replicate k (0 : ℤ)).getD c 0 = 0 := by
  by_cases h : c < k
  · rw [List.getD_eq_getElem _ 0 (by simpa using h)]
    simp
  · rw [List.getD_eq_default _ 0 (by simpa using not_lt.mp h)]

theorem refineBody_step (mzs intensities : List ℚ) (clusts : List ℤ)
    (closestDev d : ℚ)
    (hlen : mzs.length = clusts.length) (hilen : intensities.length = clusts.length)
    (hmzB : ∀ x ∈ mzs, 0 < x ∧ x < 100000) (hintB : ∀ x ∈ intensities, 0 < x)
    (j : ℕ) (nc : List ℤ) (mc : ℤ)
    (hInv : FoldInv mzs clusts d j nc mc) :
    FoldInv mzs clusts d (j + 1)
      (refineBody mzs intensities clusts closestDev (some d) (nc, mc)
        (j, (j : ℤ))).1
      (refineBody mzs intensities clusts closestDev (some d) (nc, mc)
        (j, (j : ℤ))).2 := by
  rw [refineBody]
  dsimp only
  by_cases hn : 1 < clusts.count ((j : ℕ) : ℤ)
  · rw [if_pos hn]
    set pos := positionsOf clusts ((j : ℕ) : ℤ) with hposdef
    set M := pos.map (fun q => mzs.getD q 0) with hMdef
    set I := pos.map (fun q => intensities.getD q 0) with hIdef
    have hMlen : M.length = pos.length := by rw [hMdef, List.length_map]
    have hIlen : I.length = pos.length := by rw [hIdef, List.length_map]
    have hjmem : ((j : ℕ) : ℤ) ∈ clusts := List.count_pos_iff.mp (by omega)
    have hjmax : ((j : ℕ) : ℤ) ≤ listMaxZ clusts := le_listMaxZ clusts _ hjmem
    have hregi : ∀ i, i < M.length →
        pos.getD i 0 < clusts.length ∧
        clusts.getD (pos.getD i 0) 0 = ((j : ℕ) : ℤ) := by
      intro i hi
      have hmem : pos.getD i 0 ∈ pos := getD_mem_of_lt pos i 0 (by omega)
      rw [hposdef] at hmem
      exact (positionsOf_mem clusts _ _).mp hmem
    have hctx : RefCtx M pos clusts (mc + 1) := by
      refine ⟨hMlen.symm, fun i hi => (hregi i hi).1, ?_, ?_, ?_⟩
      · intro i i2 hii2 hi2
        refine pairwise_lt_getD_mono pos ?_ i i2 hii2 (by omega)
        rw [hposdef]
        exact positionsOf_pairwise clusts _
      · intro i hi
        rw [(hregi i hi).2]
        have := hInv.mcge
        omega
      · intro i hi
        rw [hMdef, getD_map_lt _ pos i 0 0 (by omega)]
        refine hmzB _ (getD_mem_of_lt mzs (pos.getD i 0) 0 ?_)
        rw [hlen]
        exact (hregi i hi).1
    have hil2 : I.length = M.length := by omega
    have hintp : ∀ i, i < M.length → 0 < I.getD i 0 := by
      intro i hi
      rw [hIdef, getD_map_lt _ pos i 0 0 (by omega)]
      refine hintB _ (getD_mem_of_lt intensities (pos.getD i 0) 0 ?_)
      rw [hilen]
      exact (hregi i hi).1
    have hpos_ex : ∀ p, p < clusts.length → clusts.getD p 0 = ((j : ℕ) : ℤ) →
        ∃ i, i < M.length ∧ pos.getD i 0 = p := by
      intro p hp hc
      have hmem : p ∈ pos := by
        rw [hposdef]
        exact (positionsOf_mem clusts _ p).mpr ⟨hp, hc⟩
      rcases List.mem_iff_getElem.mp hmem with ⟨i, hi, hEq⟩
      refine ⟨i, by omega, ?_⟩
      rw [List.getD_eq_getElem pos 0 hi, hEq]
    have hnotreg : ∀ p, clusts.getD p 0 ≠ ((j : ℕ) : ℤ) →
        ∀ i, i < M.length → pos.getD i 0 ≠ p := by
      intro p hc i hi hEq
      exact hc (by rw [← hEq]; exact (hregi i hi).2)
    have hInit : OuterInv M pos clusts (mc + 1) d
        (List.replicate pos.length 0) nc (mc + 1) := by
      refine ⟨by rw [List.length_replicate]; omega, hInv.len, ?_, ?_, ?_,
        le_refl _, ?_⟩
      · intro i _
        right
        exact getD_replicate_zeroZ pos.length i
      · intro i hi _
        refine hInv.untouched _ (hregi i hi).1 ?_
        rw [(hregi i hi).2]
      · intro i hi hneg
        rw [getD_replicate_zeroZ] at hneg
        omega
      · intro w hw1 hw2 _
        omega
    have houter := refineOuter_spec M I pos clusts (mc + 1) d closestDev hctx
      hil2 hintp (pos.length + 1) (List.replicate pos.length 0)
      (List.replicate pos.length 0) nc (mc + 1) hInit
      (by rw [List.length_replicate]; omega)
      (by rw [List.count_replicate_self]; omega)
    set R := refineOuter M I pos clusts closestDev (some d) (pos.length + 1)
      (List.replicate pos.length 0) (List.replicate pos.length 0) nc (mc + 1)
      with hR
    have hub2 : ∀ p, p < clusts.length → R.1.getD p 0 ≤ R.2 + 1 := by
      intro p hp
      by_cases hc : clusts.getD p 0 = ((j : ℕ) : ℤ)
      · rcases hpos_ex p hp hc with ⟨i, hi, hEq⟩
        have := (houter.2.1 i hi).2
        rw [hEq] at this
        exact this
      · rw [houter.2.2.2.1 p (hnotreg p hc)]
        have := hInv.ub p hp
        have := houter.2.2.2.2
        omega
    have hreglab : ∀ p, p < clusts.length → clusts.getD p 0 = ((j : ℕ) : ℤ) →
        mc + 1 < R.1.getD p 0 := by
      intro p hp hc
      rcases hpos_ex p hp hc with ⟨i, hi, hEq⟩
      have := (houter.2.1 i hi).1
      rw [hEq] at this
      exact this
    refine ⟨houter.1, ?_, ?_, hub2, ?_, ?_⟩
    · have := hInv.mcge
      have := houter.2.2.2.2
      omega
    · intro p hp hge
      have hc : clusts.getD p 0 ≠ ((j : ℕ) : ℤ) := by
        push_cast at hge
        omega
      rw [houter.2.2.2.1 p (hnotreg p hc)]
      refine hInv.untouched p hp ?_
      push_cast at hge ⊢
      omega
    · intro p hp hlt
      by_cases hc : clusts.getD p 0 = ((j : ℕ) : ℤ)
      · constructor
        · intro _
          have := hreglab p hp hc
          have := hInv.mcge
          omega
        · intro hcount
          rw [hc] at hcount
          exact absurd hn hcount
      · have hlt2 : clusts.getD p 0 < (j : ℤ) := by
          push_cast at hlt
          omega
        rw [houter.2.2.2.1 p (hnotreg p hc)]
        exact hInv.done p hp hlt2
    · intro w hw1 h2
      have hRlen : R.1.length = clusts.length := houter.1
      by_cases hwle : w ≤ mc + 1
      · have hcongr : ∀ p, p < R.1.length →
            (R.1.getD p 0 = w ↔ nc.getD p 0 = w) := by
          intro p hp
          rw [hRlen] at hp
          by_cases hc : clusts.getD p 0 = ((j : ℕ) : ℤ)
          · have hhi := hreglab p hp hc
            have hold : nc.getD p 0 = clusts.getD p 0 :=
              hInv.untouched p hp (by rw [hc])
            constructor
            · intro h
              omega
            · intro h
              rw [hold, hc] at h
              omega
          · rw [houter.2.2.2.1 p (hnotreg p hc)]
        rw [globIdx_congr R.1 nc w (by rw [hRlen, hInv.len]) hcongr] at h2
        rw [globMzs_congr mzs R.1 nc w (by rw [hRlen, hInv.len]) hcongr]
        exact hInv.spread w hw1 h2
      · by_cases hwle2 : w ≤ R.2 + 1
        · have hidxEq : globIdx R.1 w =
              (regionIdx M.length pos R.1 w).map (fun i => pos.getD i 0) := by
            refine eq_of_pairwise_lt_ext _ _ (globIdx_pairwise R.1 w) ?_ ?_
            · rw [List.pairwise_map]
              refine List.Pairwise.imp_of_mem ?_ (regionIdx_pairwise M.length pos R.1 w)
              intro a b ha hb hab
              exact hctx.posMono a b hab
                ((regionIdx_mem M.length pos R.1 w b).mp hb).1
            · intro x
              constructor
              · intro hx
                rcases (globIdx_mem R.1 w x).mp hx with ⟨hxl, hxw⟩
                rw [hRlen] at hxl
                have hxreg : ∃ i, i < M.length ∧ pos.getD i 0 = x := by
                  by_contra hcon
                  push_neg at hcon
                  have hout : ∀ i, i < M.length → pos.getD i 0 ≠ x := hcon
                  rw [houter.2.2.2.1 x hout] at hxw
                  have := hInv.ub x hxl
                  omega
                rcases hxreg with ⟨i, hi, hEq⟩
                refine List.mem_map.mpr ⟨i, ?_, hEq⟩
                refine (regionIdx_mem M.length pos R.1 w i).mpr ⟨hi, ?_⟩
                rw [hEq]
                exact hxw
              · intro hx
                rcases List.mem_map.mp hx with ⟨i, hi, hEq⟩
                rcases (regionIdx_mem M.length pos R.1 w i).mp hi with ⟨him, hlab⟩
                refine (globIdx_mem R.1 w x).mpr ⟨?_, ?_⟩
                · rw [hRlen, ← hEq]
                  exact (hregi i him).1
                · rw [← hEq]
                  exact hlab
          have h2r : 2 ≤ (regionIdx M.length pos R.1 w).length := by
            rw [hidxEq, List.length_map] at h2
            exact h2
          have hsp := houter.2.2.1 w (by omega) hwle2 h2r
          have hmzsEq : globMzs mzs R.1 w = regionMzs M pos R.1 w := by
            rw [globMzs, hidxEq, regionMzs, List.map_map]
            refine List.map_congr_left ?_
            intro i hi
            have him := ((regionIdx_mem M.length pos R.1 w i).mp hi).1
            rw [Function.comp_apply]
            rw [hMdef, getD_map_lt _ pos i 0 0 (by omega)]
          rw [hmzsEq]
          exact hsp
        · have hnil : globIdx R.1 w = [] := by
            refine List.eq_nil_iff_forall_not_mem.mpr ?_
            intro x hx
            rcases (globIdx_mem R.1 w x).mp hx with ⟨hxl, hxw⟩
            rw [hRlen] at hxl
            have := hub2 x hxl
            omega
          rw [hnil] at h2
          simp at h2
  · rw [if_neg hn]
    refine ⟨hInv.len, hInv.mcge, ?_, hInv.ub, ?_, hInv.spread⟩
    · intro p hp hge
      refine hInv.untouched p hp ?_
      push_cast at hge ⊢
      omega
    · intro p hp hlt
      by_cases hc : clusts.getD p 0 = ((j : ℕ) : ℤ)
      · constructor
        · intro hcount
          rw [hc] at hcount
          exact absurd hcount hn
        · intro _
          refine hInv.untouched p hp ?_
          rw [hc]
      · constructor
        · intro hcount
          exact (hInv.done p hp (by push_cast at hlt; omega)).1 hcount
        · intro hcount
          exact (hInv.done p hp (by push_cast at hlt; omega)).2 hcount

theorem refineFold_spec (mzs intensities : List ℚ) (clusts : List ℤ)
    (closestDev d : ℚ)
    (hlen : mzs.length = clusts.length) (hilen : intensities.length = clusts.length)
    (hmzB : ∀ x ∈ mzs, 0 < x ∧ x < 100000) (hintB : ∀ x ∈ intensities, 0 < x) :
    ∀ (n j : ℕ) (nc : List ℤ) (mc : ℤ),
    FoldInv mzs clusts d j nc mc →
    FoldInv mzs clusts d (j + n)
      (((List.range' j n).map (fun t : ℕ => (t, (t : ℤ)))).foldl
        (refineBody mzs intensities clusts closestDev (some d)) (nc, mc)).1
      (((List.range' j n).map (fun t : ℕ => (t, (t : ℤ)))).foldl
        (refineBody mzs intensities clusts closestDev (some d)) (nc, mc)).2 := by
  intro n
  induction n with
  | zero =>
    intro j nc mc hInv
    simpa using hInv
  | succ n ihn =>
    intro j nc mc hInv
    rw [List.range'_succ, List.map_cons, List.foldl_cons]
    have hstep := refineBody_step mzs intensities clusts closestDev d hlen hilen
      hmzB hintB j nc mc hInv
    have hrec := ihn (j + 1)
      (refineBody mzs intensities clusts closestDev (some d) (nc, mc)
        (j, (j : ℤ))).1
      (refineBody mzs intensities clusts closestDev (some d) (nc, mc)
        (j, (j : ℤ))).2
      hstep
    rw [show j + (n + 1) = j + 1 + n from by omega]
    exact hrec

/-- C2: when `max_mz_deviation_ppm` is set, every sub-cluster returned by
`refine_clustering` with at least two signals has PPM spread
`(max mz − min mz) / mean mz × 1e6` at most `max_mz_deviation_ppm`.  Proved
on the pipeline's domain: dense nonnegative crude ids, masses in
`(0, 100000)` (so the `+ |used| * 1E6` distance penalty dominates every
mass difference and the growth loop always picks an unassigned signal) and
positive intensities (so every seed `np.argmax(intensities_ * (used == 0))`
is an unassigned signal). -/
theorem claim_C2 (mzs intensities : List ℚ) (clusts : List ℤ)
    (closestDev d : ℚ)
    (hlen : mzs.length = clusts.length)
    (hilen : intensities.length = clusts.length)
    (hdense : ∀ x ∈ clusts, 0 ≤ x ∧ x < ((uniqSorted clusts).length : ℤ))
    (hmzB : ∀ x ∈ mzs, 0 < x ∧ x < 100000)
    (hintB : ∀ x ∈ intensities, 0 < x) :
    ∀ w : ℤ,
      2 ≤ (globIdx (refine_clustering mzs intensities clusts closestDev
        (some d)) w).length →
      ppmSpread (globMzs mzs (refine_clustering mzs intensities clusts
        closestDev (some d)) w) ≤ d := by
  have hpairs : (uniqSorted clusts).enum =
      (List.range' 0 (uniqSorted clusts).length).map
        (fun t : ℕ => (t, (t : ℤ))) := by
    rw [enum_uniqSorted_dense clusts hdense, List.range_eq_range']
  have hout : refine_clustering mzs intensities clusts closestDev (some d) =
      (((List.range' 0 (uniqSorted clusts).length).map
        (fun t : ℕ => (t, (t : ℤ)))).foldl
        (refineBody mzs intensities clusts closestDev (some d))
        (clusts, listMaxZ clusts)).1 := by
    rw [refine_clustering, hpairs]
  have hInit : FoldInv mzs clusts d 0 clusts (listMaxZ clusts) := by
    refine ⟨rfl, le_refl _, fun p _ _ => rfl, ?_, ?_, ?_⟩
    · intro p hp
      have := le_listMaxZ clusts _ (getD_mem_of_lt clusts p 0 hp)
      omega
    · intro p hp hlt
      have := (hdense _ (getD_mem_of_lt clusts p 0 hp)).1
      exact absurd hlt (by push_cast; omega)
    · intro w hw h2
      have hnil : globIdx clusts w = [] := by
        refine List.eq_nil_iff_forall_not_mem.mpr ?_
        intro p hp
        rcases (globIdx_mem clusts w p).mp hp with ⟨hpl, hpw⟩
        have := le_listMaxZ clusts _ (getD_mem_of_lt clusts p 0 hpl)
        omega
      rw [hnil] at h2
      simp at h2
  have hfold := refineFold_spec mzs intensities clusts closestDev d hlen hilen
    hmzB hintB (uniqSorted clusts).length 0 clusts (listMaxZ clusts) hInit
  intro w h2
  rw [hout] at h2 ⊢
  by_cases hw : listMaxZ clusts < w
  · exact hfold.spread w hw h2
  · exfalso
    have hnd : (globIdx (((List.range' 0 (uniqSorted clusts).length).map
        (fun t : ℕ => (t, (t : ℤ)))).foldl
        (refineBody mzs intensities clusts closestDev (some d))
        (clusts, listMaxZ clusts)).1 w).Nodup :=
      List.Pairwise.imp (fun h => Nat.ne_of_lt h) (globIdx_pairwise _ w)
    rcases exists_two_of_le_length _ hnd h2 with ⟨p1, p2, hp1, hp2, hne⟩
    have key : ∀ p, p ∈ globIdx (((List.range' 0 (uniqSorted clusts).length).map
        (fun t : ℕ => (t, (t : ℤ)))).foldl
        (refineBody mzs intensities clusts closestDev (some d))
        (clusts, listMaxZ clusts)).1 w →
        p < clusts.length ∧ clusts.getD p 0 = w := by
      intro p hp
      rcases (globIdx_mem _ w p).mp hp with ⟨hpl, hpw⟩
      have hpl2 : p < clusts.length := by rw [← hfold.len]; exact hpl
      have hdp := (hdense _ (getD_mem_of_lt clusts p 0 hpl2)).2
      have hdone := hfold.done p hpl2 (by push_cast; omega)
      refine ⟨hpl2, ?_⟩
      by_cases hcnt : 1 < clusts.count (clusts.getD p 0)
      · have := hdone.1 hcnt
        omega
      · have := hdone.2 hcnt
        omega
    have hk1 := key p1 hp1
    have hk2 := key p2 hp2
    have hm1 : p1 ∈ positionsOf clusts w :=
      (positionsOf_mem clusts w p1).mpr ⟨hk1.1, hk1.2⟩
    have hm2 : p2 ∈ positionsOf clusts w :=
      (positionsOf_mem clusts w p2).mpr ⟨hk2.1, hk2.2⟩
    have h2c : 2 ≤ (positionsOf clusts w).length :=
      two_mem_le_length _ p1 p2 hm1 hm2 hne
    rw [positionsOf_length] at h2c
    have hdone1 := hfold.done p1 hk1.1 (by
      have := (hdense _ (getD_mem_of_lt clusts p1 0 hk1.1)).2
      push_cast
      omega)
    have hbig := hdone1.1 (by rw [hk1.2]; omega)
    rcases (globIdx_mem _ w p1).mp hp1 with ⟨_, hpw1⟩
    omega

/-- Witness for C2 on a concrete two-signal pool with dense ids, masses in
the admissible range and positive intensities. -/
theorem claim_C2_witness :
    (∀ x ∈ ([100, 200] : List ℚ), 0 < x ∧ x < 100000) ∧
    (∀ w : ℤ,
      2 ≤ (globIdx (refine_clustering [100, 200] [1, 2] [0, 1] 15
        (some 10)) w).length →
      ppmSpread (globMzs [100, 200] (refine_clustering [100, 200] [1, 2] [0, 1]
        15 (some 10)) w) ≤ 10) :=
  ⟨by decide, claim_C2 [100, 200] [1, 2] [0, 1] 15 10 (by decide) (by decide)
    (by decide) (by decide) (by decide)⟩

end TidyMS
